import Mathlib

/-!
# Verification of the two-phase external merge sort

Shallow embedding of the C++ sources of the External-Sorting repository
(`project1/RunFile.h`, `project1/OutputBuffer.h`, `project2/InputBuffer.h`,
`project2/LoserTree.h`, `project2/RunGenerator.h`, `project2/Merger.h`)
and proofs of the testable properties stated in the specification.

Modelling conventions:
* the element type `T` is the 32-bit signed integer of the reference
  configuration; values are embedded as `Int` (the code performs no
  arithmetic on elements, only comparisons, so no wrap-around can occur;
  the `int` run-id counter is embedded as `Int` and theorems that depend
  on the sentinel run id `INT_MAX` carry the hypothesis that the counter
  stays below `2^31 - 1`, which holds whenever it holds for the C++ `int`);
* `std::vector` becomes `List` with explicit indexed access (`List.getD`)
  and update (`List.set`), both of which agree with the C++ behaviour on
  every in-bounds access (out-of-bounds accesses are UB in C++ and are
  never performed in reachable states);
* the run-storage file is split into its three on-disk regions
  (header, directory, data); offsets into the data region are counted in
  elements.  The C++ code measures offsets in bytes from the start of the
  file; since the header and directory have fixed size and every data
  offset is produced and consumed through the same `sizeof(T)` scaling,
  the two views are related by a fixed affine bijection and the embedding
  is exact on every observable access;
* `fstream` writes become a total function `writeAt` on the data region;
  loops become fuel-structural recursions, with the canonical sufficient
  fuel supplied by the top-level wrappers.
-/

namespace ExtSort

/-- `RunMetadata` from `project1/RunFile.h`: one directory slot. -/
structure RunMetadata where
  startOffset : Nat
  elementCount : Nat
  isUsed : Bool
deriving Repr, DecidableEq

/-- The default-constructed (free) directory slot. -/
def RunMetadata.free : RunMetadata := ⟨0, 0, false⟩

/-- `RunFileHeader` from `project1/RunFile.h`. -/
structure RunFileHeader where
  magic : String
  maxRuns : Nat
  currentRunCount : Nat
deriving Repr, DecidableEq

/-- The bytes of the run-storage file, split into its three regions:
header, directory (`maxRuns` slots) and the packed element data. -/
structure DiskImage where
  header : RunFileHeader
  dir : List RunMetadata
  data : List Int
deriving Repr, DecidableEq

/-- The `RunFile` object: the open flag of the `fstream`, the in-memory
header and directory copies, and the backing file. -/
structure RunFile where
  isOpen : Bool
  header : RunFileHeader
  directory : List RunMetadata
  disk : DiskImage
deriving Repr, DecidableEq

/-- A `RunFile` object as just constructed (no file contents yet). -/
def RunFile.init : RunFile :=
  ⟨false, ⟨"", 0, 0⟩, [], ⟨⟨"", 0, 0⟩, [], []⟩⟩

/-- `fstream` write of `vs` at (element) offset `off`: overwrites the
range `[off, off + vs.length)`, zero-filling any gap beyond the old end of
file, and keeps all other positions. -/
def writeAt (data : List Int) (off : Nat) (vs : List Int) : List Int :=
  data.take off ++ List.replicate (off - data.length) 0 ++ vs
    ++ data.drop (off + vs.length)

/-- `RunFile::writeMetadataToDisk`: writes the single in-memory directory
entry `runId` back to the directory region; silently does nothing when the
file is not open or `runId` is out of range. -/
def RunFile.writeMetadataToDisk (rf : RunFile) (runId : Int) : RunFile :=
  if ¬rf.isOpen ∨ runId < 0 ∨ (rf.header.maxRuns : Int) ≤ runId then rf
  else
    { rf with
      disk := { rf.disk with
        dir := rf.disk.dir.set runId.toNat
          (rf.directory.getD runId.toNat RunMetadata.free) } }

/-- `RunFile::create`: truncates the file, writes a fresh header with
magic `"RUNS"` and `maxRuns` zero-initialised directory entries, then
closes the file. -/
def RunFile.create (_rf : RunFile) (maxRuns : Nat) : RunFile :=
  let hdr : RunFileHeader := ⟨"RUNS", maxRuns, 0⟩
  { isOpen := false
    header := hdr
    directory := List.replicate maxRuns RunMetadata.free
    disk := ⟨hdr, List.replicate maxRuns RunMetadata.free, []⟩ }

/-- `RunFile::open`: reopens the file, validates the magic (refusing to
open otherwise) and loads the directory (`maxRuns` entries, as recorded in
the on-disk header) into memory. -/
def RunFile.openFile (rf : RunFile) : Option RunFile :=
  if rf.disk.header.magic = "RUNS" then
    some { rf with
      isOpen := true
      header := rf.disk.header
      directory :=
        rf.disk.dir.take rf.disk.header.maxRuns
          ++ List.replicate (rf.disk.header.maxRuns - rf.disk.dir.length)
              RunMetadata.free }
  else none

/-- `RunFile::close`: flushes (every model write is already on disk) and
closes the handle. -/
def RunFile.close (rf : RunFile) : RunFile :=
  { rf with isOpen := false }

/-- `RunFile::allocateNewRun`: linear scan for the first free slot; flips
it to used with zeroed offset/count, writes that one slot to disk and
bumps the in-memory `currentRunCount`.  Returns `-1` when the directory is
full. -/
def RunFile.allocateNewRun (rf : RunFile) : Int × RunFile :=
  match (List.range rf.header.maxRuns).find?
      (fun i => ¬(rf.directory.getD i RunMetadata.free).isUsed) with
  | some i =>
      let rf' := { rf with
        directory := rf.directory.set i ⟨0, 0, true⟩ }
      let rf'' := rf'.writeMetadataToDisk (i : Int)
      ((i : Int),
        { rf'' with
          header := { rf''.header with
            currentRunCount := rf''.header.currentRunCount + 1 } })
  | none => (-1, rf)

/-- `RunFile::updateRunMetadata`: throws `out_of_range` for an invalid
`runId` (the throw happens before any mutation, so the object is returned
unchanged next to the error); otherwise overwrites that entry's offset and
count (in memory and on disk). -/
def RunFile.updateRunMetadata (rf : RunFile) (runId : Int)
    (startOffset elementCount : Nat) : Option String × RunFile :=
  if runId < 0 ∨ (rf.header.maxRuns : Int) ≤ runId then
    (some "Invalid runId in updateRunMetadata.", rf)
  else
    let old := rf.directory.getD runId.toNat RunMetadata.free
    let rf' := { rf with
      directory := rf.directory.set runId.toNat
        ⟨startOffset, elementCount, old.isUsed⟩ }
    (none, rf'.writeMetadataToDisk runId)

/-- `RunFile::getRunMetadata`: returns the in-memory copy, throwing on an
invalid id. -/
def RunFile.getRunMetadata (rf : RunFile) (runId : Int) :
    Except String RunMetadata :=
  if runId < 0 ∨ (rf.header.maxRuns : Int) ≤ runId then
    .error "Invalid runId in getRunMetadata."
  else .ok (rf.directory.getD runId.toNat RunMetadata.free)

/-- `RunFile::getAppendOffset`: seeks to end of file and returns the
current length of the data region. -/
def RunFile.getAppendOffset (rf : RunFile) : Nat :=
  rf.disk.data.length

/-- A write of raw elements through the shared stream
(`RunFile::getStream`), as performed by `OutputBuffer::writeBlock` and the
generator's output worker; a closed stream drops the write. -/
def RunFile.writeData (rf : RunFile) (off : Nat) (vs : List Int) : RunFile :=
  if rf.isOpen then
    { rf with disk := { rf.disk with data := writeAt rf.disk.data off vs } }
  else rf

/-! ## The RunFile lifecycle (claims C7, C8, C9) -/

/-- One mutation step of an open run file, as allowed by the lifecycle:
allocating a slot, sealing a slot, or writing an element range into the
data region. -/
inductive RFOp
  | alloc
  | update (runId : Int) (startOffset elementCount : Nat)
  | writeData (off : Nat) (vs : List Int)
deriving Repr

def applyOp (rf : RunFile) : RFOp → Except String RunFile
  | .alloc => .ok (rf.allocateNewRun).2
  | .update r s c =>
      match rf.updateRunMetadata r s c with
      | (some e, _) => .error e
      | (none, rf') => .ok rf'
  | .writeData off vs => .ok (rf.writeData off vs)

def applyOps (rf : RunFile) : List RFOp → Except String RunFile
  | [] => .ok rf
  | op :: ops => match applyOp rf op with
    | .ok rf' => applyOps rf' ops
    | .error e => .error e

/-- The number of used directory slots. -/
def usedCount (rf : RunFile) : Nat :=
  rf.directory.countP (fun m => m.isUsed)

/-- Invariant of an open run file during one session: the in-memory and
on-disk directories agree, the magic is valid, the directory has exactly
`maxRuns` slots, and the in-memory `currentRunCount` counts the used
slots. -/
def SessionInv (rf : RunFile) : Prop :=
  rf.isOpen = true ∧
  rf.disk.header.magic = "RUNS" ∧
  rf.header.maxRuns = rf.disk.header.maxRuns ∧
  rf.directory.length = rf.header.maxRuns ∧
  rf.disk.dir = rf.directory ∧
  rf.header.currentRunCount = usedCount rf

/-- The run file freshly produced by `create(maxRuns)` followed by
`open()`. -/
def freshRF (maxRuns : Nat) : RunFile :=
  ⟨true, ⟨"RUNS", maxRuns, 0⟩, List.replicate maxRuns RunMetadata.free,
    ⟨⟨"RUNS", maxRuns, 0⟩, List.replicate maxRuns RunMetadata.free, []⟩⟩

/-- The run file reached by `create(1); open(); allocateNewRun(); close();
open()`: the reopened header has `currentRunCount = 0` (the header is
never rewritten after `create`) while one slot is in use. -/
def CE8 : RunFile :=
  ⟨true, ⟨"RUNS", 1, 0⟩, [⟨0, 0, true⟩], ⟨⟨"RUNS", 1, 0⟩, [⟨0, 0, true⟩], []⟩⟩

/-- The run file reached from `create(1); open()` by one `allocateNewRun`
(still within the session). -/
def C8mid : RunFile :=
  ⟨true, ⟨"RUNS", 1, 1⟩, [⟨0, 0, true⟩], ⟨⟨"RUNS", 1, 0⟩, [⟨0, 0, true⟩], []⟩⟩

/-- Concrete op list for the round-trip witness. -/
def C7ops : List RFOp := [.alloc, .writeData 0 [7, 9], .update 0 0 2]

/-- The state reached from `create(2); open()` by `C7ops`. -/
def C7rf₁ : RunFile :=
  ⟨true, ⟨"RUNS", 2, 1⟩, [⟨0, 2, true⟩, ⟨0, 0, false⟩],
    ⟨⟨"RUNS", 2, 0⟩, [⟨0, 2, true⟩, ⟨0, 0, false⟩], [7, 9]⟩⟩

/-! ## InputBuffer, OutputBuffer and the pairwise merge -/

/-- The contiguous element range `[off, off + n)` of the data region (what
a sequence of reads of a run returns). -/
def slice (data : List Int) (off n : Nat) : List Int :=
  (data.drop off).take n

/-- The elements of a run on disk. -/
def readRun (rf : RunFile) (meta : RunMetadata) : List Int :=
  slice rf.disk.data meta.startOffset meta.elementCount

/-- `InputBuffer` from `project2/InputBuffer.h`: block-wise sequential
reader scoped to one run. -/
structure InputBuffer where
  runMeta : RunMetadata
  bufferSizeInElements : Nat
  buffer : List Int
  currentIndexInBuffer : Nat
  elementsInBuffer : Nat
  totalElementsRead : Nat
deriving Repr, DecidableEq

/-- The `InputBuffer` constructor (buffer preallocated, initially empty). -/
def InputBuffer.mk0 (meta : RunMetadata) (bufSize : Nat) : InputBuffer :=
  ⟨meta, bufSize, List.replicate bufSize 0, 0, 0, 0⟩

/-- `InputBuffer::readBlock`: refills the buffer with the next
`min(blockCapacity, remaining)` elements of the run, read at
`startOffset + totalElementsRead`; fails exactly when the run is
exhausted (or the capacity is zero). -/
def InputBuffer.readBlock (ib : InputBuffer) (data : List Int) :
    Option InputBuffer :=
  if ib.runMeta.elementCount ≤ ib.totalElementsRead then none
  else
    let elementsToRead :=
      min ib.bufferSizeInElements (ib.runMeta.elementCount - ib.totalElementsRead)
    if elementsToRead = 0 then none
    else
      let readOffset := ib.runMeta.startOffset + ib.totalElementsRead
      some { ib with
        buffer := slice data readOffset elementsToRead
        elementsInBuffer := elementsToRead
        totalElementsRead := ib.totalElementsRead + elementsToRead
        currentIndexInBuffer := 0 }

/-- `InputBuffer::getNextItem`: serves the next element from the buffer,
refilling it from disk when empty; `none` exactly when the run is
exhausted. -/
def InputBuffer.getNextItem (ib : InputBuffer) (data : List Int) :
    Option (Int × InputBuffer) :=
  if ib.elementsInBuffer ≤ ib.currentIndexInBuffer then
    match ib.readBlock data with
    | none => none
    | some ib2 =>
        some (ib2.buffer.getD ib2.currentIndexInBuffer 0,
          { ib2 with currentIndexInBuffer := ib2.currentIndexInBuffer + 1 })
  else
    some (ib.buffer.getD ib.currentIndexInBuffer 0,
      { ib with currentIndexInBuffer := ib.currentIndexInBuffer + 1 })

/-- Reading a run element by element until `getNextItem` returns false. -/
def InputBuffer.drain (fuel : Nat) (ib : InputBuffer) (data : List Int) :
    List Int :=
  match fuel with
  | 0 => []
  | fuel + 1 =>
    match ib.getNextItem data with
    | none => []
    | some (v, ib2) => v :: ib2.drain fuel data

/-- The sequence of elements obtained by reading the run `meta` back
element by element through an `InputBuffer` of capacity `bufSize`. -/
def readBackThroughInputBuffer (rf : RunFile) (meta : RunMetadata)
    (bufSize : Nat) : List Int :=
  InputBuffer.drain (meta.elementCount + 1) (InputBuffer.mk0 meta bufSize)
    rf.disk.data

/-- `OutputBuffer` from `project1/OutputBuffer.h`: block-wise sequential
writer scoped to one run's start offset.  The fixed-capacity block plus
fill index of the C++ code is embedded as the list of the
`currentBufferIndex` pending elements (slots beyond the fill index are
never read). -/
structure OutputBuffer where
  runStartOffset : Nat
  bufferSizeInElements : Nat
  buffer : List Int
  totalElementsWritten : Nat
deriving Repr, DecidableEq

/-- The `OutputBuffer` constructor. -/
def OutputBuffer.mk0 (startOffset bufSize : Nat) : OutputBuffer :=
  ⟨startOffset, bufSize, [], 0⟩

/-- `OutputBuffer::writeBlock`: writes the pending block at
`runStartOffset + totalElementsWritten` and resets the fill index;
does nothing when the stream is closed or the block is empty. -/
def OutputBuffer.writeBlock (ob : OutputBuffer) (rf : RunFile) :
    OutputBuffer × RunFile :=
  if ¬rf.isOpen ∨ ob.buffer.length = 0 then (ob, rf)
  else
    let writeOffset := ob.runStartOffset + ob.totalElementsWritten
    (({ ob with
        buffer := []
        totalElementsWritten := ob.totalElementsWritten + ob.buffer.length }),
      rf.writeData writeOffset ob.buffer)

/-- `OutputBuffer::setNextItem`: appends into the block; on fill, writes
the whole block. -/
def OutputBuffer.setNextItem (ob : OutputBuffer) (v : Int) (rf : RunFile) :
    OutputBuffer × RunFile :=
  let ob2 := { ob with buffer := ob.buffer ++ [v] }
  if ob2.buffer.length = ob.bufferSizeInElements then ob2.writeBlock rf
  else (ob2, rf)

/-- `OutputBuffer::flush`: writes any partial block (the underlying
stream flush has no observable effect in the model). -/
def OutputBuffer.flush (ob : OutputBuffer) (rf : RunFile) :
    OutputBuffer × RunFile :=
  if 0 < ob.buffer.length then ob.writeBlock rf else (ob, rf)

/-- `OutputBuffer::getElementCount`: `totalElementsWritten` plus the
pending fill. -/
def OutputBuffer.getElementCount (ob : OutputBuffer) : Nat :=
  ob.totalElementsWritten + ob.buffer.length

/-- The two-way merge rule of the specification: emit the head of `A`
when strictly `itemA < itemB`, emit the head of `B` on ties, and drain
the remaining tail of whichever input is not exhausted. -/
def mergeSpec : List Int → List Int → List Int
  | [], bs => bs
  | a :: as, [] => a :: as
  | a :: as, b :: bs =>
    if a < b then a :: mergeSpec as (b :: bs)
    else b :: mergeSpec (a :: as) bs
termination_by as bs => as.length + bs.length
decreasing_by all_goals simp

/-- The merge loop of `Merger::MergeInMem` (steps 4–6): the main
two-way loop plus the two tail-draining loops, with `hasA`/`itemA`
carried as an `Option`.  One element is consumed per step; the fuel is
bounded below by the number of remaining elements plus one. -/
def mergeLoop (fuel : Nat) (oA oB : Option (Int × InputBuffer))
    (ob : OutputBuffer) (rf : RunFile) : OutputBuffer × RunFile :=
  match fuel with
  | 0 => (ob, rf)
  | fuel + 1 =>
    match oA, oB with
    | some (a, ibA), some (b, ibB) =>
      if a < b then
        let p := ob.setNextItem a rf
        mergeLoop fuel (ibA.getNextItem p.2.disk.data) (some (b, ibB)) p.1 p.2
      else
        let p := ob.setNextItem b rf
        mergeLoop fuel (some (a, ibA)) (ibB.getNextItem p.2.disk.data) p.1 p.2
    | some (a, ibA), none =>
        let p := ob.setNextItem a rf
        mergeLoop fuel (ibA.getNextItem p.2.disk.data) none p.1 p.2
    | none, some (b, ibB) =>
        let p := ob.setNextItem b rf
        mergeLoop fuel none (ibB.getNextItem p.2.disk.data) p.1 p.2
    | none, none => (ob, rf)

/-- `Merger::MergeInMem`: allocate a directory slot for the merged run,
record its start offset from the append position, create the two input
buffers and the output buffer (1024 elements each, the
`MERGE_*_BUFFER_ELEMENTS` constants), run the two-way merge, flush, seal
the new run's directory entry and return its metadata. -/
def MergeInMem (rf : RunFile) (runA runB : RunMetadata) :
    Except String (RunMetadata × RunFile) :=
  let a := rf.allocateNewRun
  if a.1 = -1 then .error "RunFile directory is full during merge."
  else
    let rf₁ := a.2
    let startOffset := rf₁.getAppendOffset
    let ibA := InputBuffer.mk0 runA 1024
    let ibB := InputBuffer.mk0 runB 1024
    let outBuf := OutputBuffer.mk0 startOffset 1024
    let oA := ibA.getNextItem rf₁.disk.data
    let oB := ibB.getNextItem rf₁.disk.data
    let r := mergeLoop (runA.elementCount + runB.elementCount + 1) oA oB outBuf rf₁
    let f := r.1.flush r.2
    let totalElements := f.1.getElementCount
    let u := f.2.updateRunMetadata a.1 startOffset totalElements
    match u.1 with
    | some e => .error e
    | none =>
      match u.2.getRunMetadata a.1 with
      | .error e => .error e
      | .ok m => .ok (m, u.2)

/-- A concrete run file holding two sorted runs `[1, 5]` and `[3]` with a
free third slot (used by the merge witness). -/
def W4rf : RunFile :=
  ⟨true, ⟨"RUNS", 3, 2⟩,
    [⟨0, 2, true⟩, ⟨2, 1, true⟩, ⟨0, 0, false⟩],
    ⟨⟨"RUNS", 3, 0⟩, [⟨0, 2, true⟩, ⟨2, 1, true⟩, ⟨0, 0, false⟩], [1, 5, 3]⟩⟩

def W4runA : RunMetadata := ⟨0, 2, true⟩

def W4runB : RunMetadata := ⟨2, 1, true⟩

/-- The pop of the `std::priority_queue` min-heap of `externalMergeSort`
(comparator `CompareRunMetadata`, keyed on `elementCount`): removes a run
of minimal element count.  The C++ heap breaks ties by its internal
layout; the model fixes the first minimal element — none of the proved
driver properties depend on that choice. -/
def popMin : List RunMetadata → Option (RunMetadata × List RunMetadata)
  | [] => none
  | m :: rest =>
    match popMin rest with
    | none => some (m, [])
    | some (m2, rest2) =>
      if m.elementCount ≤ m2.elementCount then some (m, rest)
      else some (m2, m :: rest2)

/-- The merge loop of `Merger::externalMergeSort`: while more than one
run remains, pop the two smallest, merge them and push the result.  One
merge per iteration; the heap shrinks by one each time, so the initial
heap size bounds the iterations. -/
def externalMergeSortLoop (fuel : Nat) (heap : List RunMetadata)
    (rf : RunFile) : Except String (RunMetadata × RunFile) :=
  match fuel with
  | 0 => .error "out of fuel"
  | fuel + 1 =>
    if heap.length ≤ 1 then
      match heap with
      | [] => .error "externalMergeSort called with no runs"
      | m :: _ => .ok (m, rf)
    else
      match popMin heap with
      | none => .error "empty heap"
      | some pA =>
        match popMin pA.2 with
        | none => .error "empty heap"
        | some pB =>
          match MergeInMem rf pA.1 pB.1 with
          | .error e => .error e
          | .ok r => externalMergeSortLoop fuel (r.1 :: pB.2) r.2

/-- `Merger::externalMergeSort`. -/
def externalMergeSort (initialRuns : List RunMetadata) (rf : RunFile) :
    Except String (RunMetadata × RunFile) :=
  externalMergeSortLoop (initialRuns.length + 1) initialRuns rf

/-- Every run recorded in the heap lies inside the data region and is
sorted on disk. -/
def HeapOK (rf : RunFile) (heap : List RunMetadata) : Prop :=
  ∀ m ∈ heap, m.startOffset + m.elementCount ≤ rf.disk.data.length
    ∧ List.Sorted (· ≤ ·) (readRun rf m)

/-- Well-formedness of an `InputBuffer` whose run has been consumed up to
position `consumed`: the cursors are consistent and the meaningful prefix
of the buffer holds the block last read from disk. -/
def IBat (ib : InputBuffer) (data : List Int) (consumed : Nat) : Prop :=
  ib.currentIndexInBuffer ≤ ib.elementsInBuffer ∧
  ib.elementsInBuffer ≤ ib.totalElementsRead ∧
  ib.totalElementsRead ≤ ib.runMeta.elementCount ∧
  consumed + ib.elementsInBuffer = ib.totalElementsRead + ib.currentIndexInBuffer ∧
  0 < ib.bufferSizeInElements ∧
  ib.buffer.take ib.elementsInBuffer
    = slice data
        (ib.runMeta.startOffset + (ib.totalElementsRead - ib.elementsInBuffer))
        ib.elementsInBuffer

/-- The state of the `hasX`/`itemX` pair of `MergeInMem` after `consumed`
elements of the run `meta` have been pulled: either the run is exhausted,
or the pulled head is the element at position `consumed` and the buffer
sits at position `consumed + 1`. -/
def streamAt (o : Option (Int × InputBuffer)) (meta : RunMetadata)
    (data : List Int) (consumed : Nat) : Prop :=
  match o with
  | none => consumed = meta.elementCount
  | some (a, ib) =>
      ib.runMeta = meta ∧ consumed < meta.elementCount ∧
      a = data.getD (meta.startOffset + consumed) 0 ∧ IBat ib data (consumed + 1)

/-- An `OutputBuffer` in the middle of producing a run: the file consists
of the stable prefix `below` (the run starts right after it) followed by
the `flushed` part of the run; the pending block is not full. -/
def OBrun (ob : OutputBuffer) (rf : RunFile) (below flushed : List Int) : Prop :=
  ob.runStartOffset = below.length ∧
  rf.disk.data = below ++ flushed ∧
  ob.totalElementsWritten = flushed.length ∧
  ob.buffer.length < ob.bufferSizeInElements ∧
  rf.isOpen = true

/-- Everything of a run file except the data region is untouched. -/
def rfFrame (rf rf2 : RunFile) : Prop :=
  rf2.isOpen = rf.isOpen ∧ rf2.header = rf.header ∧
  rf2.directory = rf.directory ∧ rf2.disk.header = rf.disk.header ∧
  rf2.disk.dir = rf.disk.dir

/-! ### The loser tree (`project2/LoserTree.h`) -/

/-- `std::numeric_limits<int>::max()`. -/
def intMax : Int := 2 ^ 31 - 1

/-- `RunNode` from `project2/LoserTree.h`: an element tagged with its
run id. -/
structure RunNode where
  value : Int
  runID : Int
deriving Repr, DecidableEq

/-- The sentinel node (the `RunNode()` default constructor and the
`SENTINEL` member): maximal value, maximal run id. -/
def SENTINEL : RunNode := ⟨intMax, intMax⟩

/-- `LoserTree::isLoser`: `playerA` loses to `playerB` — larger run id
loses; on equal run ids the larger value loses. -/
def isLoser (playerA playerB : RunNode) : Bool :=
  if playerA.runID ≠ playerB.runID then playerA.runID > playerB.runID
  else playerA.value > playerB.value

/-- The state of `LoserTree<T>`: `k`, the internal-node array `tree`
(holding leaf indices of parked losers, `tree[0]` the overall winner)
and the `k + 1` leaves (`leaves[k]` is the sentinel slot). -/
structure LoserTree where
  k : Nat
  tree : List Nat
  leaves : List RunNode
deriving Repr, DecidableEq

/-- The `while (parent > 0)` loop of `LoserTree::replay`: walk from
`parent` up to the root, swapping the carried winner with the stored
loser whenever the carried winner loses.  Returns the updated internal
array and the final winner.  The parent index at least halves each
iteration, so any fuel with `parent < 2 ^ fuel` computes the exact loop
result. -/
def replayGo (fuel : Nat) (parent cur : Nat) (tree : List Nat)
    (leaves : List RunNode) : List Nat × Nat :=
  match fuel with
  | 0 => (tree, cur)
  | fuel + 1 =>
    if 0 < parent then
      if isLoser (leaves.getD cur SENTINEL)
          (leaves.getD (tree.getD parent 0) SENTINEL) then
        replayGo fuel (parent / 2) (tree.getD parent 0)
          (tree.set parent cur) leaves
      else
        replayGo fuel (parent / 2) cur tree leaves
    else (tree, cur)

/-- `LoserTree::replay`. -/
def LoserTree.replay (lt : LoserTree) (playerIndex : Nat) : LoserTree :=
  let r := replayGo (lt.k + 1) ((playerIndex + lt.k) / 2) playerIndex
    lt.tree lt.leaves
  { lt with tree := r.1.set 0 r.2 }

/-- `LoserTree::getWinner`. -/
def LoserTree.getWinner (lt : LoserTree) : RunNode :=
  lt.leaves.getD (lt.tree.getD 0 0) SENTINEL

/-- `LoserTree::replaceWinner`. -/
def LoserTree.replaceWinner (lt : LoserTree) (newValue newRunID : Int) :
    LoserTree :=
  let idx := lt.tree.getD 0 0
  ({ lt with leaves := lt.leaves.set idx ⟨newValue, newRunID⟩ }).replay idx

/-- `LoserTree::setWinnerToSentinel`. -/
def LoserTree.setWinnerToSentinel (lt : LoserTree) : LoserTree :=
  let idx := lt.tree.getD 0 0
  ({ lt with leaves := lt.leaves.set idx SENTINEL }).replay idx

/-- The `while (parent > 0)` loop of one iteration of the build phase of
`LoserTree::initialize` (modelled under the name `initTree`): the walker
parks at the first empty internal node (`tree[parent] == k`), otherwise
plays the stored entry and continues upward; a walk that reaches the
root records its carried winner in `tree[0]`. -/
def buildGo (fuel k cur parent : Nat) (tree : List Nat)
    (leaves : List RunNode) : List Nat :=
  match fuel with
  | 0 => tree
  | fuel + 1 =>
    if 0 < parent then
      if tree.getD parent 0 = k then tree.set parent cur
      else
        if isLoser (leaves.getD cur SENTINEL)
            (leaves.getD (tree.getD parent 0) SENTINEL) then
          buildGo fuel k (tree.getD parent 0) (parent / 2)
            (tree.set parent cur) leaves
        else
          buildGo fuel k cur (parent / 2) tree leaves
    else tree.set 0 cur

/-- The build loop `for (int i = k - 1; i >= 0; --i)` of
`LoserTree::initialize`: `initLoop k leaves n t` performs the iterations
`i = n - 1` down to `i = 0`. -/
def initLoop (k : Nat) (leaves : List RunNode) :
    Nat → List Nat → List Nat
  | 0, tree => tree
  | n + 1, tree =>
    initLoop k leaves n (buildGo (k + 1) k n ((n + k) / 2) tree leaves)

/-- `LoserTree::initialize` (the C++ identifier is shortened to
`initTree` here): fill the leaves with the data (run id 1) or sentinels,
reset every internal node to the empty marker `k`, then run the
tournament build. -/
def LoserTree.initTree (k : Nat) (initialData : List Int) : LoserTree :=
  let leaves := ((List.range k).map fun i =>
    if i < initialData.length then RunNode.mk (initialData.getD i 0) 1
    else SENTINEL) ++ [SENTINEL]
  { k := k
    tree := initLoop k leaves k (List.replicate k k)
    leaves := leaves }

/-! ### The naive linear-scan reference selector

The following definitions are modelled from the specification's words
("a naive O(k) linear-scan min selection under the lexicographic
(runID, value) order"), not from the code; they are the reference side
of the refinement claim. -/

/-- Strict lexicographic (runID, value) comparison of the reference
selector. -/
def lexLT (a b : RunNode) : Bool :=
  if a.runID ≠ b.runID then a.runID < b.runID else a.value < b.value

/-- One linear scan over the remaining slots, keeping the first minimal
index and its node. -/
def naiveScanGo : List RunNode → Nat → Nat → RunNode → Nat × RunNode
  | [], _, best, bestNode => (best, bestNode)
  | x :: rest, i, best, bestNode =>
    if lexLT x bestNode then naiveScanGo rest (i + 1) i x
    else naiveScanGo rest (i + 1) best bestNode

/-- The naive selector: `k` slots, linear-scan minimum. -/
structure NaiveSel where
  slots : List RunNode
deriving Repr, DecidableEq

/-- Reference initialisation: the same `k` slots the tree fills (data
tagged with run id 1, sentinels past the data). -/
def NaiveSel.init (k : Nat) (initialData : List Int) : NaiveSel :=
  ⟨(List.range k).map fun i =>
    if i < initialData.length then RunNode.mk (initialData.getD i 0) 1
    else SENTINEL⟩

/-- The scan over all slots: first minimal index and its node. -/
def NaiveSel.scan (ns : NaiveSel) : Nat × RunNode :=
  match ns.slots with
  | [] => (0, SENTINEL)
  | x :: rest => naiveScanGo rest 1 0 x

def NaiveSel.getWinner (ns : NaiveSel) : RunNode := ns.scan.2

def NaiveSel.replaceWinner (ns : NaiveSel) (newValue newRunID : Int) :
    NaiveSel :=
  ⟨ns.slots.set ns.scan.1 ⟨newValue, newRunID⟩⟩

def NaiveSel.setWinnerToSentinel (ns : NaiveSel) : NaiveSel :=
  ⟨ns.slots.set ns.scan.1 SENTINEL⟩

/-- One selector operation (the two mutating entry points offered after
initialisation). -/
inductive LTOp where
  | replace (newValue newRunID : Int)
  | setSent
deriving Repr, DecidableEq

def LoserTree.applyLTOp (lt : LoserTree) : LTOp → LoserTree
  | .replace v rid => lt.replaceWinner v rid
  | .setSent => lt.setWinnerToSentinel

def NaiveSel.applyLTOp (ns : NaiveSel) : LTOp → NaiveSel
  | .replace v rid => ns.replaceWinner v rid
  | .setSent => ns.setWinnerToSentinel

/-- The sequence of `getWinner` results along an operation stream (the
winner before any operation, then after each operation). -/
def LoserTree.winnerTrace (lt : LoserTree) : List LTOp → List RunNode
  | [] => [lt.getWinner]
  | op :: ops => lt.getWinner :: (lt.applyLTOp op).winnerTrace ops

/-- The reference trace. -/
def NaiveSel.winnerTrace (ns : NaiveSel) : List LTOp → List RunNode
  | [] => [ns.getWinner]
  | op :: ops => ns.getWinner :: (ns.applyLTOp op).winnerTrace ops

/-! ### Tournament-tree invariant machinery -/

/-- Lexicographic (runID, value) `≤` on run nodes. -/
def lexLE (a b : RunNode) : Prop :=
  a.runID < b.runID ∨ (a.runID = b.runID ∧ a.value ≤ b.value)

instance (a b : RunNode) : Decidable (lexLE a b) := by
  unfold lexLE; infer_instance

/-- `j` is an ancestor-or-self of node `x` in the implicit tournament
tree in which the parent of node `x` is `x / 2` (leaf `i` is external
node `i + k`, internal nodes are `1, …, k - 1`). -/
def isUnder (j x : Nat) : Prop := ∃ n, x / 2 ^ n = j

/-- Number of tournament-build walk "passes" up through node `x` once
the leaves `i, …, k - 1` have been processed (leaf `l` is processed iff
`i ≤ l < k`).  An external node passes its leaf's walk on; an internal
node absorbs the first arrival (which parks) and passes the rest. -/
def passN (k i x : Nat) : Nat :=
  if x = 0 then 0
  else if k ≤ x then (if i ≤ x - k ∧ x - k < k then 1 else 0)
  else max (passN k i (2 * x) + passN k i (2 * x + 1)) 1 - 1
termination_by 2 * k - x
decreasing_by
  · omega
  · omega

/-- Leaf index `i` is parked at an internal node at-or-under `j`. -/
def insideP (k : Nat) (t : List Nat) (j i : Nat) : Prop :=
  ∃ jp, 1 ≤ jp ∧ jp < k ∧ isUnder j jp ∧ t.getD jp 0 = i

/-- The internal array read off as a list: entry `j` for `j < k`. -/
def fullEntries (k : Nat) (t : List Nat) : List Nat :=
  (List.range k).map fun j => t.getD j 0

/-- The loser-tree invariant: `tree` is a well-formed tournament over
the `k` real leaves of `L`.  Conjuncts: lengths; the winner index is a
real leaf; the entries are a permutation of the leaf indices; every
parked loser lies under its node; every leaf under a node is parked
inside that node's subtree or is a minimum of the leaves under it; the
non-parked leaf of each subtree is unique. -/
def INV (k : Nat) (t : List Nat) (L : List RunNode) : Prop :=
  t.length = k ∧ L.length = k + 1 ∧
  t.getD 0 0 < k ∧
  (fullEntries k t).Perm (List.range k) ∧
  (∀ j, 1 ≤ j → j < k → t.getD j 0 < k ∧ isUnder j (t.getD j 0 + k)) ∧
  (∀ j, 1 ≤ j → j < k → ∀ i, i < k → isUnder j (i + k) →
    insideP k t j i ∨
      ∀ i2, i2 < k → isUnder j (i2 + k) →
        lexLE (L.getD i SENTINEL) (L.getD i2 SENTINEL)) ∧
  (∀ j, 1 ≤ j → j < k → ∀ i i2, i < k → i2 < k →
    isUnder j (i + k) → isUnder j (i2 + k) →
    ¬insideP k t j i → ¬insideP k t j i2 → i = i2)

/-- Mid-loop invariant of `replay` at loop entry: parent `p`, carried
winner `cur`, internal array `t`, (already modified) leaves `L`. -/
def REntry (k : Nat) (L : List RunNode) (p cur : Nat) (t : List Nat) :
    Prop :=
  t.length = k ∧ cur < k ∧ isUnder p (cur + k) ∧
  (cur :: (fullEntries k t).tail).Perm (List.range k) ∧
  (∀ j, 1 ≤ j → j < k → t.getD j 0 < k ∧ isUnder j (t.getD j 0 + k)) ∧
  (∀ j, 1 ≤ j → j < k → ¬isUnder j p →
    ((∀ i, i < k → isUnder j (i + k) → insideP k t j i ∨
        ∀ i2, i2 < k → isUnder j (i2 + k) →
          lexLE (L.getD i SENTINEL) (L.getD i2 SENTINEL)) ∧
     (∀ i i2, i < k → i2 < k → isUnder j (i + k) → isUnder j (i2 + k) →
        ¬insideP k t j i → ¬insideP k t j i2 → i = i2))) ∧
  (∃ c, (c = 2 * p ∨ c = 2 * p + 1) ∧ isUnder c (cur + k) ∧
    (∀ i, i < k → isUnder c (i + k) →
      lexLE (L.getD cur SENTINEL) (L.getD i SENTINEL)) ∧
    (∀ i, i < k → isUnder c (i + k) → ¬insideP k t c i → i = cur))

/-- Exit state of the `replay` loop: all subtrees re-established, and
the final carried winner is a global minimum. -/
def RExit (k : Nat) (L : List RunNode) (cur : Nat) (t : List Nat) :
    Prop :=
  t.length = k ∧ cur < k ∧
  (cur :: (fullEntries k t).tail).Perm (List.range k) ∧
  (∀ j, 1 ≤ j → j < k → t.getD j 0 < k ∧ isUnder j (t.getD j 0 + k)) ∧
  (∀ j, 1 ≤ j → j < k →
    ((∀ i, i < k → isUnder j (i + k) → insideP k t j i ∨
        ∀ i2, i2 < k → isUnder j (i2 + k) →
          lexLE (L.getD i SENTINEL) (L.getD i2 SENTINEL)) ∧
     (∀ i i2, i < k → i2 < k → isUnder j (i + k) → isUnder j (i2 + k) →
        ¬insideP k t j i → ¬insideP k t j i2 → i = i2))) ∧
  (∀ i, i < k → lexLE (L.getD cur SENTINEL) (L.getD i SENTINEL))

/-- Invariant of the build loop once the leaves `i, …, k - 1` have been
processed (walks finished, none in flight). -/
def BINV (k : Nat) (L : List RunNode) (i : Nat) (t : List Nat) : Prop :=
  t.length = k ∧
  (Multiset.ofList ((fullEntries k t).filter (fun x => x ≠ k))
    = Multiset.ofList (List.range' i (k - i))) ∧
  (∀ j, 1 ≤ j → j < k → t.getD j 0 = k ∨
    (t.getD j 0 < k ∧ isUnder j (t.getD j 0 + k))) ∧
  (t.getD 0 0 = k ∨ t.getD 0 0 < k) ∧
  (∀ j, 1 ≤ j → j < k →
    (t.getD j 0 = k ↔ passN k i (2 * j) + passN k i (2 * j + 1) = 0)) ∧
  (t.getD 0 0 = k ↔ passN k i 1 = 0) ∧
  (∀ j, 1 ≤ j → j < k →
    ((∀ i1, i ≤ i1 → i1 < k → isUnder j (i1 + k) → insideP k t j i1 ∨
        ∀ i2, i ≤ i2 → i2 < k → isUnder j (i2 + k) →
          lexLE (L.getD i1 SENTINEL) (L.getD i2 SENTINEL)) ∧
     (∀ i1 i2, i ≤ i1 → i1 < k → i ≤ i2 → i2 < k →
        isUnder j (i1 + k) → isUnder j (i2 + k) →
        ¬insideP k t j i1 → ¬insideP k t j i2 → i1 = i2) ∧
     (passN k i j = 0 → ∀ i1, i ≤ i1 → i1 < k → isUnder j (i1 + k) →
        insideP k t j i1)))

/-- Mid-walk invariant of the build walk for leaf `lf`, at loop entry
with parent `p` and carried winner `cur`. -/
def BEntry (k : Nat) (L : List RunNode) (lf p cur : Nat)
    (t : List Nat) : Prop :=
  t.length = k ∧ cur < k ∧ lf ≤ cur ∧ 1 ≤ p ∧ p < k ∧
  isUnder p (cur + k) ∧ isUnder p (lf + k) ∧
  (cur ::ₘ Multiset.ofList ((fullEntries k t).filter (fun x => x ≠ k))
    = Multiset.ofList (List.range' lf (k - lf))) ∧
  (∀ j, 1 ≤ j → j < k → t.getD j 0 = k ∨
    (t.getD j 0 < k ∧ isUnder j (t.getD j 0 + k))) ∧
  (t.getD 0 0 = k ∨ t.getD 0 0 < k) ∧
  (∀ j, 1 ≤ j → j < k → ¬isUnder j p →
    (t.getD j 0 = k ↔ passN k lf (2 * j) + passN k lf (2 * j + 1) = 0)) ∧
  (∀ j, 1 ≤ j → j < k → isUnder j p →
    (t.getD j 0 = k ↔
      passN k (lf + 1) (2 * j) + passN k (lf + 1) (2 * j + 1) = 0)) ∧
  (t.getD 0 0 = k ↔ passN k (lf + 1) 1 = 0) ∧
  (∀ j, 1 ≤ j → j < k → isUnder j p →
    (t.getD j 0 = k ∨ lf + 1 ≤ t.getD j 0)) ∧
  (cur = lf ∨ ∃ v, 1 ≤ v ∧ v < k ∧ isUnder p v ∧ v ≠ p ∧
    t.getD v 0 = lf) ∧
  (∀ j, 1 ≤ j → j < k → isUnder j p → passN k (lf + 1) j = 0 →
    ∀ i1, lf + 1 ≤ i1 → i1 < k → isUnder j (i1 + k) →
      insideP k t j i1 ∨ i1 = cur) ∧
  (∀ j, 1 ≤ j → j < k → ¬isUnder j p →
    ((∀ i1, lf ≤ i1 → i1 < k → isUnder j (i1 + k) → insideP k t j i1 ∨
        ∀ i2, lf ≤ i2 → i2 < k → isUnder j (i2 + k) →
          lexLE (L.getD i1 SENTINEL) (L.getD i2 SENTINEL)) ∧
     (∀ i1 i2, lf ≤ i1 → i1 < k → lf ≤ i2 → i2 < k →
        isUnder j (i1 + k) → isUnder j (i2 + k) →
        ¬insideP k t j i1 → ¬insideP k t j i2 → i1 = i2) ∧
     (passN k lf j = 0 → ∀ i1, lf ≤ i1 → i1 < k → isUnder j (i1 + k) →
        insideP k t j i1))) ∧
  (∃ c, (c = 2 * p ∨ c = 2 * p + 1) ∧ isUnder c (cur + k) ∧
    isUnder c (lf + k) ∧
    passN k lf c = passN k (lf + 1) c + 1 ∧
    (∀ i1, lf ≤ i1 → i1 < k → isUnder c (i1 + k) →
      lexLE (L.getD cur SENTINEL) (L.getD i1 SENTINEL)) ∧
    (∀ i1, lf ≤ i1 → i1 < k → isUnder c (i1 + k) →
      ¬insideP k t c i1 → i1 = cur))

/-! ### The replacement-selection run generator
(`project2/RunGenerator.h`)

The generator's three threads communicate through double buffers under a
single mutex; its observable behaviour is the sequential interleaving in
which `computeWorker` drives everything: `pullNextInput` serves the input
file elements in order, and the output worker's write lands at
`currentRunStartOffset + totalElementsInRun` before the next flush is
requested.  The model therefore reads the input from a list and performs
the flush write directly. -/

/-- The sequential-state part of a running `RunGenerator`: the run file,
the current run's directory id, start offset and flushed-element count,
the pending output block (`activeOut`) and the runs recorded so far. -/
structure RGState where
  rf : RunFile
  currentRunId : Int
  currentRunStartOffset : Nat
  totalElementsInRun : Nat
  activeOut : List Int
  generatedRuns : List RunMetadata
deriving Repr

/-- Flushing the pending output block (swap to standby plus
`outputWorker`'s write at `currentRunStartOffset + totalElementsInRun`);
an empty block is not written. -/
def RGState.flushOut (s : RGState) : RGState :=
  if s.activeOut.isEmpty then s
  else
    { s with
      rf := s.rf.writeData (s.currentRunStartOffset + s.totalElementsInRun)
        s.activeOut
      totalElementsInRun := s.totalElementsInRun + s.activeOut.length
      activeOut := [] }

/-- Recording the finished run (step C.3 of `computeWorker`, also the
final epilogue): when any element was written, seal the directory entry
and push `getRunMetadata(currentRunId)` onto `generatedRuns`. -/
def RGState.recordRun (s : RGState) : Except String RGState :=
  if s.totalElementsInRun = 0 then .ok s
  else
    match s.rf.updateRunMetadata s.currentRunId s.currentRunStartOffset
        s.totalElementsInRun with
    | (some e, _) => .error e
    | (none, rf') =>
      match rf'.getRunMetadata s.currentRunId with
      | .error e => .error e
      | .ok m => .ok { s with
          rf := rf'
          generatedRuns := s.generatedRuns ++ [m] }

/-- Opening the next run (step C.4 of `computeWorker`): allocate a fresh
directory slot and restart the offset and count. -/
def RGState.startNewRun (s : RGState) : RGState :=
  let a := s.rf.allocateNewRun
  { s with
    rf := a.2
    currentRunId := a.1
    currentRunStartOffset := a.2.getAppendOffset
    totalElementsInRun := 0 }

/-- Emitting the winner value (step D): push onto the active output
block, and flush when the block reaches `bufSize`. -/
def RGState.pushOut (s : RGState) (bufSize : Nat) (v : Int) : RGState :=
  let s1 := { s with activeOut := s.activeOut ++ [v] }
  if bufSize ≤ s1.activeOut.length then s1.flushOut else s1

/-- The main loop of `RunGenerator::computeWorker` (steps A–E plus the
epilogue).  `lt` is the loser tree, `cur` the `currentTreeRunID`, `rest`
the unread part of the input file.  The fuel only bounds the recursion;
one element leaves the tree on every pass, so `input.length + 1` steps
always suffice. -/
def rgLoop (fuel bufSize : Nat) (lt : LoserTree) (cur : Int)
    (rest : List Int) (s : RGState) :
    Except String (List RunMetadata × RunFile) :=
  match fuel with
  | 0 => .error "out of fuel"
  | fuel + 1 =>
    let w := lt.getWinner
    if w.runID = intMax then
      match (s.flushOut).recordRun with
      | .error e => .error e
      | .ok s2 => .ok (s2.generatedRuns, s2.rf)
    else
      match (if cur < w.runID then
          ((s.flushOut).recordRun).map (fun s1 => s1.startNewRun)
        else .ok s) with
      | .error e => .error e
      | .ok s1 =>
        let cur1 := if cur < w.runID then w.runID else cur
        let s2 := s1.pushOut bufSize w.value
        match rest with
        | [] => rgLoop fuel bufSize lt.setWinnerToSentinel cur1 [] s2
        | v :: rest2 =>
          rgLoop fuel bufSize
            (lt.replaceWinner v (if v < w.value then cur1 + 1 else cur1))
            cur1 rest2 s2

/-- `RunGenerator::generateRuns`: allocate the first run slot, fill the
tree with the first `k` input elements (run id 1), and run the compute
loop. -/
def generateRuns (k bufSize : Nat) (input : List Int) (rf : RunFile) :
    Except String (List RunMetadata × RunFile) :=
  let a := rf.allocateNewRun
  let s : RGState :=
    ⟨a.2, a.1, a.2.getAppendOffset, 0, [], []⟩
  rgLoop (input.length + 1) bufSize
    (LoserTree.initTree k (input.take k)) 1 (input.drop k) s

/-- The multiset of live element values held in the tree's `k` leaf
slots (a slot is live unless its run id is the sentinel id). -/
def realVals (k : Nat) (L : List RunNode) : Multiset Int :=
  (((L.take k).filter (fun nd => nd.runID ≠ intMax)).map RunNode.value
    : List Int)

/-- The contribution of one slot to `realVals`. -/
def realVal1 (nd : RunNode) : Multiset Int :=
  if nd.runID ≠ intMax then {nd.value} else 0

/-- The elements of the run currently being produced: the flushed part
on disk followed by the pending output block. -/
def curEmitted (s : RGState) : List Int :=
  slice s.rf.disk.data s.currentRunStartOffset s.totalElementsInRun
    ++ s.activeOut

/-- The loop invariant of `computeWorker`: the session and loser-tree
invariants, the append discipline of the data region, well-formedness of
the recorded runs, sortedness and slot-domination of the current run,
the run-id discipline of the live slots, and conservation of the element
multiset.  `iM` is the whole input file's multiset and `B` an upper
budget for `cur` plus the elements still to emit. -/
def RGInv (k : Nat) (iM : Multiset Int) (B : Int) (lt : LoserTree)
    (cur : Int) (rest : List Int) (s : RGState) : Prop :=
  SessionInv s.rf ∧
  lt.k = k ∧ 1 ≤ k ∧ INV k lt.tree lt.leaves ∧
  lt.leaves.length = k + 1 ∧
  s.rf.disk.data.length = s.currentRunStartOffset + s.totalElementsInRun ∧
  0 ≤ s.currentRunId ∧ s.currentRunId < (s.rf.header.maxRuns : Int) ∧
  (∀ m ∈ s.generatedRuns,
    m.startOffset + m.elementCount ≤ s.rf.disk.data.length ∧
    List.Sorted (· ≤ ·) (readRun s.rf m) ∧ 0 < m.elementCount) ∧
  List.Sorted (· ≤ ·) (curEmitted s) ∧
  (∀ e ∈ curEmitted s, ∀ i, i < k →
    (lt.leaves.getD i SENTINEL).runID = cur →
    e ≤ (lt.leaves.getD i SENTINEL).value) ∧
  (∀ i, i < k → (lt.leaves.getD i SENTINEL).runID = intMax ∨
    (((lt.leaves.getD i SENTINEL).runID = cur ∨
      (lt.leaves.getD i SENTINEL).runID = cur + 1) ∧
     (lt.leaves.getD i SENTINEL).runID < intMax)) ∧
  1 ≤ cur ∧
  cur + ((rest.length : Int) + ((realVals k lt.leaves).card : Int)) ≤ B ∧
  B < intMax ∧
  (rest ≠ [] → (realVals k lt.leaves).card = k) ∧
  ((s.generatedRuns.map (fun m => (readRun s.rf m : Multiset Int))).sum
    + (curEmitted s : Multiset Int) + realVals k lt.leaves
    + (rest : Multiset Int) = iM) ∧
  usedCount s.rf + s.generatedRuns.length
    + 2 * (rest.length + (realVals k lt.leaves).card)
    ≤ s.rf.header.maxRuns

theorem set_getD_self {α : Type} (l : List α) (n : Nat) (d : α) :
    l.set n (l.getD n d) = l := by
  induction l generalizing n with
  | nil => rfl
  | cons a t ih =>
    cases n with
    | zero => rfl
    | succ m =>
      simp only [List.getD_cons_succ, List.set_cons_succ, List.cons.injEq, true_and]
      exact ih m

theorem writeMetadataToDisk_disk_dir (rf : RunFile)
    (h : rf.disk.dir = rf.directory) (i : Int) :
    (rf.writeMetadataToDisk i).disk.dir = rf.directory := by
  unfold RunFile.writeMetadataToDisk
  split
  · exact h
  · simp only [h, set_getD_self]

theorem getD_set_self {α : Type} (l : List α) (n : Nat) (v d : α)
    (h : n < l.length) : (l.set n v).getD n d = v := by
  induction l generalizing n with
  | nil => simp at h
  | cons a t ih =>
    cases n with
    | zero => rfl
    | succ m =>
      simp only [List.set_cons_succ, List.getD_cons_succ]
      exact ih m (by simpa using h)

theorem getD_set_ne {α : Type} (l : List α) (m n : Nat) (v d : α)
    (h : m ≠ n) : (l.set m v).getD n d = l.getD n d := by
  induction l generalizing m n with
  | nil => rfl
  | cons a t ih =>
    cases m with
    | zero =>
      cases n with
      | zero => exact absurd rfl h
      | succ j => rfl
    | succ i =>
      cases n with
      | zero => rfl
      | succ j =>
        simp only [List.set_cons_succ, List.getD_cons_succ]
        exact ih i j (by omega)

theorem countP_set {α : Type} (l : List α) (n : Nat) (v d : α)
    (p : α → Bool) (hn : n < l.length) :
    (l.set n v).countP p + (if p (l.getD n d) then 1 else 0)
      = l.countP p + (if p v then 1 else 0) := by
  induction l generalizing n with
  | nil => simp at hn
  | cons a t ih =>
    cases n with
    | zero =>
      simp only [List.set_cons_zero, List.countP_cons, List.getD_cons_zero]
      omega
    | succ m =>
      simp only [List.set_cons_succ, List.countP_cons, List.getD_cons_succ]
      have := ih m (by simpa using hn)
      omega

theorem freshOpen_eq (maxRuns : Nat) :
    (RunFile.init.create maxRuns).openFile = some (freshRF maxRuns) := by
  simp [RunFile.init, RunFile.create, RunFile.openFile, freshRF]

theorem sessionInv_fresh (maxRuns : Nat) : SessionInv (freshRF maxRuns) := by
  refine ⟨rfl, rfl, rfl, by simp [freshRF], rfl, ?_⟩
  simp only [freshRF, usedCount]
  rw [List.countP_eq_zero.mpr]
  intro a ha
  rw [List.eq_of_mem_replicate ha]
  simp [RunMetadata.free]

theorem writeMetadataToDisk_eq (rf : RunFile) (i : Nat)
    (hOpen : rf.isOpen = true) (hi : i < rf.header.maxRuns) :
    rf.writeMetadataToDisk (i : Int)
      = { rf with disk := { rf.disk with
          dir := rf.disk.dir.set i (rf.directory.getD i RunMetadata.free) } } := by
  unfold RunFile.writeMetadataToDisk
  rw [if_neg, Int.toNat_natCast]
  push_neg
  refine ⟨by simp [hOpen], by exact_mod_cast Int.natCast_nonneg i, ?_⟩
  exact_mod_cast hi

/-- `allocateNewRun` when a free slot `i` is found. -/
theorem allocateNewRun_some (rf : RunFile) (i : Nat)
    (hOpen : rf.isOpen = true)
    (hfind : (List.range rf.header.maxRuns).find?
      (fun i => ¬(rf.directory.getD i RunMetadata.free).isUsed) = some i) :
    rf.allocateNewRun = ((i : Int),
      { isOpen := rf.isOpen
        header := { rf.header with
          currentRunCount := rf.header.currentRunCount + 1 }
        directory := rf.directory.set i ⟨0, 0, true⟩
        disk := { rf.disk with
          dir := rf.disk.dir.set i
            ((rf.directory.set i ⟨0, 0, true⟩).getD i RunMetadata.free) } }) := by
  have hiLt : i < rf.header.maxRuns :=
    List.mem_range.mp (List.mem_of_find?_eq_some hfind)
  simp only [RunFile.allocateNewRun, hfind]
  rw [writeMetadataToDisk_eq { rf with directory := rf.directory.set i ⟨0, 0, true⟩ }
    i hOpen hiLt]

theorem sessionInv_alloc (rf : RunFile) (h : SessionInv rf) :
    SessionInv (rf.allocateNewRun).2 := by
  obtain ⟨hOpen, hMagic, hMax, hLen, hSync, hCnt⟩ := h
  cases hfind : (List.range rf.header.maxRuns).find?
      (fun i => ¬(rf.directory.getD i RunMetadata.free).isUsed) with
  | none =>
    rw [RunFile.allocateNewRun, hfind]
    exact ⟨hOpen, hMagic, hMax, hLen, hSync, hCnt⟩
  | some i =>
    have hiLt : i < rf.header.maxRuns :=
      List.mem_range.mp (List.mem_of_find?_eq_some hfind)
    have hiFree : (rf.directory.getD i RunMetadata.free).isUsed = false := by
      simpa using List.find?_some hfind
    have hiLenLt : i < rf.directory.length := by omega
    rw [allocateNewRun_some rf i hOpen hfind]
    refine ⟨hOpen, hMagic, hMax, by simpa using hLen, ?_, ?_⟩
    · simp only [hSync]
      rw [getD_set_self _ _ _ _ hiLenLt]
    · simp only [usedCount]
      have hc := countP_set rf.directory i ⟨0, 0, true⟩ RunMetadata.free
        (fun m => m.isUsed) hiLenLt
      simp only [hiFree, Bool.false_eq_true, if_false, if_true] at hc
      simp only [usedCount] at hCnt
      omega

/-- `updateRunMetadata` on an in-range id. -/
theorem updateRunMetadata_ok (rf : RunFile) (r : Int) (s c : Nat)
    (hOpen : rf.isOpen = true) (h0 : 0 ≤ r)
    (hlt : r < (rf.header.maxRuns : Int)) :
    rf.updateRunMetadata r s c = (none,
      { isOpen := rf.isOpen
        header := rf.header
        directory := rf.directory.set r.toNat
          ⟨s, c, (rf.directory.getD r.toNat RunMetadata.free).isUsed⟩
        disk := { rf.disk with
          dir := rf.disk.dir.set r.toNat
            ((rf.directory.set r.toNat
              ⟨s, c, (rf.directory.getD r.toNat RunMetadata.free).isUsed⟩).getD
                r.toNat RunMetadata.free) } }) := by
  have hrNat : r.toNat < rf.header.maxRuns := by omega
  simp only [RunFile.updateRunMetadata]
  rw [if_neg (by push_neg; exact ⟨h0, hlt⟩)]
  have hre : r = ((r.toNat : Nat) : Int) := by omega
  conv_lhs => rw [hre]
  simp only [Int.toNat_natCast]
  rw [writeMetadataToDisk_eq
    { rf with directory := (rf.directory.set r.toNat
        ⟨s, c, (rf.directory.getD r.toNat RunMetadata.free).isUsed⟩) }
    r.toNat hOpen hrNat]

theorem sessionInv_update (rf : RunFile) (r : Int) (s c : Nat)
    (h : SessionInv rf) : SessionInv (rf.updateRunMetadata r s c).2 := by
  obtain ⟨hOpen, hMagic, hMax, hLen, hSync, hCnt⟩ := h
  by_cases hr : r < 0 ∨ (rf.header.maxRuns : Int) ≤ r
  · rw [RunFile.updateRunMetadata, if_pos hr]
    exact ⟨hOpen, hMagic, hMax, hLen, hSync, hCnt⟩
  · push_neg at hr
    obtain ⟨h0, hlt⟩ := hr
    have hrLen : r.toNat < rf.directory.length := by omega
    rw [updateRunMetadata_ok rf r s c hOpen h0 hlt]
    refine ⟨hOpen, hMagic, hMax, by simpa using hLen, ?_, ?_⟩
    · simp only [hSync]
      rw [getD_set_self _ _ _ _ hrLen]
    · simp only [usedCount]
      have hc := countP_set rf.directory r.toNat
        ⟨s, c, (rf.directory.getD r.toNat RunMetadata.free).isUsed⟩
        RunMetadata.free (fun m => m.isUsed) hrLen
      simp only [usedCount] at hCnt
      simp only at hc
      omega

theorem sessionInv_writeData (rf : RunFile) (off : Nat) (vs : List Int)
    (h : SessionInv rf) : SessionInv (rf.writeData off vs) := by
  obtain ⟨hOpen, hMagic, hMax, hLen, hSync, hCnt⟩ := h
  unfold RunFile.writeData
  rw [if_pos hOpen]
  exact ⟨hOpen, hMagic, hMax, hLen, hSync, hCnt⟩

theorem sessionInv_applyOps (ops : List RFOp) (rf rf₁ : RunFile)
    (h : SessionInv rf) (happ : applyOps rf ops = .ok rf₁) :
    SessionInv rf₁ := by
  induction ops generalizing rf with
  | nil =>
    simp only [applyOps] at happ
    cases happ
    exact h
  | cons op ops ih =>
    simp only [applyOps] at happ
    cases hstep : applyOp rf op with
    | error e => rw [hstep] at happ; exact absurd happ (by simp)
    | ok rfm =>
      rw [hstep] at happ
      refine ih rfm ?_ happ
      cases op with
      | alloc =>
        simp only [applyOp] at hstep
        cases hstep
        exact sessionInv_alloc rf h
      | update r s c =>
        simp only [applyOp] at hstep
        have := sessionInv_update rf r s c h
        cases hu : rf.updateRunMetadata r s c with
        | mk oe rf2 =>
          rw [hu] at hstep this
          cases oe with
          | none => simp at hstep; cases hstep; exact this
          | some e => simp at hstep
      | writeData off vs =>
        simp only [applyOp] at hstep
        cases hstep
        exact sessionInv_writeData rf off vs h

/-- Closing and reopening a run file whose session invariant holds
reloads the same directory, leaving the disk untouched. -/
theorem sessionInv_reopen (rf : RunFile) (h : SessionInv rf) :
    rf.close.openFile = some ⟨true, rf.disk.header, rf.directory, rf.disk⟩ := by
  obtain ⟨hOpen, hMagic, hMax, hLen, hSync, hCnt⟩ := h
  unfold RunFile.close RunFile.openFile
  rw [if_pos hMagic]
  have hdirLen : rf.disk.dir.length = rf.disk.header.maxRuns := by
    rw [hSync, hLen, hMax]
  congr 1
  simp only [hSync]
  rw [show rf.disk.header.maxRuns - rf.directory.length = 0 by omega,
    List.replicate_zero, List.append_nil]
  congr 1
  exact List.take_of_length_le (by omega)

/-- **C7.** Creating a RunFile with `create(maxRuns)`, opening it, and
performing any sequence of `allocateNewRun`, data-region writes and
`updateRunMetadata` calls, then closing and reopening with `open()`,
yields directory entries and data bytes identical to those before the
close: the reopened state carries the same in-memory directory and the
identical disk image. -/
theorem runFile_roundTrip (maxRuns : Nat) (ops : List RFOp) (rf₀ rf₁ : RunFile)
    (h₀ : (RunFile.init.create maxRuns).openFile = some rf₀)
    (h₁ : applyOps rf₀ ops = .ok rf₁) :
    rf₁.close.openFile = some ⟨true, rf₁.disk.header, rf₁.directory, rf₁.disk⟩ := by
  have hfresh := freshOpen_eq maxRuns
  rw [h₀] at hfresh
  have h0e : rf₀ = freshRF maxRuns := by
    exact Option.some.inj hfresh
  have hInv := sessionInv_applyOps ops rf₀ rf₁ (h0e ▸ sessionInv_fresh maxRuns) h₁
  exact sessionInv_reopen rf₁ hInv

theorem runFile_roundTrip_witness :
    C7rf₁.close.openFile = some ⟨true, C7rf₁.disk.header, C7rf₁.directory, C7rf₁.disk⟩ :=
  runFile_roundTrip 2 C7ops (freshRF 2) C7rf₁ (by decide) (by rfl)

/-- **C8, counterexample.** The claim fails across a close/reopen: after
`create(1); open(); allocateNewRun(); close(); open()` the reopened state
is `CE8`, whose header says `currentRunCount = 0` while exactly one
directory slot has `isUsed = true` — `allocateNewRun` increments only the
in-memory header copy and the header is never rewritten to disk. -/
theorem currentRunCount_desync_after_reopen :
    ((RunFile.init.create 1).openFile.bind
      (fun rf => (rf.allocateNewRun).2.close.openFile)) = some CE8
    ∧ CE8.header.currentRunCount ≠ usedCount CE8 := by decide

/-- **C8 (amended).** In every RunFile state reachable through `create`,
`open`, `allocateNewRun`, `updateRunMetadata` and data writes *within a
single open session* (no close/reopen), the in-memory header's
`currentRunCount` equals the number of directory slots with
`isUsed = true`.  After a close and reopen the header is read back from
disk, where `currentRunCount` still has the value written by `create`
(the header is never rewritten), so the equality can fail
(`currentRunCount_desync_after_reopen`). -/
theorem currentRunCount_eq_usedCount_within_session (maxRuns : Nat)
    (ops : List RFOp) (rf₀ rf₁ : RunFile)
    (h₀ : (RunFile.init.create maxRuns).openFile = some rf₀)
    (h₁ : applyOps rf₀ ops = .ok rf₁) :
    rf₁.header.currentRunCount = usedCount rf₁ := by
  have hfresh := freshOpen_eq maxRuns
  rw [h₀] at hfresh
  have h0e : rf₀ = freshRF maxRuns := Option.some.inj hfresh
  exact (sessionInv_applyOps ops rf₀ rf₁ (h0e ▸ sessionInv_fresh maxRuns) h₁).2.2.2.2.2

theorem currentRunCount_eq_usedCount_within_session_witness :
    C8mid.header.currentRunCount = usedCount C8mid :=
  currentRunCount_eq_usedCount_within_session 1 [.alloc] (freshRF 1) C8mid
    (by decide) (by rfl)

/-- **C9.** `updateRunMetadata(runId, startOffset, elementCount)` raises
the out-of-range error if and only if `runId < 0` or `runId ≥ maxRuns`,
leaving the object unchanged in that case; otherwise it succeeds and
updates exactly the directory entry for `runId` — in memory and on disk —
while every other directory entry, the header, the on-disk header and the
data region are unchanged. -/
theorem updateRunMetadata_spec (rf : RunFile) (r : Int) (s c : Nat)
    (hOpen : rf.isOpen = true) (hLen : rf.directory.length = rf.header.maxRuns) :
    (((rf.updateRunMetadata r s c).1.isSome)
        ↔ (r < 0 ∨ (rf.header.maxRuns : Int) ≤ r))
    ∧ ((r < 0 ∨ (rf.header.maxRuns : Int) ≤ r) →
        (rf.updateRunMetadata r s c).2 = rf)
    ∧ (¬(r < 0 ∨ (rf.header.maxRuns : Int) ≤ r) →
        (rf.updateRunMetadata r s c).2.directory.getD r.toNat RunMetadata.free
            = ⟨s, c, (rf.directory.getD r.toNat RunMetadata.free).isUsed⟩
        ∧ (rf.updateRunMetadata r s c).2.disk.dir
            = rf.disk.dir.set r.toNat
                ⟨s, c, (rf.directory.getD r.toNat RunMetadata.free).isUsed⟩
        ∧ (∀ i, i ≠ r.toNat →
            (rf.updateRunMetadata r s c).2.directory.getD i RunMetadata.free
              = rf.directory.getD i RunMetadata.free
            ∧ (rf.updateRunMetadata r s c).2.disk.dir.getD i RunMetadata.free
              = rf.disk.dir.getD i RunMetadata.free)
        ∧ (rf.updateRunMetadata r s c).2.header = rf.header
        ∧ (rf.updateRunMetadata r s c).2.disk.header = rf.disk.header
        ∧ (rf.updateRunMetadata r s c).2.disk.data = rf.disk.data) := by
  by_cases hr : r < 0 ∨ (rf.header.maxRuns : Int) ≤ r
  · have he : rf.updateRunMetadata r s c
        = (some "Invalid runId in updateRunMetadata.", rf) := by
      rw [RunFile.updateRunMetadata, if_pos hr]
    rw [he]
    exact ⟨by simpa using hr, fun _ => rfl, fun hc => absurd hr hc⟩
  · push_neg at hr
    obtain ⟨h0, hlt⟩ := hr
    have hrLen : r.toNat < rf.directory.length := by omega
    rw [updateRunMetadata_ok rf r s c hOpen h0 hlt]
    refine ⟨by simp; omega, by intro hc; omega, fun _ => ?_⟩
    refine ⟨getD_set_self _ _ _ _ hrLen, ?_, ?_, rfl, rfl, rfl⟩
    · rw [getD_set_self _ _ _ _ hrLen]
    · intro i hi
      exact ⟨getD_set_ne _ _ _ _ _ (fun he => hi he.symm),
        getD_set_ne _ _ _ _ _ (fun he => hi he.symm)⟩

theorem updateRunMetadata_spec_witness :
    (((freshRF 2).updateRunMetadata 3 5 7).1.isSome
      ↔ ((3 : Int) < 0 ∨ ((freshRF 2).header.maxRuns : Int) ≤ 3)) :=
  (updateRunMetadata_spec (freshRF 2) 3 5 7 rfl (by decide)).1

/-! ### Slice lemmas -/

theorem slice_zero (data : List Int) (off : Nat) : slice data off 0 = [] := by
  simp [slice]

theorem slice_length (data : List Int) (off n : Nat)
    (h : off + n ≤ data.length) : (slice data off n).length = n := by
  simp only [slice, List.length_take, List.length_drop]
  omega

theorem getD_drop {α : Type} (l : List α) (off i : Nat) (d : α) :
    (l.drop off).getD i d = l.getD (off + i) d := by
  induction l generalizing off with
  | nil => simp
  | cons a t ih =>
    cases off with
    | zero => simp
    | succ m =>
      simp only [List.drop_succ_cons, ih m]
      have he : m + 1 + i = (m + i) + 1 := by omega
      rw [he, List.getD_cons_succ]

theorem getD_take {α : Type} (l : List α) (n i : Nat) (d : α) (h : i < n) :
    (l.take n).getD i d = l.getD i d := by
  induction l generalizing n i with
  | nil => simp
  | cons a t ih =>
    cases n with
    | zero => omega
    | succ m =>
      cases i with
      | zero => rfl
      | succ j =>
        simp only [List.take_succ_cons, List.getD_cons_succ]
        exact ih m j (by omega)

theorem slice_getD (data : List Int) (off n i : Nat) (h : i < n) :
    (slice data off n).getD i 0 = data.getD (off + i) 0 := by
  rw [slice, getD_take _ _ _ _ h, getD_drop]

theorem getD_append_lt (l₁ l₂ : List Int) (i : Nat) (d : Int)
    (h : i < l₁.length) : (l₁ ++ l₂).getD i d = l₁.getD i d := by
  induction l₁ generalizing i with
  | nil => simp at h
  | cons a t ih =>
    cases i with
    | zero => rfl
    | succ j =>
      simp only [List.cons_append, List.getD_cons_succ]
      exact ih j (by simpa using h)

theorem slice_append_left (l₁ l₂ : List Int) (off n : Nat)
    (h : off + n ≤ l₁.length) : slice (l₁ ++ l₂) off n = slice l₁ off n := by
  unfold slice
  rw [List.drop_append_of_le_length (by omega),
    List.take_append_of_le_length (by simp; omega)]

theorem slice_cons (data : List Int) (off n : Nat) (hoff : off < data.length)
    (hn : 0 < n) :
    slice data off n = data.getD off 0 :: slice data (off + 1) (n - 1) := by
  obtain ⟨m, rfl⟩ : ∃ m, n = m + 1 := ⟨n - 1, by omega⟩
  simp only [slice, List.drop_eq_getElem_cons hoff, Nat.add_sub_cancel,
    List.take_succ_cons]
  congr 1
  rw [List.getD_eq_getElem?_getD, List.getElem?_eq_getElem hoff]
  rfl

theorem slice_append_self (l₁ l₂ : List Int) :
    slice (l₁ ++ l₂) l₁.length l₂.length = l₂ := by
  simp [slice, List.drop_append_of_le_length (Nat.le_refl _),
    List.drop_length]

/-! ### InputBuffer refinement -/

theorem IBat_mono (ib : InputBuffer) (below w : List Int) (c : Nat)
    (hvalid : ib.runMeta.startOffset + ib.runMeta.elementCount ≤ below.length)
    (h : IBat ib below c) : IBat ib (below ++ w) c := by
  obtain ⟨h1, h2, h3, h4, h5, h6⟩ := h
  refine ⟨h1, h2, h3, h4, h5, ?_⟩
  rw [h6, slice_append_left _ _ _ _ (by omega)]

theorem streamAt_mono (o : Option (Int × InputBuffer)) (meta : RunMetadata)
    (below w : List Int) (c : Nat)
    (hvalid : meta.startOffset + meta.elementCount ≤ below.length)
    (h : streamAt o meta below c) : streamAt o meta (below ++ w) c := by
  cases o with
  | none => exact h
  | some p =>
    obtain ⟨hm, hc, ha, hat⟩ := h
    refine ⟨hm, hc, ?_, IBat_mono _ _ _ _ (hm ▸ hvalid) hat⟩
    rw [ha, getD_append_lt _ _ _ _ (by omega)]

theorem streamAt_anti (o : Option (Int × InputBuffer)) (meta : RunMetadata)
    (below w : List Int) (c : Nat)
    (hvalid : meta.startOffset + meta.elementCount ≤ below.length)
    (h : streamAt o meta (below ++ w) c) : streamAt o meta below c := by
  cases o with
  | none => exact h
  | some p =>
    obtain ⟨hm, hc, ha, hat⟩ := h
    obtain ⟨h1, h2, h3, h4, h5, h6⟩ := hat
    have hso : p.2.runMeta.startOffset = meta.startOffset := by rw [hm]
    have hce : p.2.runMeta.elementCount = meta.elementCount := by rw [hm]
    refine ⟨hm, hc, ?_, h1, h2, h3, h4, h5, ?_⟩
    · rw [ha, getD_append_lt _ _ _ _ (by omega)]
    · rw [h6, slice_append_left _ _ _ _ (by omega)]

theorem getNextItem_step (ib : InputBuffer) (data : List Int) (c : Nat)
    (hat : IBat ib data c)
    (hvalid : ib.runMeta.startOffset + ib.runMeta.elementCount ≤ data.length) :
    streamAt (ib.getNextItem data) ib.runMeta data c := by
  obtain ⟨h1, h2, h3, h4, h5, h6⟩ := hat
  unfold InputBuffer.getNextItem
  by_cases hempty : ib.elementsInBuffer ≤ ib.currentIndexInBuffer
  · have hidx : ib.currentIndexInBuffer = ib.elementsInBuffer := by omega
    have hcons : c = ib.totalElementsRead := by omega
    rw [if_pos hempty]
    unfold InputBuffer.readBlock
    by_cases hdone : ib.runMeta.elementCount ≤ ib.totalElementsRead
    · rw [if_pos hdone]
      show c = ib.runMeta.elementCount
      omega
    · rw [if_neg hdone]
      have hr0 : ¬(min ib.bufferSizeInElements
          (ib.runMeta.elementCount - ib.totalElementsRead) = 0) := by
        omega
      rw [if_neg hr0]
      set r := min ib.bufferSizeInElements
        (ib.runMeta.elementCount - ib.totalElementsRead) with hr
      have hrpos : 0 < r := by omega
      have hrrem : ib.totalElementsRead + r ≤ ib.runMeta.elementCount := by omega
      have hlen : (slice data (ib.runMeta.startOffset + ib.totalElementsRead)
          r).length = r := slice_length _ _ _ (by omega)
      refine ⟨rfl, by omega, ?_, ?_⟩
      · show _ = data.getD (ib.runMeta.startOffset + c) 0
        dsimp only
        rw [slice_getD _ _ _ _ hrpos, hcons, Nat.add_zero]
      · refine ⟨by dsimp only; omega, by dsimp only; omega, by dsimp only; omega,
          by dsimp only; omega, by dsimp only; omega, ?_⟩
        show (slice data (ib.runMeta.startOffset + ib.totalElementsRead)
            r).take r = slice data
              (ib.runMeta.startOffset + (ib.totalElementsRead + r - r)) r
        rw [List.take_of_length_le (le_of_eq hlen), Nat.add_sub_cancel]
  · rw [if_neg hempty]
    push_neg at hempty
    have hcv : c < ib.runMeta.elementCount := by omega
    refine ⟨rfl, hcv, ?_, ?_⟩
    · show ib.buffer.getD ib.currentIndexInBuffer 0
          = data.getD (ib.runMeta.startOffset + c) 0
      rw [← getD_take ib.buffer ib.elementsInBuffer _ _ hempty, h6,
        slice_getD _ _ _ _ hempty]
      have he : ib.runMeta.startOffset
          + (ib.totalElementsRead - ib.elementsInBuffer)
          + ib.currentIndexInBuffer = ib.runMeta.startOffset + c := by omega
      rw [he]
    · exact ⟨by dsimp only; omega, h2, h3, by dsimp only; omega, h5, h6⟩

theorem drain_spec (fuel : Nat) (ib : InputBuffer) (data : List Int) (c : Nat)
    (hat : IBat ib data c)
    (hvalid : ib.runMeta.startOffset + ib.runMeta.elementCount ≤ data.length)
    (hc : c ≤ ib.runMeta.elementCount)
    (hfuel : ib.runMeta.elementCount - c < fuel) :
    ib.drain fuel data
      = slice data (ib.runMeta.startOffset + c) (ib.runMeta.elementCount - c) := by
  induction fuel generalizing ib c with
  | zero => omega
  | succ fuel ih =>
    have hstep := getNextItem_step ib data c hat hvalid
    unfold InputBuffer.drain
    cases hni : ib.getNextItem data with
    | none =>
      rw [hni] at hstep
      have : c = ib.runMeta.elementCount := hstep
      rw [this]
      simp [slice_zero]
    | some p =>
      obtain ⟨v, ib2⟩ := p
      rw [hni] at hstep
      obtain ⟨hm, hcv, ha, hat2⟩ := hstep
      show v :: ib2.drain fuel data = _
      have hrec := ih ib2 (c + 1) hat2 (by rw [hm]; exact hvalid)
        (by rw [hm]; omega) (by rw [hm]; omega)
      rw [hrec, hm, ha]
      rw [slice_cons data (ib.runMeta.startOffset + c) _ (by omega) (by omega)]
      have e1 : ib.runMeta.startOffset + (c + 1)
          = ib.runMeta.startOffset + c + 1 := by omega
      have e2 : ib.runMeta.elementCount - (c + 1)
          = ib.runMeta.elementCount - c - 1 := by omega
      rw [e1, e2]

/-- Reading a run back through an `InputBuffer` yields exactly the run's
elements on disk. -/
theorem readBack_eq (rf : RunFile) (meta : RunMetadata) (bufSize : Nat)
    (hb : 0 < bufSize)
    (hvalid : meta.startOffset + meta.elementCount ≤ rf.disk.data.length) :
    readBackThroughInputBuffer rf meta bufSize = readRun rf meta := by
  unfold readBackThroughInputBuffer readRun
  have h0 : IBat (InputBuffer.mk0 meta bufSize) rf.disk.data 0 := by
    refine ⟨Nat.le_refl _, Nat.le_refl _, Nat.zero_le _, rfl, hb, ?_⟩
    simp [InputBuffer.mk0, slice_zero]
  have hrm : (InputBuffer.mk0 meta bufSize).runMeta = meta := rfl
  have hd := drain_spec (meta.elementCount + 1) (InputBuffer.mk0 meta bufSize)
    rf.disk.data 0 h0 (by rw [hrm]; exact hvalid)
    (by rw [hrm]; exact Nat.zero_le _) (by rw [hrm]; omega)
  rw [hd, hrm]
  simp

/-! ### OutputBuffer refinement -/

theorem writeAt_append (data vs : List Int) :
    writeAt data data.length vs = data ++ vs := by
  unfold writeAt
  rw [List.take_length, Nat.sub_self, List.replicate_zero,
    List.drop_eq_nil_of_le (by omega)]
  simp

theorem writeBlock_run (ob : OutputBuffer) (rf : RunFile)
    (below flushed : List Int)
    (hs : ob.runStartOffset = below.length)
    (hd : rf.disk.data = below ++ flushed)
    (ht : ob.totalElementsWritten = flushed.length)
    (ho : rf.isOpen = true)
    (hne : ob.buffer ≠ []) :
    ob.writeBlock rf
      = ({ ob with
            buffer := []
            totalElementsWritten := ob.totalElementsWritten + ob.buffer.length },
         { rf with disk := { rf.disk with
            data := below ++ (flushed ++ ob.buffer) } }) := by
  have hif : rf.writeData (ob.runStartOffset + ob.totalElementsWritten) ob.buffer
      = { rf with disk := { rf.disk with
          data := writeAt rf.disk.data
            (ob.runStartOffset + ob.totalElementsWritten) ob.buffer } } := by
    unfold RunFile.writeData
    rw [if_pos ho]
  have he : ob.runStartOffset + ob.totalElementsWritten
      = rf.disk.data.length := by
    rw [hs, ht, hd]
    simp
  unfold OutputBuffer.writeBlock
  rw [if_neg (by push_neg; exact ⟨by simp [ho], by simpa using hne⟩)]
  dsimp only
  rw [hif, he, writeAt_append, hd, List.append_assoc]

theorem setNextItem_run (ob : OutputBuffer) (rf : RunFile) (v : Int)
    (below flushed : List Int) (h : OBrun ob rf below flushed) :
    ∃ flushed2,
      OBrun (ob.setNextItem v rf).1 (ob.setNextItem v rf).2 below flushed2
      ∧ flushed2 ++ (ob.setNextItem v rf).1.buffer
          = flushed ++ (ob.buffer ++ [v])
      ∧ (ob.setNextItem v rf).1.getElementCount = ob.getElementCount + 1
      ∧ rfFrame rf (ob.setNextItem v rf).2 := by
  obtain ⟨hs, hd, ht, hlt, ho⟩ := h
  by_cases hfull : (ob.buffer ++ [v]).length = ob.bufferSizeInElements
  · have hw := writeBlock_run { ob with buffer := ob.buffer ++ [v] } rf
      below flushed hs hd ht ho (by simp)
    have hstep : ob.setNextItem v rf
        = ({ ob with
              buffer := []
              totalElementsWritten
                := ob.totalElementsWritten + (ob.buffer ++ [v]).length },
           { rf with disk := { rf.disk with
              data := below ++ (flushed ++ (ob.buffer ++ [v])) } }) := by
      unfold OutputBuffer.setNextItem
      dsimp only
      rw [if_pos hfull, hw]
    rw [hstep]
    refine ⟨flushed ++ (ob.buffer ++ [v]), ⟨hs, by dsimp only, ?_, ?_, ho⟩,
      by simp, ?_, ⟨rfl, rfl, rfl, rfl, rfl⟩⟩
    · dsimp only
      simp only [List.length_append, List.length_cons, List.length_nil]
      omega
    · dsimp only
      simp only [List.length_append, List.length_cons, List.length_nil]
        at hfull ⊢
      omega
    · dsimp only [OutputBuffer.getElementCount]
      simp only [List.length_append, List.length_cons, List.length_nil]
      omega
  · have hstep : ob.setNextItem v rf = ({ ob with buffer := ob.buffer ++ [v] }, rf) := by
      unfold OutputBuffer.setNextItem
      dsimp only
      rw [if_neg hfull]
    rw [hstep]
    refine ⟨flushed, ⟨hs, hd, ht, ?_, ho⟩, rfl, ?_, ⟨rfl, rfl, rfl, rfl, rfl⟩⟩
    · dsimp only
      simp only [List.length_append, List.length_cons, List.length_nil] at hfull ⊢
      omega
    · dsimp only [OutputBuffer.getElementCount]
      simp only [List.length_append, List.length_cons, List.length_nil]
      omega

theorem flush_run (ob : OutputBuffer) (rf : RunFile)
    (below flushed : List Int) (h : OBrun ob rf below flushed) :
    (ob.flush rf).2.disk.data = below ++ (flushed ++ ob.buffer)
    ∧ (ob.flush rf).1.getElementCount = ob.getElementCount
    ∧ rfFrame rf (ob.flush rf).2 := by
  obtain ⟨hs, hd, ht, hlt, ho⟩ := h
  unfold OutputBuffer.flush
  by_cases hne : 0 < ob.buffer.length
  · rw [if_pos hne,
      writeBlock_run ob rf below flushed hs hd ht ho (List.length_pos.mp hne)]
    refine ⟨rfl, ?_, ⟨rfl, rfl, rfl, rfl, rfl⟩⟩
    dsimp only [OutputBuffer.getElementCount]
    simp
  · rw [if_neg hne]
    have hb : ob.buffer = [] := by
      cases hbv : ob.buffer with
      | nil => rfl
      | cons x xs => rw [hbv] at hne; simp at hne
    refine ⟨?_, rfl, ⟨rfl, rfl, rfl, rfl, rfl⟩⟩
    rw [hd, hb, List.append_nil]

/-! ### mergeSpec lemmas -/

theorem mergeSpec_nil_left (bs : List Int) : mergeSpec [] bs = bs := by
  simp [mergeSpec]

theorem mergeSpec_nil_right (as : List Int) : mergeSpec as [] = as := by
  cases as <;> simp [mergeSpec]

theorem mergeSpec_length (as bs : List Int) :
    (mergeSpec as bs).length = as.length + bs.length := by
  induction as generalizing bs with
  | nil => simp [mergeSpec]
  | cons a as iha =>
    induction bs with
    | nil => simp [mergeSpec]
    | cons b bs ihb =>
      simp only [mergeSpec]
      split
      · simp only [List.length_cons, iha]
        omega
      · simp only [List.length_cons] at ihb ⊢
        omega

theorem mergeSpec_perm (as bs : List Int) :
    (mergeSpec as bs).Perm (as ++ bs) := by
  induction as generalizing bs with
  | nil => simp [mergeSpec]
  | cons a as iha =>
    induction bs with
    | nil => simp [mergeSpec]
    | cons b bs ihb =>
      simp only [mergeSpec]
      split
      · exact (iha (b :: bs)).cons a
      · exact (ihb.cons b).trans List.perm_middle.symm

theorem mergeSpec_sorted (as bs : List Int)
    (ha : List.Sorted (· ≤ ·) as) (hb : List.Sorted (· ≤ ·) bs) :
    List.Sorted (· ≤ ·) (mergeSpec as bs) := by
  induction as generalizing bs with
  | nil => simpa [mergeSpec] using hb
  | cons a as iha =>
    induction bs with
    | nil => simpa [mergeSpec] using ha
    | cons b bs ihb =>
      rw [List.sorted_cons] at ha hb
      obtain ⟨haMem, haS⟩ := ha
      obtain ⟨hbMem, hbS⟩ := hb
      simp only [mergeSpec]
      split
      · rename_i hab
        rw [List.sorted_cons]
        refine ⟨?_, iha (b :: bs) haS (List.sorted_cons.mpr ⟨hbMem, hbS⟩)⟩
        intro x hx
        have hx2 := (mergeSpec_perm as (b :: bs)).mem_iff.mp hx
        rcases List.mem_append.mp hx2 with hxa | hxb
        · exact haMem x hxa
        · rcases List.mem_cons.mp hxb with rfl | hxb
          · exact le_of_lt hab
          · exact le_trans (le_of_lt hab) (hbMem x hxb)
      · rename_i hab
        push_neg at hab
        rw [List.sorted_cons]
        refine ⟨?_, ihb hbS⟩
        intro x hx
        have hx2 := (mergeSpec_perm (a :: as) bs).mem_iff.mp hx
        rcases List.mem_append.mp hx2 with hxa | hxb
        · rcases List.mem_cons.mp hxa with rfl | hxa
          · exact hab
          · exact le_trans hab (haMem x hxa)
        · exact hbMem x hxb

/-! ### The merge loop -/

theorem streamAt_cons (below : List Int) (meta : RunMetadata) (c : Nat)
    (hc : c < meta.elementCount)
    (hv : meta.startOffset + meta.elementCount ≤ below.length) :
    slice below (meta.startOffset + c) (meta.elementCount - c)
      = below.getD (meta.startOffset + c) 0
        :: slice below (meta.startOffset + (c + 1)) (meta.elementCount - (c + 1)) := by
  rw [slice_cons below _ _ (by omega) (by omega)]
  have e1 : meta.startOffset + c + 1 = meta.startOffset + (c + 1) := by omega
  have e2 : meta.elementCount - c - 1 = meta.elementCount - (c + 1) := by omega
  rw [e1, e2]

theorem mergeLoop_spec (fuel : Nat) (oA oB : Option (Int × InputBuffer))
    (ob : OutputBuffer) (rf : RunFile) (metaA metaB : RunMetadata)
    (cA cB : Nat) (below flushed : List Int)
    (hA : streamAt oA metaA below cA)
    (hB : streamAt oB metaB below cB)
    (hAv : metaA.startOffset + metaA.elementCount ≤ below.length)
    (hBv : metaB.startOffset + metaB.elementCount ≤ below.length)
    (hob : OBrun ob rf below flushed)
    (hfuel : (metaA.elementCount - cA) + (metaB.elementCount - cB) < fuel) :
    ∃ flushed2,
      OBrun (mergeLoop fuel oA oB ob rf).1 (mergeLoop fuel oA oB ob rf).2
        below flushed2
      ∧ flushed2 ++ (mergeLoop fuel oA oB ob rf).1.buffer
          = flushed ++ ob.buffer
            ++ mergeSpec
                (slice below (metaA.startOffset + cA) (metaA.elementCount - cA))
                (slice below (metaB.startOffset + cB) (metaB.elementCount - cB))
      ∧ (mergeLoop fuel oA oB ob rf).1.getElementCount
          = ob.getElementCount
            + ((metaA.elementCount - cA) + (metaB.elementCount - cB))
      ∧ rfFrame rf (mergeLoop fuel oA oB ob rf).2 := by
  induction fuel generalizing oA oB ob rf cA cB flushed with
  | zero => omega
  | succ fuel ih =>
    cases oA with
    | none =>
      cases oB with
      | none =>
        have hcA : cA = metaA.elementCount := hA
        have hcB : cB = metaB.elementCount := hB
        have hred : mergeLoop (fuel + 1)
            (none : Option (Int × InputBuffer)) none ob rf = (ob, rf) := by
          simp only [mergeLoop]
        rw [hred]
        refine ⟨flushed, hob, ?_, ?_, ⟨rfl, rfl, rfl, rfl, rfl⟩⟩
        · rw [hcA, hcB, Nat.sub_self, Nat.sub_self, slice_zero, slice_zero,
            mergeSpec_nil_left, List.append_nil]
        · rw [hcA, hcB]
          simp
      | some pB =>
        obtain ⟨b, ibB⟩ := pB
        obtain ⟨hmB, hcB, hbv, hatB⟩ := hB
        have hcA : cA = metaA.elementCount := hA
        have hred : mergeLoop (fuel + 1)
            (none : Option (Int × InputBuffer)) (some (b, ibB)) ob rf
            = mergeLoop fuel none
                (ibB.getNextItem (ob.setNextItem b rf).2.disk.data)
                (ob.setNextItem b rf).1 (ob.setNextItem b rf).2 := by
          simp only [mergeLoop]
        rw [hred]
        obtain ⟨flushed2, hob2, hcat2, hcnt2, hfr2⟩ :=
          setNextItem_run ob rf b below flushed hob
        have hdata2 : (ob.setNextItem b rf).2.disk.data = below ++ flushed2 :=
          hob2.2.1
        have hatB2 : IBat ibB (ob.setNextItem b rf).2.disk.data (cB + 1) := by
          rw [hdata2]
          exact IBat_mono ibB below flushed2 (cB + 1) (by rw [hmB]; omega) hatB
        have hstepB := getNextItem_step ibB (ob.setNextItem b rf).2.disk.data
          (cB + 1) hatB2 (by rw [hmB, hdata2]; simp; omega)
        rw [hmB, hdata2] at hstepB
        have hstepB2 := streamAt_anti _ _ _ _ _ hBv hstepB
        have hBnext : streamAt (ibB.getNextItem (ob.setNextItem b rf).2.disk.data)
            metaB below (cB + 1) := by
          rw [hdata2]
          exact hstepB2
        have hAnone : streamAt (none : Option (Int × InputBuffer)) metaA below cA := hA
        obtain ⟨flushed3, hob3, hcat3, hcnt3, hfr3⟩ :=
          ih _ _ _ _ _ _ _ hAnone hBnext hob2 (by omega)
        refine ⟨flushed3, hob3, ?_, ?_, ?_⟩
        · rw [hcat3, hcat2]
          rw [hcA, Nat.sub_self, slice_zero, mergeSpec_nil_left,
            mergeSpec_nil_left]
          rw [streamAt_cons below metaB cB hcB hBv, ← hbv]
          simp [List.append_assoc]
        · rw [hcnt3, hcnt2]
          omega
        · obtain ⟨f1, f2, f3, f4, f5⟩ := hfr2
          obtain ⟨g1, g2, g3, g4, g5⟩ := hfr3
          exact ⟨g1.trans f1, g2.trans f2, g3.trans f3, g4.trans f4,
            g5.trans f5⟩
    | some pA =>
      obtain ⟨a, ibA⟩ := pA
      obtain ⟨hmA, hcA, hav, hatA⟩ := hA
      cases oB with
      | none =>
        have hcB : cB = metaB.elementCount := hB
        have hred : mergeLoop (fuel + 1) (some (a, ibA))
            (none : Option (Int × InputBuffer)) ob rf
            = mergeLoop fuel
                (ibA.getNextItem (ob.setNextItem a rf).2.disk.data) none
                (ob.setNextItem a rf).1 (ob.setNextItem a rf).2 := by
          simp only [mergeLoop]
        rw [hred]
        obtain ⟨flushed2, hob2, hcat2, hcnt2, hfr2⟩ :=
          setNextItem_run ob rf a below flushed hob
        have hdata2 : (ob.setNextItem a rf).2.disk.data = below ++ flushed2 :=
          hob2.2.1
        have hatA2 : IBat ibA (ob.setNextItem a rf).2.disk.data (cA + 1) := by
          rw [hdata2]
          exact IBat_mono ibA below flushed2 (cA + 1) (by rw [hmA]; omega) hatA
        have hstepA := getNextItem_step ibA (ob.setNextItem a rf).2.disk.data
          (cA + 1) hatA2 (by rw [hmA, hdata2]; simp; omega)
        rw [hmA, hdata2] at hstepA
        have hstepA2 := streamAt_anti _ _ _ _ _ hAv hstepA
        have hAnext : streamAt (ibA.getNextItem (ob.setNextItem a rf).2.disk.data)
            metaA below (cA + 1) := by
          rw [hdata2]
          exact hstepA2
        have hBnone : streamAt (none : Option (Int × InputBuffer)) metaB below cB := hB
        obtain ⟨flushed3, hob3, hcat3, hcnt3, hfr3⟩ :=
          ih _ _ _ _ _ _ _ hAnext hBnone hob2 (by omega)
        refine ⟨flushed3, hob3, ?_, ?_, ?_⟩
        · rw [hcat3, hcat2]
          rw [hcB, Nat.sub_self, slice_zero, mergeSpec_nil_right,
            mergeSpec_nil_right]
          rw [streamAt_cons below metaA cA hcA hAv, ← hav]
          simp [List.append_assoc]
        · rw [hcnt3, hcnt2]
          omega
        · obtain ⟨f1, f2, f3, f4, f5⟩ := hfr2
          obtain ⟨g1, g2, g3, g4, g5⟩ := hfr3
          exact ⟨g1.trans f1, g2.trans f2, g3.trans f3, g4.trans f4,
            g5.trans f5⟩
      | some pB =>
        obtain ⟨b, ibB⟩ := pB
        obtain ⟨hmB, hcB, hbv, hatB⟩ := hB
        by_cases hab : a < b
        · have hred : mergeLoop (fuel + 1) (some (a, ibA)) (some (b, ibB)) ob rf
              = mergeLoop fuel
                  (ibA.getNextItem (ob.setNextItem a rf).2.disk.data)
                  (some (b, ibB)) (ob.setNextItem a rf).1
                  (ob.setNextItem a rf).2 := by
            simp only [mergeLoop]
            rw [if_pos hab]
          rw [hred]
          obtain ⟨flushed2, hob2, hcat2, hcnt2, hfr2⟩ :=
            setNextItem_run ob rf a below flushed hob
          have hdata2 : (ob.setNextItem a rf).2.disk.data = below ++ flushed2 :=
            hob2.2.1
          have hatA2 : IBat ibA (ob.setNextItem a rf).2.disk.data (cA + 1) := by
            rw [hdata2]
            exact IBat_mono ibA below flushed2 (cA + 1) (by rw [hmA]; omega) hatA
          have hstepA := getNextItem_step ibA (ob.setNextItem a rf).2.disk.data
            (cA + 1) hatA2 (by rw [hmA, hdata2]; simp; omega)
          rw [hmA, hdata2] at hstepA
          have hstepA2 := streamAt_anti _ _ _ _ _ hAv hstepA
          have hAnext : streamAt
              (ibA.getNextItem (ob.setNextItem a rf).2.disk.data)
              metaA below (cA + 1) := by
            rw [hdata2]
            exact hstepA2
          have hBsame : streamAt (some (b, ibB)) metaB below cB :=
            ⟨hmB, hcB, hbv, hatB⟩
          obtain ⟨flushed3, hob3, hcat3, hcnt3, hfr3⟩ :=
            ih _ _ _ _ _ _ _ hAnext hBsame hob2 (by omega)
          refine ⟨flushed3, hob3, ?_, ?_, ?_⟩
          · rw [hcat3, hcat2]
            have hAfold : slice below (metaA.startOffset + cA)
                  (metaA.elementCount - cA)
                = a :: slice below (metaA.startOffset + (cA + 1))
                    (metaA.elementCount - (cA + 1)) := by
              rw [streamAt_cons below metaA cA hcA hAv, ← hav]
            have hBfold : slice below (metaB.startOffset + cB)
                  (metaB.elementCount - cB)
                = b :: slice below (metaB.startOffset + (cB + 1))
                    (metaB.elementCount - (cB + 1)) := by
              rw [streamAt_cons below metaB cB hcB hBv, ← hbv]
            rw [hAfold, hBfold]
            simp only [mergeSpec]
            rw [if_pos hab, ← hBfold]
            simp [List.append_assoc]
          · rw [hcnt3, hcnt2]
            omega
          · obtain ⟨f1, f2, f3, f4, f5⟩ := hfr2
            obtain ⟨g1, g2, g3, g4, g5⟩ := hfr3
            exact ⟨g1.trans f1, g2.trans f2, g3.trans f3, g4.trans f4,
              g5.trans f5⟩
        · have hred : mergeLoop (fuel + 1) (some (a, ibA)) (some (b, ibB)) ob rf
              = mergeLoop fuel (some (a, ibA))
                  (ibB.getNextItem (ob.setNextItem b rf).2.disk.data)
                  (ob.setNextItem b rf).1 (ob.setNextItem b rf).2 := by
            simp only [mergeLoop]
            rw [if_neg hab]
          rw [hred]
          obtain ⟨flushed2, hob2, hcat2, hcnt2, hfr2⟩ :=
            setNextItem_run ob rf b below flushed hob
          have hdata2 : (ob.setNextItem b rf).2.disk.data = below ++ flushed2 :=
            hob2.2.1
          have hatB2 : IBat ibB (ob.setNextItem b rf).2.disk.data (cB + 1) := by
            rw [hdata2]
            exact IBat_mono ibB below flushed2 (cB + 1) (by rw [hmB]; omega) hatB
          have hstepB := getNextItem_step ibB (ob.setNextItem b rf).2.disk.data
            (cB + 1) hatB2 (by rw [hmB, hdata2]; simp; omega)
          rw [hmB, hdata2] at hstepB
          have hstepB2 := streamAt_anti _ _ _ _ _ hBv hstepB
          have hBnext : streamAt
              (ibB.getNextItem (ob.setNextItem b rf).2.disk.data)
              metaB below (cB + 1) := by
            rw [hdata2]
            exact hstepB2
          have hAsame : streamAt (some (a, ibA)) metaA below cA :=
            ⟨hmA, hcA, hav, hatA⟩
          obtain ⟨flushed3, hob3, hcat3, hcnt3, hfr3⟩ :=
            ih _ _ _ _ _ _ _ hAsame hBnext hob2 (by omega)
          refine ⟨flushed3, hob3, ?_, ?_, ?_⟩
          · rw [hcat3, hcat2]
            have hAfold : slice below (metaA.startOffset + cA)
                  (metaA.elementCount - cA)
                = a :: slice below (metaA.startOffset + (cA + 1))
                    (metaA.elementCount - (cA + 1)) := by
              rw [streamAt_cons below metaA cA hcA hAv, ← hav]
            have hBfold : slice below (metaB.startOffset + cB)
                  (metaB.elementCount - cB)
                = b :: slice below (metaB.startOffset + (cB + 1))
                    (metaB.elementCount - (cB + 1)) := by
              rw [streamAt_cons below metaB cB hcB hBv, ← hbv]
            rw [hAfold, hBfold]
            simp only [mergeSpec]
            rw [if_neg hab, ← hAfold]
            simp [List.append_assoc]
          · rw [hcnt3, hcnt2]
            omega
          · obtain ⟨f1, f2, f3, f4, f5⟩ := hfr2
            obtain ⟨g1, g2, g3, g4, g5⟩ := hfr3
            exact ⟨g1.trans f1, g2.trans f2, g3.trans f3, g4.trans f4,
              g5.trans f5⟩

/-! ### MergeInMem -/

theorem getD_eq_getElem {α : Type} (l : List α) (j : Nat) (h : j < l.length)
    (d : α) : l.getD j d = l[j] := by
  rw [List.getD_eq_getElem?_getD, List.getElem?_eq_getElem h]
  rfl

theorem find_free_slot (rf : RunFile)
    (hLen : rf.directory.length = rf.header.maxRuns)
    (hfree : usedCount rf < rf.header.maxRuns) :
    ∃ i, (List.range rf.header.maxRuns).find?
      (fun i => ¬(rf.directory.getD i RunMetadata.free).isUsed) = some i := by
  cases hf : (List.range rf.header.maxRuns).find?
      (fun i => ¬(rf.directory.getD i RunMetadata.free).isUsed) with
  | some i => exact ⟨i, rfl⟩
  | none =>
    exfalso
    have hall := List.find?_eq_none.mp hf
    have hused : ∀ j, j < rf.header.maxRuns →
        (rf.directory.getD j RunMetadata.free).isUsed = true := by
      intro j hj
      have := hall j (List.mem_range.mpr hj)
      simpa using this
    have hcnt : rf.directory.countP (fun m => m.isUsed)
        = rf.directory.length := by
      rw [List.countP_eq_length]
      intro m hm
      obtain ⟨j, hjl, hje⟩ := List.getElem_of_mem hm
      have := hused j (by omega)
      rw [getD_eq_getElem _ _ hjl, hje] at this
      simpa using this
    unfold usedCount at hfree
    omega

theorem sessionInv_frame (rf rf2 : RunFile) (h : SessionInv rf)
    (hf : rfFrame rf rf2) : SessionInv rf2 := by
  obtain ⟨hOpen, hMagic, hMax, hLen, hSync, hCnt⟩ := h
  obtain ⟨f1, f2, f3, f4, f5⟩ := hf
  refine ⟨f1.trans hOpen, f4 ▸ hMagic, ?_, ?_, ?_, ?_⟩
  · rw [f2, f4]
    exact hMax
  · rw [f3, f2]
    exact hLen
  · rw [f5, f3]
    exact hSync
  · rw [f2]
    unfold usedCount
    rw [f3]
    exact hCnt

/-- Full characterisation of `Merger::MergeInMem` on an open, consistent
run file with both input runs inside the data region and a free directory
slot: the merged run is appended at the old end of file, its directory
entry records the sum of the two counts, and its content is exactly the
two-way merge of the two runs' contents. -/
theorem MergeInMem_spec (rf : RunFile) (runA runB : RunMetadata)
    (hInv : SessionInv rf)
    (hAv : runA.startOffset + runA.elementCount ≤ rf.disk.data.length)
    (hBv : runB.startOffset + runB.elementCount ≤ rf.disk.data.length)
    (hfree : usedCount rf < rf.header.maxRuns) :
    ∃ rf2, MergeInMem rf runA runB
        = .ok (⟨rf.disk.data.length,
            runA.elementCount + runB.elementCount, true⟩, rf2)
      ∧ rf2.disk.data = rf.disk.data
          ++ mergeSpec (readRun rf runA) (readRun rf runB)
      ∧ SessionInv rf2
      ∧ rf2.header.maxRuns = rf.header.maxRuns
      ∧ rf2.header.currentRunCount = rf.header.currentRunCount + 1 := by
  obtain ⟨hOpen, hMagic, hMax, hLen, hSync, hCnt⟩ := hInv
  obtain ⟨i, hfind⟩ := find_free_slot rf hLen hfree
  have hiLt : i < rf.header.maxRuns :=
    List.mem_range.mp (List.mem_of_find?_eq_some hfind)
  have hiLen : i < rf.directory.length := by omega
  have halloc := allocateNewRun_some rf i hOpen hfind
  have hInv1 : SessionInv (rf.allocateNewRun).2 :=
    sessionInv_alloc rf ⟨hOpen, hMagic, hMax, hLen, hSync, hCnt⟩
  have hD1 : (rf.allocateNewRun).2.disk.data = rf.disk.data := by
    rw [halloc]
  have hO1 : (rf.allocateNewRun).2.isOpen = true := hInv1.1
  have hH1 : (rf.allocateNewRun).2.header.maxRuns = rf.header.maxRuns := by
    rw [halloc]
  have hC1 : (rf.allocateNewRun).2.header.currentRunCount
      = rf.header.currentRunCount + 1 := by
    rw [halloc]
  have hdir1 : (rf.allocateNewRun).2.directory
      = rf.directory.set i ⟨0, 0, true⟩ := by
    rw [halloc]
  have hne : ¬((rf.allocateNewRun).1 = -1) := by
    rw [halloc]
    dsimp only
    omega
  -- initial input streams
  have hsA : streamAt ((InputBuffer.mk0 runA 1024).getNextItem
      (rf.allocateNewRun).2.disk.data) runA rf.disk.data 0 := by
    have h0 : IBat (InputBuffer.mk0 runA 1024) rf.disk.data 0 := by
      refine ⟨Nat.le_refl _, Nat.le_refl _, Nat.zero_le _, rfl,
        by dsimp only [InputBuffer.mk0]; omega, ?_⟩
      show (List.replicate 1024 (0 : Int)).take 0
        = slice rf.disk.data (runA.startOffset + (0 - 0)) 0
      rw [List.take_zero, slice_zero]
    have := getNextItem_step (InputBuffer.mk0 runA 1024) rf.disk.data 0 h0 hAv
    rw [hD1]
    exact this
  have hsB : streamAt ((InputBuffer.mk0 runB 1024).getNextItem
      (rf.allocateNewRun).2.disk.data) runB rf.disk.data 0 := by
    have h0 : IBat (InputBuffer.mk0 runB 1024) rf.disk.data 0 := by
      refine ⟨Nat.le_refl _, Nat.le_refl _, Nat.zero_le _, rfl,
        by dsimp only [InputBuffer.mk0]; omega, ?_⟩
      show (List.replicate 1024 (0 : Int)).take 0
        = slice rf.disk.data (runB.startOffset + (0 - 0)) 0
      rw [List.take_zero, slice_zero]
    have := getNextItem_step (InputBuffer.mk0 runB 1024) rf.disk.data 0 h0 hBv
    rw [hD1]
    exact this
  have hob0 : OBrun (OutputBuffer.mk0 (rf.allocateNewRun).2.getAppendOffset 1024)
      (rf.allocateNewRun).2 rf.disk.data [] := by
    refine ⟨?_, by rw [hD1, List.append_nil], rfl, by norm_num [OutputBuffer.mk0], hO1⟩
    unfold RunFile.getAppendOffset OutputBuffer.mk0
    rw [hD1]
  obtain ⟨flushed2, hobM, hcatM, hcntM, hfrM⟩ := mergeLoop_spec
    (runA.elementCount + runB.elementCount + 1)
    ((InputBuffer.mk0 runA 1024).getNextItem (rf.allocateNewRun).2.disk.data)
    ((InputBuffer.mk0 runB 1024).getNextItem (rf.allocateNewRun).2.disk.data)
    (OutputBuffer.mk0 (rf.allocateNewRun).2.getAppendOffset 1024)
    (rf.allocateNewRun).2 runA runB 0 0 rf.disk.data [] hsA hsB hAv hBv hob0
    (by omega)
  obtain ⟨hflD, hflC, hflF⟩ := flush_run _ _ _ _ hobM
  -- the content of the merged run
  have hcontent : flushed2
      ++ (mergeLoop (runA.elementCount + runB.elementCount + 1)
          ((InputBuffer.mk0 runA 1024).getNextItem (rf.allocateNewRun).2.disk.data)
          ((InputBuffer.mk0 runB 1024).getNextItem (rf.allocateNewRun).2.disk.data)
          (OutputBuffer.mk0 (rf.allocateNewRun).2.getAppendOffset 1024)
          (rf.allocateNewRun).2).1.buffer
      = mergeSpec (readRun rf runA) (readRun rf runB) := by
    rw [hcatM]
    simp only [OutputBuffer.mk0, List.nil_append, Nat.add_zero, Nat.sub_zero]
    rfl
  have ha1 : (rf.allocateNewRun).1 = ((i : Nat) : Int) := by rw [halloc]
  simp only [MergeInMem]
  rw [if_neg hne, ha1]
  set ML := mergeLoop (runA.elementCount + runB.elementCount + 1)
    ((InputBuffer.mk0 runA 1024).getNextItem (rf.allocateNewRun).2.disk.data)
    ((InputBuffer.mk0 runB 1024).getNextItem (rf.allocateNewRun).2.disk.data)
    (OutputBuffer.mk0 (rf.allocateNewRun).2.getAppendOffset 1024)
    (rf.allocateNewRun).2 with hMLdef
  set F := ML.1.flush ML.2 with hFdef
  -- facts about the flushed state
  have hfrF : rfFrame (rf.allocateNewRun).2 F.2 := by
    obtain ⟨f1, f2, f3, f4, f5⟩ := hfrM
    obtain ⟨g1, g2, g3, g4, g5⟩ := hflF
    exact ⟨g1.trans f1, g2.trans f2, g3.trans f3, g4.trans f4, g5.trans f5⟩
  have hInvF : SessionInv F.2 := sessionInv_frame _ _ hInv1 hfrF
  have hOpenF : F.2.isOpen = true := hInvF.1
  have hmaxF : F.2.header.maxRuns = rf.header.maxRuns := by
    rw [hfrF.2.1, hH1]
  have hcrcF : F.2.header.currentRunCount = rf.header.currentRunCount + 1 := by
    rw [hfrF.2.1, hC1]
  have hdirF : F.2.directory = rf.directory.set i ⟨0, 0, true⟩ := by
    rw [hfrF.2.2.1, hdir1]
  have hdirFlen : i < F.2.directory.length := by
    rw [hdirF, List.length_set]
    omega
  have htotal : F.1.getElementCount
      = runA.elementCount + runB.elementCount := by
    rw [hFdef, hflC, hcntM]
    dsimp only [OutputBuffer.mk0, OutputBuffer.getElementCount]
    simp
  have hS : (rf.allocateNewRun).2.getAppendOffset = rf.disk.data.length := by
    unfold RunFile.getAppendOffset
    rw [hD1]
  have hupd := updateRunMetadata_ok F.2 ((i : Nat) : Int)
    (rf.allocateNewRun).2.getAppendOffset F.1.getElementCount hOpenF
    (by exact_mod_cast Int.natCast_nonneg i)
    (by rw [hmaxF]; exact_mod_cast hiLt)
  simp only [Int.toNat_natCast] at hupd
  have hentry : (F.2.directory.getD i RunMetadata.free).isUsed = true := by
    rw [hdirF, getD_set_self _ _ _ _ (by omega)]
  have hu1 : (F.2.updateRunMetadata ((i : Nat) : Int)
      (rf.allocateNewRun).2.getAppendOffset F.1.getElementCount).1 = none := by
    rw [hupd]
  have hu2data : (F.2.updateRunMetadata ((i : Nat) : Int)
      (rf.allocateNewRun).2.getAppendOffset F.1.getElementCount).2.disk.data
      = F.2.disk.data := by
    rw [hupd]
  have hu2hdr : (F.2.updateRunMetadata ((i : Nat) : Int)
      (rf.allocateNewRun).2.getAppendOffset F.1.getElementCount).2.header
      = F.2.header := by
    rw [hupd]
  have hu2dir : (F.2.updateRunMetadata ((i : Nat) : Int)
      (rf.allocateNewRun).2.getAppendOffset F.1.getElementCount).2.directory
      = F.2.directory.set i
          ⟨(rf.allocateNewRun).2.getAppendOffset, F.1.getElementCount,
            (F.2.directory.getD i RunMetadata.free).isUsed⟩ := by
    rw [hupd]
  have hInv2 : SessionInv (F.2.updateRunMetadata ((i : Nat) : Int)
      (rf.allocateNewRun).2.getAppendOffset F.1.getElementCount).2 :=
    sessionInv_update F.2 ((i : Nat) : Int)
      (rf.allocateNewRun).2.getAppendOffset F.1.getElementCount hInvF
  have hFdata : F.2.disk.data
      = rf.disk.data ++ mergeSpec (readRun rf runA) (readRun rf runB) := by
    rw [hFdef, hflD, hcontent]
  have hm2 : (((F.2.updateRunMetadata ((i : Nat) : Int)
      (rf.allocateNewRun).2.getAppendOffset
        F.1.getElementCount).2.header.maxRuns : Nat) : Int)
      = (rf.header.maxRuns : Int) := by
    rw [hu2hdr, hmaxF]
  have hget : (F.2.updateRunMetadata ((i : Nat) : Int)
      (rf.allocateNewRun).2.getAppendOffset F.1.getElementCount).2.getRunMetadata
        ((i : Nat) : Int)
      = .ok ⟨(rf.allocateNewRun).2.getAppendOffset, F.1.getElementCount, true⟩ := by
    unfold RunFile.getRunMetadata
    rw [if_neg (by
      push_neg
      refine ⟨by exact_mod_cast Int.natCast_nonneg i, ?_⟩
      rw [hm2]
      exact_mod_cast hiLt)]
    rw [Int.toNat_natCast, hu2dir, getD_set_self _ _ _ _ hdirFlen, hentry]
  refine ⟨(F.2.updateRunMetadata ((i : Nat) : Int)
      (rf.allocateNewRun).2.getAppendOffset F.1.getElementCount).2,
    ?_, ?_, hInv2, ?_, ?_⟩
  · rw [hu1, hget, hS, htotal]
  · rw [hu2data]
    exact hFdata
  · rw [hu2hdr]
    exact hmaxF
  · rw [hu2hdr]
    exact hcrcF

/-- **C4.** For every pair of non-decreasing runs `A` and `B` on an open,
consistent run file with a free directory slot, `MergeInMem(runA, runB)`
emits the two-way merge in which `A`'s element is emitted when strictly
`itemA < itemB` and `B`'s element is emitted on ties (preference to the
second operand), then drains the remaining tail of whichever input is not
exhausted (`mergeSpec` is exactly that merge rule), and the total emitted
element count recorded in the new run's metadata equals
`runA.elementCount + runB.elementCount`. -/
theorem MergeInMem_merges (rf : RunFile) (runA runB : RunMetadata)
    (hInv : SessionInv rf)
    (hAv : runA.startOffset + runA.elementCount ≤ rf.disk.data.length)
    (hBv : runB.startOffset + runB.elementCount ≤ rf.disk.data.length)
    (hfree : usedCount rf < rf.header.maxRuns)
    (hsortA : List.Sorted (· ≤ ·) (readRun rf runA))
    (hsortB : List.Sorted (· ≤ ·) (readRun rf runB)) :
    ∃ m rf2, MergeInMem rf runA runB = .ok (m, rf2)
      ∧ m.elementCount = runA.elementCount + runB.elementCount
      ∧ readRun rf2 m = mergeSpec (readRun rf runA) (readRun rf runB) := by
  obtain ⟨rf2, heq, hdata, hInv2, hmax2, hcrc2⟩ :=
    MergeInMem_spec rf runA runB hInv hAv hBv hfree
  refine ⟨_, rf2, heq, rfl, ?_⟩
  show slice rf2.disk.data rf.disk.data.length
      (runA.elementCount + runB.elementCount) = _
  rw [hdata]
  have hlen : (mergeSpec (readRun rf runA) (readRun rf runB)).length
      = runA.elementCount + runB.elementCount := by
    rw [mergeSpec_length]
    unfold readRun
    rw [slice_length _ _ _ hAv, slice_length _ _ _ hBv]
  rw [← hlen]
  exact slice_append_self _ _

/-! ### The optimal merge driver -/

theorem popMin_eq_none (l : List RunMetadata) : popMin l = none ↔ l = [] := by
  cases l with
  | nil => simp [popMin]
  | cons x xs =>
    constructor
    · intro h
      rw [popMin] at h
      cases hx : popMin xs with
      | none =>
        rw [hx] at h
        exact absurd h (by simp)
      | some p =>
        obtain ⟨m2, rest2⟩ := p
        rw [hx] at h
        dsimp only at h
        split at h <;> exact absurd h (by simp)
    · intro h
      exact absurd h (by simp)

theorem popMin_isSome (l : List RunMetadata) (h : l ≠ []) :
    ∃ m rest, popMin l = some (m, rest) := by
  cases hp : popMin l with
  | none => exact absurd ((popMin_eq_none l).mp hp) h
  | some p =>
    obtain ⟨m, rest⟩ := p
    exact ⟨m, rest, rfl⟩

theorem popMin_perm (l : List RunMetadata) (m : RunMetadata)
    (rest : List RunMetadata) (h : popMin l = some (m, rest)) :
    (m :: rest).Perm l := by
  induction l generalizing m rest with
  | nil => simp [popMin] at h
  | cons x xs ih =>
    rw [popMin] at h
    cases hx : popMin xs with
    | none =>
      rw [hx] at h
      have hxs : xs = [] := (popMin_eq_none xs).mp hx
      dsimp only at h
      simp only [Option.some.injEq, Prod.mk.injEq] at h
      obtain ⟨rfl, rfl⟩ := h
      rw [hxs]
    | some p =>
      obtain ⟨m2, rest2⟩ := p
      rw [hx] at h
      dsimp only at h
      split at h
      · simp only [Option.some.injEq, Prod.mk.injEq] at h
        obtain ⟨rfl, rfl⟩ := h
        exact List.Perm.refl _
      · simp only [Option.some.injEq, Prod.mk.injEq] at h
        obtain ⟨rfl, rfl⟩ := h
        exact (List.Perm.swap x m2 rest2).trans ((ih m2 rest2 hx).cons x)

theorem readRun_append (rf rf2 : RunFile) (meta : RunMetadata)
    (w : List Int) (h : rf2.disk.data = rf.disk.data ++ w)
    (hv : meta.startOffset + meta.elementCount ≤ rf.disk.data.length) :
    readRun rf2 meta = readRun rf meta := by
  unfold readRun
  rw [h, slice_append_left _ _ _ _ hv]

theorem externalMergeSortLoop_spec (fuel : Nat) (heap : List RunMetadata)
    (rf : RunFile) (hInv : SessionInv rf) (hok : HeapOK rf heap)
    (hne : heap ≠ [])
    (hfree : usedCount rf + (heap.length - 1) ≤ rf.header.maxRuns)
    (hfuel : heap.length ≤ fuel) :
    ∃ m rf2, externalMergeSortLoop fuel heap rf = .ok (m, rf2)
      ∧ m.startOffset + m.elementCount ≤ rf2.disk.data.length
      ∧ List.Sorted (· ≤ ·) (readRun rf2 m)
      ∧ m.elementCount = (heap.map (fun x => x.elementCount)).sum
      ∧ (readRun rf2 m : Multiset Int)
          = (heap.map (fun x => (readRun rf x : Multiset Int))).sum := by
  induction fuel generalizing heap rf with
  | zero =>
    have := List.length_pos.mpr hne
    omega
  | succ fuel ih =>
    by_cases hlen : heap.length ≤ 1
    · cases heap with
      | nil => exact absurd rfl hne
      | cons m rest =>
        have hrest : rest = [] := by
          cases rest with
          | nil => rfl
          | cons y ys => simp at hlen
        subst hrest
        have hred : externalMergeSortLoop (fuel + 1) [m] rf = .ok (m, rf) := by
          simp [externalMergeSortLoop]
        obtain ⟨hv, hs⟩ := hok m (by simp)
        exact ⟨m, rf, hred, hv, hs, by simp, by simp⟩
    · push_neg at hlen
      obtain ⟨runA, heap1, hpopA⟩ := popMin_isSome heap hne
      have hpermA := popMin_perm heap runA heap1 hpopA
      have hlen1 : heap1.length + 1 = heap.length := by
        have := hpermA.length_eq
        simpa using this
      have hne1 : heap1 ≠ [] := by
        intro hemp
        rw [hemp] at hlen1
        simp at hlen1
        omega
      obtain ⟨runB, heap2, hpopB⟩ := popMin_isSome heap1 hne1
      have hpermB := popMin_perm heap1 runB heap2 hpopB
      have hlen2 : heap2.length + 1 = heap1.length := by
        have := hpermB.length_eq
        simpa using this
      have hmemA : runA ∈ heap := hpermA.subset (by simp)
      have hmemB : runB ∈ heap :=
        hpermA.subset (List.mem_cons_of_mem _ (hpermB.subset (by simp)))
      obtain ⟨hAv, hAsort⟩ := hok runA hmemA
      obtain ⟨hBv, hBsort⟩ := hok runB hmemB
      have hfree2 : usedCount rf < rf.header.maxRuns := by omega
      obtain ⟨rf2, heqM, hdataM, hInv2, hmax2, hcrc2⟩ :=
        MergeInMem_spec rf runA runB hInv hAv hBv hfree2
      have hmglen : (mergeSpec (readRun rf runA) (readRun rf runB)).length
          = runA.elementCount + runB.elementCount := by
        rw [mergeSpec_length]
        unfold readRun
        rw [slice_length _ _ _ hAv, slice_length _ _ _ hBv]
      have hdlen2 : rf2.disk.data.length
          = rf.disk.data.length + (runA.elementCount + runB.elementCount) := by
        rw [hdataM, List.length_append, hmglen]
      have hmergedContent : readRun rf2
          ⟨rf.disk.data.length, runA.elementCount + runB.elementCount, true⟩
          = mergeSpec (readRun rf runA) (readRun rf runB) := by
        show slice rf2.disk.data rf.disk.data.length
          (runA.elementCount + runB.elementCount) = _
        rw [hdataM, ← hmglen]
        exact slice_append_self _ _
      have hok2 : HeapOK rf2
          (⟨rf.disk.data.length, runA.elementCount + runB.elementCount, true⟩
            :: heap2) := by
        intro x hx
        rcases List.mem_cons.mp hx with rfl | hx2
        · refine ⟨by dsimp only; omega, ?_⟩
          rw [hmergedContent]
          exact mergeSpec_sorted _ _ hAsort hBsort
        · have hxheap : x ∈ heap := hpermA.subset
            (List.mem_cons_of_mem _ (hpermB.subset
              (List.mem_cons_of_mem _ hx2)))
          obtain ⟨hxv, hxs⟩ := hok x hxheap
          refine ⟨by omega, ?_⟩
          rw [readRun_append rf rf2 x _ hdataM hxv]
          exact hxs
      have hused2 : usedCount rf2 = usedCount rf + 1 := by
        have h1 := hInv2.2.2.2.2.2
        have h2 := hInv.2.2.2.2.2
        omega
      obtain ⟨mF, rfF, heqL, hvF, hsF, hcF, hmF⟩ :=
        ih (⟨rf.disk.data.length, runA.elementCount + runB.elementCount, true⟩
            :: heap2) rf2 hInv2 hok2 (by simp)
          (by simp only [List.length_cons]; omega)
          (by simp only [List.length_cons]; omega)
      have hred : externalMergeSortLoop (fuel + 1) heap rf
          = externalMergeSortLoop fuel
              (⟨rf.disk.data.length, runA.elementCount + runB.elementCount,
                  true⟩ :: heap2) rf2 := by
        simp only [externalMergeSortLoop]
        rw [if_neg (by omega), hpopA]
        dsimp only
        rw [hpopB]
        dsimp only
        rw [heqM]
      have hsumC : (heap.map (fun x => x.elementCount)).sum
          = runA.elementCount + runB.elementCount
            + (heap2.map (fun x => x.elementCount)).sum := by
        rw [← (hpermA.map (fun x => x.elementCount)).sum_eq]
        simp only [List.map_cons, List.sum_cons]
        rw [← (hpermB.map (fun x => x.elementCount)).sum_eq]
        simp only [List.map_cons, List.sum_cons]
        omega
      have hmapEq : heap2.map (fun x => (readRun rf2 x : Multiset Int))
          = heap2.map (fun x => (readRun rf x : Multiset Int)) := by
        apply List.map_congr_left
        intro x hx2
        have hxheap : x ∈ heap := hpermA.subset
          (List.mem_cons_of_mem _ (hpermB.subset (List.mem_cons_of_mem _ hx2)))
        rw [readRun_append rf rf2 x _ hdataM (hok x hxheap).1]
      have hsumM : ((⟨rf.disk.data.length,
            runA.elementCount + runB.elementCount, true⟩ :: heap2).map
              (fun x => (readRun rf2 x : Multiset Int))).sum
          = (heap.map (fun x => (readRun rf x : Multiset Int))).sum := by
        simp only [List.map_cons, List.sum_cons]
        rw [hmergedContent, hmapEq]
        rw [← (hpermA.map (fun x => (readRun rf x : Multiset Int))).sum_eq]
        simp only [List.map_cons, List.sum_cons]
        rw [← (hpermB.map (fun x => (readRun rf x : Multiset Int))).sum_eq]
        simp only [List.map_cons, List.sum_cons]
        have hmm : ((mergeSpec (readRun rf runA) (readRun rf runB)
            : List Int) : Multiset Int)
            = (readRun rf runA : Multiset Int) + (readRun rf runB : Multiset Int) := by
          have := mergeSpec_perm (readRun rf runA) (readRun rf runB)
          rw [Multiset.coe_eq_coe.mpr this]
          simp
        rw [hmm]
        abel
      refine ⟨mF, rfF, by rw [hred]; exact heqL, hvF, hsF, ?_, ?_⟩
      · rw [hcF]
        simp only [List.map_cons, List.sum_cons]
        rw [hsumC]
      · rw [hmF, hsumM]

theorem MergeInMem_merges_witness :
    ∃ m rf2, MergeInMem W4rf W4runA W4runB = .ok (m, rf2)
      ∧ m.elementCount = W4runA.elementCount + W4runB.elementCount
      ∧ readRun rf2 m = mergeSpec (readRun W4rf W4runA) (readRun W4rf W4runB) :=
  MergeInMem_merges W4rf W4runA W4runB
    ⟨rfl, rfl, rfl, rfl, rfl, rfl⟩ (by decide) (by decide) (by decide)
    (by decide) (by decide)

/-! ### Lexicographic order and ancestor toolkit for the loser tree -/

theorem lexLE_refl (a : RunNode) : lexLE a a := Or.inr ⟨rfl, le_refl _⟩

theorem lexLE_trans {a b c : RunNode} (h1 : lexLE a b) (h2 : lexLE b c) :
    lexLE a c := by
  unfold lexLE at h1 h2 ⊢
  omega

theorem lexLE_antisymm {a b : RunNode} (h1 : lexLE a b)
    (h2 : lexLE b a) : a = b := by
  obtain ⟨av, ar⟩ := a
  obtain ⟨bv, br⟩ := b
  unfold lexLE at h1 h2
  dsimp only at h1 h2
  have h3 : ar = br ∧ av = bv := by omega
  rw [h3.1, h3.2]

theorem lexLE_total (a b : RunNode) : lexLE a b ∨ lexLE b a := by
  unfold lexLE
  omega

theorem isLoser_eq_false_iff (a b : RunNode) :
    isLoser a b = false ↔ lexLE a b := by
  unfold isLoser lexLE
  by_cases h : a.runID = b.runID
  · simp [h]
  · simp [h]
    omega

theorem isLoser_eq_true_iff (a b : RunNode) :
    isLoser a b = true ↔ ¬lexLE a b := by
  rw [← isLoser_eq_false_iff]
  cases isLoser a b <;> simp

theorem isUnder_refl (x : Nat) : isUnder x x := ⟨0, by simp⟩

theorem isUnder_le {j x : Nat} (h : isUnder j x) : j ≤ x := by
  obtain ⟨n, rfl⟩ := h
  exact Nat.div_le_self _ _

theorem isUnder_zero {j : Nat} (h : isUnder j 0) : j = 0 := by
  obtain ⟨n, rfl⟩ := h
  simp

theorem isUnder_trans {i j x : Nat} (h1 : isUnder j x)
    (h2 : isUnder i j) : isUnder i x := by
  obtain ⟨n, rfl⟩ := h1
  obtain ⟨m, rfl⟩ := h2
  exact ⟨n + m, by rw [pow_add, ← Nat.div_div_eq_div_mul]⟩

theorem isUnder_half (x : Nat) : isUnder (x / 2) x :=
  ⟨1, by rw [pow_one]⟩

theorem isUnder_up {j x : Nat} (h : isUnder j (x / 2)) : isUnder j x :=
  isUnder_trans (isUnder_half x) h

theorem isUnder_one {x : Nat} (hx : 1 ≤ x) : isUnder 1 x := by
  induction x using Nat.strong_induction_on with
  | _ x ih =>
    rcases Nat.lt_or_ge x 2 with h | h
    · have hx1 : x = 1 := by omega
      rw [hx1]
      exact isUnder_refl 1
    · exact isUnder_up (ih (x / 2) (by omega) (by omega))

theorem isUnder_cases {j x : Nat} (h : isUnder j x) :
    x = j ∨ isUnder j (x / 2) := by
  obtain ⟨n, hn⟩ := h
  cases n with
  | zero =>
    left
    simpa using hn
  | succ m =>
    right
    refine ⟨m, ?_⟩
    have hp : 2 * 2 ^ m = 2 ^ (m + 1) := by
      rw [pow_succ]
      ring
    rw [Nat.div_div_eq_div_mul, hp]
    exact hn

theorem isUnder_linear {a b x : Nat} (h1 : isUnder a x)
    (h2 : isUnder b x) : isUnder a b ∨ isUnder b a := by
  obtain ⟨m, hm⟩ := h1
  obtain ⟨n, hn⟩ := h2
  rcases Nat.le_total m n with h | h
  · right
    refine ⟨n - m, ?_⟩
    rw [← hm, Nat.div_div_eq_div_mul, ← pow_add, ← hn]
    congr 2
    omega
  · left
    refine ⟨m - n, ?_⟩
    rw [← hn, Nat.div_div_eq_div_mul, ← pow_add, ← hm]
    congr 2
    omega

theorem isUnder_child {j x : Nat} (h : isUnder j x) (hne : x ≠ j) :
    isUnder (2 * j) x ∨ isUnder (2 * j + 1) x := by
  obtain ⟨n, hn⟩ := h
  cases n with
  | zero =>
    simp at hn
    exact absurd hn hne
  | succ m =>
    have hy : x / 2 ^ m / 2 = j := by
      have hp : 2 ^ m * 2 = 2 ^ (m + 1) := by
        rw [pow_succ]
      rw [Nat.div_div_eq_div_mul, hp]
      exact hn
    have h2 : x / 2 ^ m = 2 * j ∨ x / 2 ^ m = 2 * j + 1 := by omega
    rcases h2 with h2 | h2
    · left
      exact ⟨m, h2⟩
    · right
      exact ⟨m, h2⟩

theorem isUnder_children_exclusive {j x : Nat} (hj : 1 ≤ j) :
    ¬(isUnder (2 * j) x ∧ isUnder (2 * j + 1) x) := by
  rintro ⟨h1, h2⟩
  rcases isUnder_linear h1 h2 with h | h
  · rcases isUnder_cases h with he | hu
    · omega
    · have h3 := isUnder_le hu
      have h4 : (2 * j + 1) / 2 = j := by omega
      rw [h4] at h3
      omega
  · have h3 := isUnder_le h
    omega

theorem isUnder_ext {x y : Nat} (k : Nat) (hk : k ≤ x) (hy : y < 2 * k)
    (h : isUnder x y) : x = y := by
  rcases isUnder_cases h with he | hu
  · exact he.symm
  · have h2 := isUnder_le hu
    omega

theorem isUnder_left_child (x : Nat) : isUnder x (2 * x) :=
  ⟨1, by rw [pow_one]; omega⟩

theorem isUnder_right_child (x : Nat) : isUnder x (2 * x + 1) :=
  ⟨1, by rw [pow_one]; omega⟩

/-! ### Arithmetic of the build pass counts -/

theorem passN_zero (k i : Nat) : passN k i 0 = 0 := by
  rw [passN.eq_def]
  simp

theorem passN_ext {k x : Nat} (i : Nat) (h0 : 1 ≤ x) (hx : k ≤ x) :
    passN k i x = if i ≤ x - k ∧ x - k < k then 1 else 0 := by
  rw [passN.eq_def]
  rw [if_neg (by omega), if_pos hx]

theorem passN_int {k x : Nat} (i : Nat) (h1 : 1 ≤ x) (h2 : x < k) :
    passN k i x
      = max (passN k i (2 * x) + passN k i (2 * x + 1)) 1 - 1 := by
  rw [passN.eq_def]
  rw [if_neg (by omega), if_neg (by omega)]

theorem passN_le_one_aux (k i : Nat) :
    ∀ m x, 2 * k ≤ x + m → passN k i x ≤ 1 := by
  intro m
  induction m with
  | zero =>
    intro x hx
    by_cases h0 : x = 0
    · rw [h0, passN_zero]
      omega
    · rw [passN_ext i (by omega) (by omega)]
      split <;> omega
  | succ m ih =>
    intro x hx
    by_cases h0 : x = 0
    · rw [h0, passN_zero]
      omega
    · by_cases hk : k ≤ x
      · rw [passN_ext i (by omega) hk]
        split <;> omega
      · rw [passN_int i (by omega) (by omega)]
        have c1 := ih (2 * x) (by omega)
        have c2 := ih (2 * x + 1) (by omega)
        omega

theorem passN_le_one (k i x : Nat) : passN k i x ≤ 1 :=
  passN_le_one_aux k i (2 * k) x (by omega)

theorem passN_stable_aux (k lf : Nat) :
    ∀ m x, 2 * k ≤ x + m → ¬isUnder x (lf + k) →
      passN k lf x = passN k (lf + 1) x := by
  intro m
  induction m with
  | zero =>
    intro x hx hund
    by_cases h0 : x = 0
    · rw [h0, passN_zero, passN_zero]
    · have hk : k ≤ x := by omega
      have hne : x ≠ lf + k := fun he => hund (he ▸ isUnder_refl x)
      rw [passN_ext lf (by omega) hk, passN_ext (lf + 1) (by omega) hk]
      by_cases hc : lf + 1 ≤ x - k ∧ x - k < k
      · rw [if_pos (by omega), if_pos hc]
      · rw [if_neg (by omega), if_neg hc]
  | succ m ih =>
    intro x hx hund
    by_cases h0 : x = 0
    · rw [h0, passN_zero, passN_zero]
    · by_cases hk : k ≤ x
      · have hne : x ≠ lf + k := fun he => hund (he ▸ isUnder_refl x)
        rw [passN_ext lf (by omega) hk, passN_ext (lf + 1) (by omega) hk]
        by_cases hc : lf + 1 ≤ x - k ∧ x - k < k
        · rw [if_pos (by omega), if_pos hc]
        · rw [if_neg (by omega), if_neg hc]
      · have hu1 : ¬isUnder (2 * x) (lf + k) := fun h =>
          hund (isUnder_trans h (isUnder_left_child x))
        have hu2 : ¬isUnder (2 * x + 1) (lf + k) := fun h =>
          hund (isUnder_trans h (isUnder_right_child x))
        rw [passN_int lf (by omega) (by omega),
          passN_int (lf + 1) (by omega) (by omega),
          ih (2 * x) (by omega) hu1, ih (2 * x + 1) (by omega) hu2]

theorem passN_stable {k lf x : Nat} (hund : ¬isUnder x (lf + k)) :
    passN k lf x = passN k (lf + 1) x :=
  passN_stable_aux k lf (2 * k) x (by omega) hund

theorem passN_full_aux (k : Nat) :
    ∀ m x, 2 * k ≤ x + m → 1 ≤ x → x < 2 * k → passN k 0 x = 1 := by
  intro m
  induction m with
  | zero =>
    intro x hx h1 h2
    omega
  | succ m ih =>
    intro x hx h1 h2
    by_cases hk : k ≤ x
    · rw [passN_ext 0 h1 hk]
      rw [if_pos (by omega)]
    · rw [passN_int 0 h1 (by omega)]
      rw [ih (2 * x) (by omega) (by omega) (by omega),
        ih (2 * x + 1) (by omega) (by omega) (by omega)]
      omega

theorem passN_full {k x : Nat} (h1 : 1 ≤ x) (h2 : x < 2 * k) :
    passN k 0 x = 1 :=
  passN_full_aux k (2 * k) x (by omega) h1 h2

theorem passN_pos_under_aux {k i j : Nat} (hj : 1 ≤ passN k i j) :
    ∀ n x, x < 2 * k → x / 2 ^ n = j → 1 ≤ passN k i x := by
  intro n
  induction n with
  | zero =>
    intro x hx2 hn
    simp at hn
    rw [hn]
    exact hj
  | succ m ih =>
    intro x hx2 hn
    have hy : x / 2 / 2 ^ m = j := by
      have hp : 2 * 2 ^ m = 2 ^ (m + 1) := by
        rw [pow_succ]
        ring
      rw [Nat.div_div_eq_div_mul, hp]
      exact hn
    have h1 : 1 ≤ passN k i (x / 2) :=
      ih (x / 2) (by omega) hy
    by_cases h0 : x / 2 = 0
    · rw [h0, passN_zero] at h1
      omega
    · by_cases hyk : k ≤ x / 2
      · omega
      · rw [passN_int i (by omega) (by omega)] at h1
        have c1 := passN_le_one k i (2 * (x / 2))
        have c2 := passN_le_one k i (2 * (x / 2) + 1)
        have hchild : x = 2 * (x / 2) ∨ x = 2 * (x / 2) + 1 := by omega
        rcases hchild with hc | hc <;> rw [hc] <;> omega

theorem passN_pos_under {k i j x : Nat} (hx2 : x < 2 * k)
    (hj : 1 ≤ passN k i j) (hu : isUnder j x) : 1 ≤ passN k i x := by
  obtain ⟨n, hn⟩ := hu
  exact passN_pos_under_aux hj n x hx2 hn

theorem passN_stable_chain_aux {k lf p : Nat} (hpk : p < k)
    (hQ : passN k lf p = passN k (lf + 1) p)
    (hLf : isUnder p (lf + k)) :
    ∀ n e, p / 2 ^ n = e → passN k lf e = passN k (lf + 1) e := by
  intro n
  induction n with
  | zero =>
    intro e hn
    simp at hn
    rw [← hn]
    exact hQ
  | succ m ih =>
    intro e hn
    have hy : p / 2 ^ m / 2 = e := by
      have hp2 : 2 ^ m * 2 = 2 ^ (m + 1) := by
        rw [pow_succ]
      rw [Nat.div_div_eq_div_mul, hp2]
      exact hn
    have hQy : passN k lf (p / 2 ^ m) = passN k (lf + 1) (p / 2 ^ m) :=
      ih (p / 2 ^ m) rfl
    by_cases h0 : e = 0
    · rw [h0, passN_zero, passN_zero]
    · have hy1 : 1 ≤ p / 2 ^ m := by omega
      have hyUnderP : isUnder (p / 2 ^ m) p := ⟨m, rfl⟩
      have hyUnderLf : isUnder (p / 2 ^ m) (lf + k) :=
        isUnder_trans hLf hyUnderP
      have heUnderP : isUnder e p := ⟨m + 1, hn⟩
      have hek : e < k := by
        have := isUnder_le heUnderP
        omega
      have hchild : p / 2 ^ m = 2 * e ∨ p / 2 ^ m = 2 * e + 1 := by
        omega
      have hsib : ∀ s, (s = 2 * e ∨ s = 2 * e + 1) → s ≠ p / 2 ^ m →
          passN k lf s = passN k (lf + 1) s := by
        intro s hs hne
        refine passN_stable ?_
        intro hcontra
        have hboth : isUnder (2 * e) (lf + k) ∧
            isUnder (2 * e + 1) (lf + k) := by
          rcases hs with rfl | rfl
          · refine ⟨hcontra, ?_⟩
            rcases hchild with hc | hc
            · omega
            · rw [← hc]
              exact hyUnderLf
          · refine ⟨?_, hcontra⟩
            rcases hchild with hc | hc
            · rw [← hc]
              exact hyUnderLf
            · omega
        exact isUnder_children_exclusive (by omega) hboth
      rw [passN_int lf (by omega) hek, passN_int (lf + 1) (by omega) hek]
      rcases hchild with hc | hc
      · have hA : passN k lf (2 * e) = passN k (lf + 1) (2 * e) := by
          rw [hc] at hQy
          exact hQy
        have hB := hsib (2 * e + 1) (Or.inr rfl) (by omega)
        rw [hA, hB]
      · have hA : passN k lf (2 * e + 1)
            = passN k (lf + 1) (2 * e + 1) := by
          rw [hc] at hQy
          exact hQy
        have hB := hsib (2 * e) (Or.inl rfl) (by omega)
        rw [hA, hB]

theorem passN_stable_chain {k lf p : Nat} (hpk : p < k)
    (hQ : passN k lf p = passN k (lf + 1) p)
    (hLf : isUnder p (lf + k)) :
    ∀ e, isUnder e p → passN k lf e = passN k (lf + 1) e := by
  intro e hu
  obtain ⟨n, hn⟩ := hu
  exact passN_stable_chain_aux hpk hQ hLf n e hn

/-! ### List helpers for the tournament arrays -/

theorem fullEntries_length (k : Nat) (t : List Nat) :
    (fullEntries k t).length = k := by
  simp [fullEntries]

theorem fullEntries_getElem (k : Nat) (t : List Nat) (n : Nat)
    (hn : n < (fullEntries k t).length) :
    (fullEntries k t)[n] = t.getD n 0 := by
  simp [fullEntries]

theorem fullEntries_set (k : Nat) (t : List Nat) (p v : Nat)
    (ht : t.length = k) (hp : p < k) :
    fullEntries k (t.set p v) = (fullEntries k t).set p v := by
  apply List.ext_getElem
  · simp [fullEntries_length]
  · intro n h1 h2
    rw [fullEntries_getElem]
    rw [List.getElem_set]
    split
    · next he =>
      rw [← he]
      exact getD_set_self t p v 0 (by omega)
    · next he =>
      rw [fullEntries_getElem]
      exact getD_set_ne t p n v 0 he

theorem tail_set {α : Type} (l : List α) (p : Nat) (v : α)
    (hp : 1 ≤ p) : (l.set p v).tail = l.tail.set (p - 1) v := by
  cases l with
  | nil => simp
  | cons a t =>
    cases p with
    | zero => omega
    | succ m => simp

theorem fullEntries_tail_eq (k : Nat) (t : List Nat) (hk : 1 ≤ k) :
    (fullEntries k t).tail
      = (List.range (k - 1)).map (fun j => t.getD (j + 1) 0) := by
  unfold fullEntries
  rw [show k = (k - 1) + 1 by omega, List.range_succ_eq_map]
  rw [List.map_cons, List.tail_cons, List.map_map]
  rfl

theorem mem_tail_fullEntries {k j : Nat} (t : List Nat) (h1 : 1 ≤ j)
    (h2 : j < k) : t.getD j 0 ∈ (fullEntries k t).tail := by
  rw [fullEntries_tail_eq k t (by omega)]
  refine List.mem_map.mpr ⟨j - 1, ?_, ?_⟩
  · rw [List.mem_range]
    omega
  · rw [show j - 1 + 1 = j by omega]

theorem perm_set_swap {α : Type} (l : List α) (n : Nat)
    (hn : n < l.length) (b d : α) :
    (l.getD n d :: l.set n b).Perm (b :: l) := by
  induction l generalizing n with
  | nil => simp at hn
  | cons a t ih =>
    cases n with
    | zero =>
      exact List.Perm.swap b a t
    | succ m =>
      have hm : m < t.length := by
        simp at hn
        omega
      exact (List.Perm.swap a (t.getD m d) (t.set m b)).trans
        (((ih m hm).cons a).trans (List.Perm.swap b a t))

theorem entriesDistinct {k cur : Nat} {t : List Nat}
    (hperm : (cur :: (fullEntries k t).tail).Perm (List.range k)) :
    (∀ j, 1 ≤ j → j < k → cur ≠ t.getD j 0) ∧
    (∀ j1 j2, 1 ≤ j1 → j1 < k → 1 ≤ j2 → j2 < k → j1 ≠ j2 →
      t.getD j1 0 ≠ t.getD j2 0) := by
  have hnd : (cur :: (fullEntries k t).tail).Nodup :=
    hperm.symm.nodup (List.nodup_range k)
  rw [List.nodup_cons] at hnd
  obtain ⟨hcur, htl⟩ := hnd
  constructor
  · intro j hj1 hj2 he
    exact hcur (he ▸ mem_tail_fullEntries t hj1 hj2)
  · intro j1 j2 h11 h12 h21 h22 hne he
    rw [fullEntries_tail_eq k t (by omega)] at htl
    have hl1 : j1 - 1 < ((List.range (k - 1)).map
        (fun j => t.getD (j + 1) 0)).length := by
      simp
      omega
    have hl2 : j2 - 1 < ((List.range (k - 1)).map
        (fun j => t.getD (j + 1) 0)).length := by
      simp
      omega
    have e1 : ((List.range (k - 1)).map
        (fun j => t.getD (j + 1) 0))[j1 - 1] = t.getD j1 0 := by
      rw [List.getElem_map, List.getElem_range]
      rw [show j1 - 1 + 1 = j1 by omega]
    have e2 : ((List.range (k - 1)).map
        (fun j => t.getD (j + 1) 0))[j2 - 1] = t.getD j2 0 := by
      rw [List.getElem_map, List.getElem_range]
      rw [show j2 - 1 + 1 = j2 by omega]
    have := (htl.getElem_inj_iff).mp (e1.trans (he.trans e2.symm))
    omega

theorem count_ge_two_of_getD {l : List Nat} {j1 j2 : Nat}
    (h1 : j1 < j2) (h2 : j2 < l.length) (v : Nat)
    (hv1 : l.getD j1 0 = v) (hv2 : l.getD j2 0 = v) :
    2 ≤ l.count v := by
  have hsplit : l = l.take j2 ++ l.drop j2 := (List.take_append_drop _ _).symm
  rw [hsplit, List.count_append]
  have hm1 : v ∈ l.take j2 := by
    have hlt : j1 < (l.take j2).length := by
      rw [List.length_take]
      omega
    have he : (l.take j2)[j1] = v := by
      rw [← getD_eq_getElem _ _ hlt, getD_take l j2 j1 0 h1, hv1]
    exact he ▸ List.getElem_mem hlt
  have hm2 : v ∈ l.drop j2 := by
    have hlt : 0 < (l.drop j2).length := by
      rw [List.length_drop]
      omega
    have he : (l.drop j2)[0] = v := by
      rw [← getD_eq_getElem _ _ hlt, getD_drop]
      simpa using hv2
    exact he ▸ List.getElem_mem hlt
  have c1 : 0 < (l.take j2).count v := List.count_pos_iff.mpr hm1
  have c2 : 0 < (l.drop j2).count v := List.count_pos_iff.mpr hm2
  omega

theorem tail_fullEntries_getD {k p : Nat} (t : List Nat) (h1 : 1 ≤ p)
    (h2 : p < k) :
    ((fullEntries k t).tail).getD (p - 1) 0 = t.getD p 0 := by
  rw [fullEntries_tail_eq k t (by omega)]
  have hlt : p - 1 < ((List.range (k - 1)).map
      (fun j => t.getD (j + 1) 0)).length := by
    simp
    omega
  rw [getD_eq_getElem _ _ hlt, List.getElem_map, List.getElem_range]
  rw [show p - 1 + 1 = p by omega]

theorem insideP_up {k : Nat} {t : List Nat} {j j2 i : Nat}
    (h : insideP k t j i) (hj : isUnder j2 j) : insideP k t j2 i := by
  obtain ⟨jp, h1, h2, h3, h4⟩ := h
  exact ⟨jp, h1, h2, isUnder_trans h3 hj, h4⟩

theorem insideP_set_ne {k : Nat} {t : List Nat} {j p v i : Nat}
    (hnp : ¬isUnder j p) :
    insideP k (t.set p v) j i ↔ insideP k t j i := by
  constructor <;> rintro ⟨jp, h1, h2, h3, h4⟩ <;>
    refine ⟨jp, h1, h2, h3, ?_⟩
  · have hne : p ≠ jp := fun he => hnp (he ▸ h3)
    rw [getD_set_ne t p jp v 0 hne] at h4
    exact h4
  · have hne : p ≠ jp := fun he => hnp (he ▸ h3)
    rw [getD_set_ne t p jp v 0 hne]
    exact h4

theorem not_isUnder_child_self {p c : Nat} (hp : 1 ≤ p)
    (hc : c = 2 * p ∨ c = 2 * p + 1) : ¬isUnder c p := by
  intro h
  have := isUnder_le h
  omega

/-- From the loop invariant: the stored loser `w = t[p]` is the champion
of the sibling subtree of the path child, and the path child's champion
is `cur`. -/
theorem siblingChamp (k : Nat) (L : List RunNode) (p cur w : Nat)
    (t : List Nat) (hp : 1 ≤ p) (hpk : p < k)
    (hE : REntry k L p cur t) (hw : t.getD p 0 = w) :
    ∃ c s, ((c = 2 * p ∧ s = 2 * p + 1) ∨ (c = 2 * p + 1 ∧ s = 2 * p))
      ∧ isUnder c (cur + k) ∧ isUnder s (w + k) ∧ w < k ∧ w ≠ cur
      ∧ (∀ i, i < k → isUnder c (i + k) →
          lexLE (L.getD cur SENTINEL) (L.getD i SENTINEL))
      ∧ (∀ i, i < k → isUnder c (i + k) → ¬insideP k t c i → i = cur)
      ∧ (∀ i, i < k → isUnder s (i + k) →
          lexLE (L.getD w SENTINEL) (L.getD i SENTINEL))
      ∧ (∀ i, i < k → isUnder s (i + k) → ¬insideP k t s i → i = w) := by
  obtain ⟨hlen, hcur, hcurU, hperm, hI1, hclean, c, hcSide, hcU, hcMin,
    hcUniq⟩ := hE
  obtain ⟨hwk, hwU⟩ := hI1 p hp hpk
  rw [hw] at hwk hwU
  have hdist := entriesDistinct hperm
  have hwcur : w ≠ cur := by
    intro he
    exact (hdist.1 p hp hpk) (by rw [hw, he])
  -- the sibling of the path child
  obtain ⟨s, hcs⟩ : ∃ s, (c = 2 * p ∧ s = 2 * p + 1)
      ∨ (c = 2 * p + 1 ∧ s = 2 * p) := by
    rcases hcSide with h | h
    · exact ⟨2 * p + 1, Or.inl ⟨h, rfl⟩⟩
    · exact ⟨2 * p, Or.inr ⟨h, rfl⟩⟩
  -- w is not parked inside any child subtree of p
  have hwNotInsideChild : ∀ d, (d = 2 * p ∨ d = 2 * p + 1) →
      ¬insideP k t d w := by
    intro d hd hins
    obtain ⟨jp, h1, h2, h3, h4⟩ := hins
    have hjp_ne : jp ≠ p := by
      intro he
      exact not_isUnder_child_self hp hd (he ▸ h3)
    exact (hdist.2 jp p h1 h2 hp hpk hjp_ne) (by rw [h4, hw])
  -- w lies under the sibling s
  have hwS : isUnder s (w + k) := by
    have hsplit := isUnder_child hwU (by omega)
    have hnc : ¬isUnder c (w + k) := by
      intro hwc
      exact hwcur (hcUniq w hwk hwc (hwNotInsideChild c hcSide))
    rcases hcs with ⟨hc, hs⟩ | ⟨hc, hs⟩ <;> rw [hs] <;> rw [hc] at hnc <;>
      rcases hsplit with h | h <;> first | exact h | exact absurd h hnc
  have hsSide : s = 2 * p ∨ s = 2 * p + 1 := by
    rcases hcs with ⟨_, hs⟩ | ⟨_, hs⟩
    · exact Or.inr hs
    · exact Or.inl hs
  -- champion properties of w on the sibling side
  have hsMin : ∀ i, i < k → isUnder s (i + k) →
      lexLE (L.getD w SENTINEL) (L.getD i SENTINEL) := by
    intro i hi hiu
    by_cases hsk : k ≤ s
    · have he1 := isUnder_ext k hsk (by omega) hiu
      have he2 := isUnder_ext k hsk (by omega) hwS
      have : i = w := by omega
      rw [this]
      exact lexLE_refl _
    · have hsp : ¬isUnder s p := not_isUnder_child_self hp hsSide
      have hcl := hclean s (by omega) (by omega) hsp
      rcases hcl.1 w hwk hwS with hins | hmin
      · exact absurd hins (hwNotInsideChild s hsSide)
      · exact hmin i hi hiu
  have hsUniq : ∀ i, i < k → isUnder s (i + k) → ¬insideP k t s i →
      i = w := by
    intro i hi hiu hnis
    by_cases hsk : k ≤ s
    · have he1 := isUnder_ext k hsk (by omega) hiu
      have he2 := isUnder_ext k hsk (by omega) hwS
      omega
    · have hsp : ¬isUnder s p := not_isUnder_child_self hp hsSide
      have hcl := hclean s (by omega) (by omega) hsp
      exact hcl.2 i w hi hwk hiu hwS hnis (hwNotInsideChild s hsSide)
  exact ⟨c, s, hcs, hcU, hwS, hwk, hwcur, hcMin, hcUniq, hsMin, hsUniq⟩

/-- One iteration of the `replay` loop preserves the invariant: after
playing at node `p`, the new carried winner is the champion of the whole
subtree of `p`, every node that is not an ancestor of `p / 2` satisfies
the subtree clauses, and the parked entries together with the carried
winner still enumerate all leaves. -/
theorem replayStep (k : Nat) (L : List RunNode) (p cur w : Nat)
    (t t2 : List Nat) (cur2 : Nat) (hp : 1 ≤ p) (hpk : p < k)
    (hE : REntry k L p cur t) (hw : t.getD p 0 = w)
    (hbr : (isLoser (L.getD cur SENTINEL) (L.getD w SENTINEL) = true ∧
        t2 = t.set p cur ∧ cur2 = w) ∨
      (isLoser (L.getD cur SENTINEL) (L.getD w SENTINEL) = false ∧
        t2 = t ∧ cur2 = cur)) :
    t2.length = k ∧ cur2 < k ∧
    (cur2 :: (fullEntries k t2).tail).Perm (List.range k) ∧
    (∀ j, 1 ≤ j → j < k → t2.getD j 0 < k ∧
      isUnder j (t2.getD j 0 + k)) ∧
    (∀ j, 1 ≤ j → j < k → ¬isUnder j (p / 2) →
      ((∀ i, i < k → isUnder j (i + k) → insideP k t2 j i ∨
          ∀ i2, i2 < k → isUnder j (i2 + k) →
            lexLE (L.getD i SENTINEL) (L.getD i2 SENTINEL)) ∧
       (∀ i i2, i < k → i2 < k → isUnder j (i + k) →
          isUnder j (i2 + k) → ¬insideP k t2 j i → ¬insideP k t2 j i2 →
          i = i2))) ∧
    isUnder p (cur2 + k) ∧
    (∀ i, i < k → isUnder p (i + k) →
      lexLE (L.getD cur2 SENTINEL) (L.getD i SENTINEL)) ∧
    (∀ i, i < k → isUnder p (i + k) → ¬insideP k t2 p i → i = cur2) := by
  obtain ⟨c, s, hcs, hcU, hwS, hwk, hwcur, hcMin, hcUniq, hsMin,
    hsUniq⟩ := siblingChamp k L p cur w t hp hpk hE hw
  obtain ⟨hlen, hcur, hcurU, hperm, hI1, hclean, hE3⟩ := hE
  have hcSide : c = 2 * p ∨ c = 2 * p + 1 := by
    rcases hcs with ⟨h, _⟩ | ⟨h, _⟩
    · exact Or.inl h
    · exact Or.inr h
  have hsSide : s = 2 * p ∨ s = 2 * p + 1 := by
    rcases hcs with ⟨_, h⟩ | ⟨_, h⟩
    · exact Or.inr h
    · exact Or.inl h
  have hpc : isUnder p c := by
    rcases hcSide with h | h
    · rw [h]
      exact isUnder_left_child p
    · rw [h]
      exact isUnder_right_child p
  have hpsU : isUnder p s := by
    rcases hsSide with h | h
    · rw [h]
      exact isUnder_left_child p
    · rw [h]
      exact isUnder_right_child p
  have hpart : ∀ i, i < k → isUnder p (i + k) →
      isUnder c (i + k) ∨ isUnder s (i + k) := by
    intro i hi h
    have hne : i + k ≠ p := by omega
    have hsplit := isUnder_child h hne
    rcases hcs with ⟨hc, hs⟩ | ⟨hc, hs⟩
    · rw [hc, hs]
      exact hsplit
    · rw [hc, hs]
      rcases hsplit with h2 | h2
      · exact Or.inr h2
      · exact Or.inl h2
  have hjp_of_clean : ∀ j, ¬isUnder j (p / 2) → isUnder j p → j = p := by
    intro j h1 h2
    rcases isUnder_cases h2 with he | hu
    · exact he.symm
    · exact absurd hu h1
  rcases hbr with ⟨hL, ht2, hc2⟩ | ⟨hL, ht2, hc2⟩
  · -- the carried winner loses: park it at p, carry away the old loser w
    rw [ht2, hc2]
    have hnle := (isLoser_eq_true_iff _ _).mp hL
    have hLle : lexLE (L.getD w SENTINEL) (L.getD cur SENTINEL) :=
      (lexLE_total _ _).resolve_left hnle
    have hlen2 : (t.set p cur).length = k := by
      rw [List.length_set]
      exact hlen
    have hinsP_cur : insideP k (t.set p cur) p cur :=
      ⟨p, hp, hpk, isUnder_refl p,
        getD_set_self t p cur 0 (by omega)⟩
    have hcIff : ∀ i, insideP k (t.set p cur) c i ↔ insideP k t c i :=
      fun i => insideP_set_ne (not_isUnder_child_self hp hcSide)
    have hsIff : ∀ i, insideP k (t.set p cur) s i ↔ insideP k t s i :=
      fun i => insideP_set_ne (not_isUnder_child_self hp hsSide)
    have hCin : ∀ i, i < k → isUnder c (i + k) →
        insideP k (t.set p cur) p i := by
      intro i hi hic
      by_cases hins : insideP k t c i
      · exact insideP_up ((hcIff i).mpr hins) hpc
      · have he : i = cur := hcUniq i hi hic hins
        rw [he]
        exact hinsP_cur
    have hwMin : ∀ i2, i2 < k → isUnder p (i2 + k) →
        lexLE (L.getD w SENTINEL) (L.getD i2 SENTINEL) := by
      intro i2 hi2 hu
      rcases hpart i2 hi2 hu with h | h
      · exact lexLE_trans hLle (hcMin i2 hi2 h)
      · exact hsMin i2 hi2 h
    have hkey : ∀ a, a < k → isUnder p (a + k) →
        ¬insideP k (t.set p cur) p a → a = w := by
      intro a ha hau hna
      rcases hpart a ha hau with h | h
      · exact absurd (hCin a ha h) hna
      · have hnis : ¬insideP k t s a := fun hins =>
          hna (insideP_up ((hsIff a).mpr hins) hpsU)
        exact hsUniq a ha h hnis
    refine ⟨hlen2, hwk, ?_, ?_, ?_, isUnder_trans hwS hpsU, hwMin, hkey⟩
    · -- the permutation clause
      have hfe : fullEntries k (t.set p cur)
          = (fullEntries k t).set p cur :=
        fullEntries_set k t p cur hlen hpk
      have htl : (fullEntries k (t.set p cur)).tail
          = ((fullEntries k t).tail).set (p - 1) cur := by
        rw [hfe, tail_set _ _ _ hp]
      have hget : ((fullEntries k t).tail).getD (p - 1) 0 = w := by
        rw [tail_fullEntries_getD t hp hpk, hw]
      have hlt : p - 1 < ((fullEntries k t).tail).length := by
        rw [List.length_tail, fullEntries_length]
        omega
      have hswap := perm_set_swap ((fullEntries k t).tail) (p - 1) hlt
        cur 0
      rw [hget] at hswap
      rw [htl]
      exact hswap.trans hperm
    · -- parked losers still point under their nodes
      intro j hj1 hj2
      by_cases hjp : j = p
      · rw [hjp, getD_set_self t p cur 0 (by omega)]
        exact ⟨hcur, hcurU⟩
      · rw [getD_set_ne t p j cur 0 (fun he => hjp he.symm)]
        exact hI1 j hj1 hj2
    · -- the subtree clauses at every node that is clean for p / 2
      intro j hj1 hj2 hjclean
      by_cases hjp : isUnder j p
      · have he := hjp_of_clean j hjclean hjp
        subst he
        constructor
        · intro i hi hu
          rcases hpart i hi hu with h | h
          · exact Or.inl (hCin i hi h)
          · by_cases hins : insideP k t s i
            · exact Or.inl (insideP_up ((hsIff i).mpr hins) hpsU)
            · have he2 : i = w := hsUniq i hi h hins
              right
              rw [he2]
              exact hwMin
        · intro i i2 hi hi2 hu hu2 hni hni2
          rw [hkey i hi hu hni, hkey i2 hi2 hu2 hni2]
      · have hIff : ∀ i, insideP k (t.set p cur) j i ↔ insideP k t j i :=
          fun i => insideP_set_ne hjp
        have hcl := hclean j hj1 hj2 hjp
        constructor
        · intro i hi hu
          rcases hcl.1 i hi hu with h | h
          · exact Or.inl ((hIff i).mpr h)
          · exact Or.inr h
        · intro i i2 hi hi2 hu hu2 hni hni2
          exact hcl.2 i i2 hi hi2 hu hu2
            (fun h => hni ((hIff i).mpr h))
            (fun h => hni2 ((hIff i2).mpr h))
  · -- the carried winner survives: nothing changes, it keeps rising
    rw [ht2, hc2]
    have hLle : lexLE (L.getD cur SENTINEL) (L.getD w SENTINEL) :=
      (isLoser_eq_false_iff _ _).mp hL
    have hcurMin : ∀ i2, i2 < k → isUnder p (i2 + k) →
        lexLE (L.getD cur SENTINEL) (L.getD i2 SENTINEL) := by
      intro i2 hi2 hu
      rcases hpart i2 hi2 hu with h | h
      · exact hcMin i2 hi2 h
      · exact lexLE_trans hLle (hsMin i2 hi2 h)
    have hinsP_w : insideP k t p w := ⟨p, hp, hpk, isUnder_refl p, hw⟩
    have hSin : ∀ i, i < k → isUnder s (i + k) → insideP k t p i := by
      intro i hi his
      by_cases hins : insideP k t s i
      · exact insideP_up hins hpsU
      · have he : i = w := hsUniq i hi his hins
        rw [he]
        exact hinsP_w
    have hkey : ∀ a, a < k → isUnder p (a + k) → ¬insideP k t p a →
        a = cur := by
      intro a ha hau hna
      rcases hpart a ha hau with h | h
      · have hnis : ¬insideP k t c a := fun hins =>
          hna (insideP_up hins hpc)
        exact hcUniq a ha h hnis
      · exact absurd (hSin a ha h) hna
    refine ⟨hlen, hcur, hperm, hI1, ?_, isUnder_trans hcU hpc,
      hcurMin, hkey⟩
    intro j hj1 hj2 hjclean
    by_cases hjp : isUnder j p
    · have he := hjp_of_clean j hjclean hjp
      subst he
      constructor
      · intro i hi hu
        rcases hpart i hi hu with h | h
        · by_cases hins : insideP k t c i
          · exact Or.inl (insideP_up hins hpc)
          · have he2 : i = cur := hcUniq i hi h hins
            right
            rw [he2]
            exact hcurMin
        · exact Or.inl (hSin i hi h)
      · intro i i2 hi hi2 hu hu2 hni hni2
        rw [hkey i hi hu hni, hkey i2 hi2 hu2 hni2]
    · exact hclean j hj1 hj2 hjp

theorem replayGo_zero (fuel cur : Nat) (t : List Nat)
    (L : List RunNode) : replayGo fuel 0 cur t L = (t, cur) := by
  cases fuel <;> simp [replayGo]

theorem fullEntries_head_tail (k : Nat) (t : List Nat) (hk : 1 ≤ k) :
    fullEntries k t = t.getD 0 0 :: (fullEntries k t).tail := by
  rw [fullEntries_tail_eq k t hk]
  unfold fullEntries
  rw [show k = (k - 1) + 1 by omega, List.range_succ_eq_map]
  rw [List.map_cons, List.map_map]
  rfl

theorem insideP_set_zero {k v j i : Nat} {t : List Nat} :
    insideP k (t.set 0 v) j i ↔ insideP k t j i := by
  constructor <;> rintro ⟨jp, h1, h2, h3, h4⟩ <;>
    refine ⟨jp, h1, h2, h3, ?_⟩
  · rw [getD_set_ne t 0 jp v 0 (by omega)] at h4
    exact h4
  · rw [getD_set_ne t 0 jp v 0 (by omega)]
    exact h4

/-- The `replay` loop: starting anywhere on the walk with the loop
invariant, running until the root yields the exit invariant. -/
theorem replayGo_spec (k : Nat) (L : List RunNode) :
    ∀ fuel p cur t, p < 2 ^ fuel → 1 ≤ p → p < k →
      REntry k L p cur t →
      RExit k L (replayGo fuel p cur t L).2
        (replayGo fuel p cur t L).1 := by
  intro fuel
  induction fuel with
  | zero =>
    intro p cur t hfuel hp hpk hE
    simp at hfuel
    omega
  | succ fuel ih =>
    intro p cur t hfuel hp hpk hE
    have hpow : 2 ^ (fuel + 1) = 2 ^ fuel * 2 := pow_succ 2 fuel
    have hred : replayGo (fuel + 1) p cur t L
        = if isLoser (L.getD cur SENTINEL)
            (L.getD (t.getD p 0) SENTINEL)
          then replayGo fuel (p / 2) (t.getD p 0) (t.set p cur) L
          else replayGo fuel (p / 2) cur t L := by
      simp only [replayGo]
      rw [if_pos (show 0 < p by omega)]
    cases hLb : isLoser (L.getD cur SENTINEL)
        (L.getD (t.getD p 0) SENTINEL) with
    | true =>
      obtain ⟨s1, s2, s3, s4, s5, s6, s7, s8⟩ :=
        replayStep k L p cur (t.getD p 0) t (t.set p cur) (t.getD p 0)
          hp hpk hE rfl (Or.inl ⟨hLb, rfl, rfl⟩)
      rw [hred, if_pos hLb]
      by_cases hp1 : p / 2 = 0
      · rw [hp1, replayGo_zero]
        refine ⟨s1, s2, s3, s4, ?_, ?_⟩
        · intro j hj1 hj2
          refine s5 j hj1 hj2 ?_
          rw [hp1]
          intro hu
          have := isUnder_zero hu
          omega
        · intro i hi
          refine s7 i hi ?_
          have hp_eq : p = 1 := by omega
          rw [hp_eq]
          exact isUnder_one (by omega)
      · refine ih (p / 2) (t.getD p 0) (t.set p cur) (by omega)
          (by omega) (by omega)
          ⟨s1, s2, isUnder_trans s6 (isUnder_half p), s3, s4, s5,
            ⟨p, by omega, s6, s7, s8⟩⟩
    | false =>
      obtain ⟨s1, s2, s3, s4, s5, s6, s7, s8⟩ :=
        replayStep k L p cur (t.getD p 0) t t cur hp hpk hE rfl
          (Or.inr ⟨hLb, rfl, rfl⟩)
      rw [hred, if_neg (by rw [hLb]; exact Bool.false_ne_true)]
      by_cases hp1 : p / 2 = 0
      · rw [hp1, replayGo_zero]
        refine ⟨s1, s2, s3, s4, ?_, ?_⟩
        · intro j hj1 hj2
          refine s5 j hj1 hj2 ?_
          rw [hp1]
          intro hu
          have := isUnder_zero hu
          omega
        · intro i hi
          refine s7 i hi ?_
          have hp_eq : p = 1 := by omega
          rw [hp_eq]
          exact isUnder_one (by omega)
      · refine ih (p / 2) cur t (by omega) (by omega) (by omega)
          ⟨s1, s2, isUnder_trans s6 (isUnder_half p), s3, s4, s5,
            ⟨p, by omega, s6, s7, s8⟩⟩

theorem replay_tree_def (k idx : Nat) (t : List Nat)
    (L2 : List RunNode) :
    (LoserTree.replay ⟨k, t, L2⟩ idx).tree
      = ((replayGo (k + 1) ((idx + k) / 2) idx t L2).1).set 0
          (replayGo (k + 1) ((idx + k) / 2) idx t L2).2 := rfl

theorem replay_k_eq (lt : LoserTree) (i : Nat) :
    (lt.replay i).k = lt.k := rfl

theorem replay_leaves_eq (lt : LoserTree) (i : Nat) :
    (lt.replay i).leaves = lt.leaves := rfl

/-- Replaying from the winner leaf after an arbitrary modification of
that leaf restores the full invariant. -/
theorem replay_preserves_INV (k idx : Nat) (t : List Nat)
    (L L2 : List RunNode) (hINV : INV k t L) (hidx : t.getD 0 0 = idx)
    (hL2 : L2.length = k + 1)
    (hsame : ∀ i, i < k → i ≠ idx →
      L2.getD i SENTINEL = L.getD i SENTINEL) :
    INV k ((LoserTree.replay ⟨k, t, L2⟩ idx).tree) L2 := by
  obtain ⟨hlen, hLlen, hI2, hperm, hI1, hI4, hI5⟩ := hINV
  have hk : 1 ≤ k := by omega
  have hidxk : idx < k := hidx ▸ hI2
  rw [replay_tree_def]
  by_cases hk1 : k = 1
  · -- a single leaf: the walk is empty and the winner is leaf 0
    subst hk1
    have hidx0 : idx = 0 := by omega
    rw [hidx0]
    rw [show (0 + 1) / 2 = 0 by norm_num, replayGo_zero]
    have hperm1 : fullEntries 1 (t.set 0 0) = [0] := by
      rw [fullEntries_head_tail 1 _ (by omega)]
      rw [fullEntries_tail_eq 1 _ (by omega)]
      rw [getD_set_self t 0 0 0 (by omega)]
      simp
    refine ⟨by simp [hlen], hL2, ?_, ?_, ?_, ?_, ?_⟩
    · rw [getD_set_self t 0 0 0 (by omega)]
      omega
    · rw [hperm1]
      rfl
    · intro j hj1 hj2
      omega
    · intro j hj1 hj2
      omega
    · intro j hj1 hj2
      omega
  · -- the real walk: set up the loop invariant at the first parent
    have hk2 : 2 ≤ k := by omega
    have hp0 : 1 ≤ (idx + k) / 2 := by omega
    have hp0k : (idx + k) / 2 < k := by omega
    have hfuel : (idx + k) / 2 < 2 ^ (k + 1) := by
      have h1 : k < 2 ^ k := Nat.lt_two_pow k
      have h2 : 2 ^ k < 2 ^ (k + 1) := by
        rw [pow_succ]
        omega
      omega
    have hpermE : (idx :: (fullEntries k t).tail).Perm (List.range k) := by
      rw [← hidx]
      rw [← fullEntries_head_tail k t hk]
      exact hperm
    have hcleanE : ∀ j, 1 ≤ j → j < k → ¬isUnder j ((idx + k) / 2) →
        ((∀ i, i < k → isUnder j (i + k) → insideP k t j i ∨
            ∀ i2, i2 < k → isUnder j (i2 + k) →
              lexLE (L2.getD i SENTINEL) (L2.getD i2 SENTINEL)) ∧
         (∀ i i2, i < k → i2 < k → isUnder j (i + k) →
            isUnder j (i2 + k) → ¬insideP k t j i → ¬insideP k t j i2 →
            i = i2)) := by
      intro j hj1 hj2 hclean
      have hnotidx : ∀ i, isUnder j (i + k) → i ≠ idx := by
        intro i hu he
        rw [he] at hu
        rcases isUnder_cases hu with heq | hu2
        · omega
        · exact hclean hu2
      constructor
      · intro i hi hu
        rcases hI4 j hj1 hj2 i hi hu with h | h
        · exact Or.inl h
        · right
          intro i2 hi2 hu2
          rw [hsame i hi (hnotidx i hu), hsame i2 hi2 (hnotidx i2 hu2)]
          exact h i2 hi2 hu2
      · intro i i2 hi hi2 hu hu2 hni hni2
        exact hI5 j hj1 hj2 i i2 hi hi2 hu hu2 hni hni2
    have hE : REntry k L2 ((idx + k) / 2) idx t := by
      refine ⟨hlen, hidxk, isUnder_half (idx + k), hpermE, hI1, hcleanE,
        ⟨idx + k, by omega, isUnder_refl _, ?_, ?_⟩⟩
      · intro i hi hu
        have he := isUnder_ext k (by omega) (by omega) hu
        have : i = idx := by omega
        rw [this]
        exact lexLE_refl _
      · intro i hi hu _
        have he := isUnder_ext k (by omega) (by omega) hu
        omega
    obtain ⟨x1, x2, x3, x4, x5, x6⟩ :=
      replayGo_spec k L2 (k + 1) ((idx + k) / 2) idx t hfuel hp0 hp0k hE
    -- assemble the invariant for the final array
    have hlenR : (replayGo (k + 1) ((idx + k) / 2) idx t L2).1.length
        = k := x1
    refine ⟨by simp [hlenR], hL2, ?_, ?_, ?_, ?_, ?_⟩
    · rw [getD_set_self _ 0 _ 0 (by omega)]
      exact x2
    · rw [fullEntries_set k _ 0 _ hlenR (by omega)]
      rw [fullEntries_head_tail k _ (by omega)]
      rw [List.set_cons_zero]
      exact x3
    · intro j hj1 hj2
      rw [getD_set_ne _ 0 j _ 0 (by omega)]
      exact x4 j hj1 hj2
    · intro j hj1 hj2 i hi hu
      rcases (x5 j hj1 hj2).1 i hi hu with h | h
      · exact Or.inl (insideP_set_zero.mpr h)
      · exact Or.inr h
    · intro j hj1 hj2 i i2 hi hi2 hu hu2 hni hni2
      exact (x5 j hj1 hj2).2 i i2 hi hi2 hu hu2
        (fun h => hni (insideP_set_zero.mpr h))
        (fun h => hni2 (insideP_set_zero.mpr h))

/-- Under the invariant the stored winner index points to a leaf whose
node is a lexicographic minimum of all `k` real leaves. -/
theorem INV_winner_min (k : Nat) (t : List Nat) (L : List RunNode)
    (hINV : INV k t L) :
    ∀ i, i < k → lexLE (L.getD (t.getD 0 0) SENTINEL)
      (L.getD i SENTINEL) := by
  obtain ⟨hlen, hLlen, hI2, hperm, hI1, hI4, hI5⟩ := hINV
  intro i hi
  have hk : 1 ≤ k := by omega
  by_cases hk1 : k = 1
  · subst hk1
    have h0 : i = 0 := by omega
    have ht0 : t.getD 0 0 = 0 := by omega
    rw [h0, ht0]
    exact lexLE_refl _
  · have hk2 : 2 ≤ k := by omega
    have hpermE : (t.getD 0 0 :: (fullEntries k t).tail).Perm
        (List.range k) := by
      rw [← fullEntries_head_tail k t hk]
      exact hperm
    have hdist := entriesDistinct hpermE
    have hnins : ¬insideP k t 1 (t.getD 0 0) := by
      rintro ⟨jp, h1, h2, h3, h4⟩
      exact (hdist.1 jp h1 h2) h4.symm
    rcases hI4 1 (by omega) (by omega) (t.getD 0 0) hI2
        (isUnder_one (by omega)) with h | h
    · exact absurd h hnins
    · exact h i hi (isUnder_one (by omega))

/-! ### Helpers for the tournament build -/

theorem fullEntries_getD {k j : Nat} (t : List Nat) (hj : j < k) :
    (fullEntries k t).getD j 0 = t.getD j 0 := by
  have hlt : j < (fullEntries k t).length := by
    rw [fullEntries_length]
    exact hj
  rw [getD_eq_getElem _ _ hlt, fullEntries_getElem]

theorem mem_fullEntries_filter {k j : Nat} (t : List Nat) (hj : j < k)
    (hne : t.getD j 0 ≠ k) :
    t.getD j 0 ∈ (fullEntries k t).filter (fun x => x ≠ k) := by
  refine List.mem_filter.mpr ⟨?_, by simpa using hne⟩
  have hlt : j < (fullEntries k t).length := by
    rw [fullEntries_length]
    exact hj
  have he : (fullEntries k t)[j] = t.getD j 0 := fullEntries_getElem _ _ _ hlt
  exact he ▸ List.getElem_mem hlt

theorem buildGo_root (fuel k cur : Nat) (t : List Nat)
    (L : List RunNode) (hf : 1 ≤ fuel) :
    buildGo fuel k cur 0 t L = t.set 0 cur := by
  cases fuel with
  | zero => omega
  | succ m => simp [buildGo]

theorem filter_set_from_k (k : Nat) :
    ∀ (es : List Nat) (p : Nat), p < es.length → ∀ v : Nat, v ≠ k →
      es.getD p 0 = k →
      Multiset.ofList ((es.set p v).filter (fun x => x ≠ k))
        = v ::ₘ Multiset.ofList (es.filter (fun x => x ≠ k)) := by
  intro es
  induction es with
  | nil =>
    intro p hp
    simp at hp
  | cons a tl ih =>
    intro p hp v hv hk
    cases p with
    | zero =>
      have ha : a = k := hk
      rw [List.set_cons_zero]
      rw [List.filter_cons, List.filter_cons]
      rw [if_pos (by simp [hv]), if_neg (by simp [ha])]
      rfl
    | succ m =>
      have hm : m < tl.length := by
        simp at hp
        omega
      have hrec := ih m hm v hv hk
      rw [List.set_cons_succ]
      rw [List.filter_cons, List.filter_cons]
      by_cases hak : a = k
      · rw [if_neg (by simp [hak]), if_neg (by simp [hak])]
        exact hrec
      · rw [if_pos (by simp [hak]), if_pos (by simp [hak])]
        have : Multiset.ofList (a :: (tl.set m v).filter (fun x => x ≠ k))
            = a ::ₘ Multiset.ofList ((tl.set m v).filter (fun x => x ≠ k)) :=
          rfl
        rw [this, hrec]
        have h2 : Multiset.ofList (a :: tl.filter (fun x => x ≠ k))
            = a ::ₘ Multiset.ofList (tl.filter (fun x => x ≠ k)) := rfl
        rw [h2]
        exact Multiset.cons_swap a v _

theorem filter_set_swap (k : Nat) :
    ∀ (es : List Nat) (p : Nat), p < es.length → ∀ v w : Nat, v ≠ k →
      es.getD p 0 = w → w ≠ k →
      w ::ₘ Multiset.ofList ((es.set p v).filter (fun x => x ≠ k))
        = v ::ₘ Multiset.ofList (es.filter (fun x => x ≠ k)) := by
  intro es
  induction es with
  | nil =>
    intro p hp
    simp at hp
  | cons a tl ih =>
    intro p hp v w hv hw hwk
    cases p with
    | zero =>
      have ha : a = w := hw
      rw [List.set_cons_zero]
      rw [List.filter_cons, List.filter_cons]
      rw [if_pos (by simp [hv]), if_pos (by simpa [ha] using hwk)]
      rw [ha]
      simp only [← Multiset.cons_coe]
      exact Multiset.cons_swap w v _
    | succ m =>
      have hm : m < tl.length := by
        simp at hp
        omega
      have hrec := ih m hm v w hv hw hwk
      rw [List.set_cons_succ]
      rw [List.filter_cons, List.filter_cons]
      by_cases hak : a = k
      · rw [if_neg (by simp [hak]), if_neg (by simp [hak])]
        exact hrec
      · rw [if_pos (by simp [hak]), if_pos (by simp [hak])]
        simp only [← Multiset.cons_coe]
        rw [Multiset.cons_swap w a, Multiset.cons_swap v a]
        rw [hrec]

theorem count_filter_ne (k : Nat) (l : List Nat) (v : Nat) (hv : v ≠ k) :
    (l.filter (fun x => x ≠ k)).count v = l.count v := by
  induction l with
  | nil => rfl
  | cons a tl ih =>
    rw [List.filter_cons]
    by_cases hak : a = k
    · rw [if_neg (by simp [hak])]
      rw [ih, List.count_cons]
      have hav : ¬(a = v) := by omega
      simp [hav]
    · rw [if_pos (by simp [hak])]
      rw [List.count_cons, List.count_cons, ih]

/-- Distinctness facts from the build multiset clause: the carried
winner is parked nowhere, parked values are pairwise distinct, and all
of them are processed leaves. -/
theorem buildDistinct {k lf cur : Nat} {t : List Nat}
    (hmul : cur ::ₘ Multiset.ofList
        ((fullEntries k t).filter (fun x => x ≠ k))
      = Multiset.ofList (List.range' lf (k - lf))) :
    (∀ j, j < k → t.getD j 0 ≠ k → cur ≠ t.getD j 0) ∧
    (∀ j1 j2, j1 < k → j2 < k → j1 ≠ j2 → t.getD j1 0 ≠ k →
      t.getD j1 0 ≠ t.getD j2 0) ∧
    (∀ j, j < k → t.getD j 0 ≠ k →
      lf ≤ t.getD j 0 ∧ t.getD j 0 < k) := by
  have hcoe : (cur :: ((fullEntries k t).filter (fun x => x ≠ k))
      : Multiset Nat) = Multiset.ofList (List.range' lf (k - lf)) := by
    rw [Multiset.cons_coe] at hmul
    exact hmul
  have hpermL : (cur :: (fullEntries k t).filter (fun x => x ≠ k)).Perm
      (List.range' lf (k - lf)) := Multiset.coe_eq_coe.mp hcoe
  have hnd : (cur :: (fullEntries k t).filter (fun x => x ≠ k)).Nodup :=
    hpermL.symm.nodup (List.nodup_range' _ _)
  rw [List.nodup_cons] at hnd
  obtain ⟨hcur, hfil⟩ := hnd
  refine ⟨?_, ?_, ?_⟩
  · intro j hj hne he
    exact hcur (he ▸ mem_fullEntries_filter t hj hne)
  · intro j1 j2 h1 h2 hne hk1 he
    rcases Nat.lt_or_ge j1 j2 with hlt | hge
    · have hc := count_ge_two_of_getD hlt
        (by rw [fullEntries_length]; exact h2) (t.getD j1 0)
        (fullEntries_getD t h1) (by rw [fullEntries_getD t h2, he])
      have hcf : ((fullEntries k t).filter
          (fun x => x ≠ k)).count (t.getD j1 0)
          = (fullEntries k t).count (t.getD j1 0) :=
        count_filter_ne k _ _ hk1
      have hle := List.nodup_iff_count_le_one.mp hfil (t.getD j1 0)
      omega
    · have hlt : j2 < j1 := by omega
      have hc := count_ge_two_of_getD hlt
        (by rw [fullEntries_length]; exact h1) (t.getD j1 0)
        (by rw [fullEntries_getD t h2, he]) (fullEntries_getD t h1)
      have hcf : ((fullEntries k t).filter
          (fun x => x ≠ k)).count (t.getD j1 0)
          = (fullEntries k t).count (t.getD j1 0) :=
        count_filter_ne k _ _ hk1
      have hle := List.nodup_iff_count_le_one.mp hfil (t.getD j1 0)
      omega
  · intro j hj hne
    have hmem : t.getD j 0 ∈ cur :: (fullEntries k t).filter
        (fun x => x ≠ k) :=
      List.mem_cons_of_mem _ (mem_fullEntries_filter t hj hne)
    have := hpermL.subset hmem
    rw [List.mem_range'] at this
    omega

/-- Analysis of a play during the build walk: the stored entry
`w = t[p]` is a processed leaf, lies under the sibling of the path
child, and is the champion of that sibling's processed leaves. -/
theorem buildSibling (k : Nat) (L : List RunNode) (lf p cur : Nat)
    (t : List Nat) (hlf : lf < k) (hE : BEntry k L lf p cur t)
    (hother : t.getD p 0 ≠ k) :
    ∃ c s, ((c = 2 * p ∧ s = 2 * p + 1) ∨ (c = 2 * p + 1 ∧ s = 2 * p))
      ∧ isUnder c (cur + k) ∧ isUnder c (lf + k)
      ∧ isUnder s (t.getD p 0 + k)
      ∧ t.getD p 0 < k ∧ lf + 1 ≤ t.getD p 0 ∧ t.getD p 0 ≠ cur
      ∧ ¬isUnder s (lf + k)
      ∧ (passN k lf (2 * p) + passN k lf (2 * p + 1)
          = passN k (lf + 1) (2 * p) + passN k (lf + 1) (2 * p + 1) + 1)
      ∧ (passN k (lf + 1) (2 * p) + passN k (lf + 1) (2 * p + 1) ≠ 0)
      ∧ (∀ i1, lf ≤ i1 → i1 < k → isUnder c (i1 + k) →
          lexLE (L.getD cur SENTINEL) (L.getD i1 SENTINEL))
      ∧ (∀ i1, lf ≤ i1 → i1 < k → isUnder c (i1 + k) →
          ¬insideP k t c i1 → i1 = cur)
      ∧ (∀ i1, lf ≤ i1 → i1 < k → isUnder s (i1 + k) →
          lexLE (L.getD (t.getD p 0) SENTINEL) (L.getD i1 SENTINEL))
      ∧ (∀ i1, lf ≤ i1 → i1 < k → isUnder s (i1 + k) →
          ¬insideP k t s i1 → i1 = t.getD p 0) := by
  obtain ⟨hlen, hcur, hlfcur, hp, hpk, hcurU, hlfU, hmul, hb1, hb1r,
    hb5c, hb5d, hb5r, hb7, hb8, hb9, hb4c, c, hcSide, hcCur, hcLf,
    hcPass, hcMin, hcUniq⟩ := hE
  have hdist := buildDistinct hmul
  have hw := hb1 p hp hpk
  rcases hw with hw | hw
  · exact absurd hw hother
  obtain ⟨hwk, hwU⟩ := hw
  have hw7 := hb7 p hp hpk (isUnder_refl p)
  have hwlf : lf + 1 ≤ t.getD p 0 := by
    rcases hw7 with h | h
    · exact absurd h hother
    · exact h
  have hwcur : t.getD p 0 ≠ cur := fun he =>
    (hdist.1 p hpk hother) he.symm
  obtain ⟨s, hcs⟩ : ∃ s, (c = 2 * p ∧ s = 2 * p + 1)
      ∨ (c = 2 * p + 1 ∧ s = 2 * p) := by
    rcases hcSide with h | h
    · exact ⟨2 * p + 1, Or.inl ⟨h, rfl⟩⟩
    · exact ⟨2 * p, Or.inr ⟨h, rfl⟩⟩
  have hsSide : s = 2 * p ∨ s = 2 * p + 1 := by
    rcases hcs with ⟨_, h⟩ | ⟨_, h⟩
    · exact Or.inr h
    · exact Or.inl h
  have hsLf : ¬isUnder s (lf + k) := by
    intro hcontra
    have hboth : isUnder (2 * p) (lf + k) ∧
        isUnder (2 * p + 1) (lf + k) := by
      rcases hcs with ⟨hc, hs⟩ | ⟨hc, hs⟩
      · exact ⟨hc ▸ hcLf, hs ▸ hcontra⟩
      · exact ⟨hs ▸ hcontra, hc ▸ hcLf⟩
    exact isUnder_children_exclusive (by omega) hboth
  have hwNotInsideChild : ∀ d, (d = 2 * p ∨ d = 2 * p + 1) →
      ¬insideP k t d (t.getD p 0) := by
    intro d hd hins
    obtain ⟨jp, h1, h2, h3, h4⟩ := hins
    have hjp_ne : jp ≠ p := by
      intro he
      exact not_isUnder_child_self hp hd (he ▸ h3)
    have hjpk : t.getD jp 0 ≠ k := by
      rw [h4]
      exact hother
    exact (hdist.2.1 jp p h2 hpk hjp_ne hjpk) (by rw [h4])
  have hwS : isUnder s (t.getD p 0 + k) := by
    have hsplit := isUnder_child hwU (by omega)
    have hnc : ¬isUnder c (t.getD p 0 + k) := by
      intro hwc
      exact hwcur (hcUniq (t.getD p 0) (by omega) hwk hwc
        (hwNotInsideChild c hcSide))
    rcases hcs with ⟨hc, hs⟩ | ⟨hc, hs⟩ <;> rw [hs] <;> rw [hc] at hnc <;>
      rcases hsplit with h | h <;> first | exact h | exact absurd h hnc
  have hsStable : passN k lf s = passN k (lf + 1) s := passN_stable hsLf
  have hcsumOld : passN k (lf + 1) (2 * p) + passN k (lf + 1) (2 * p + 1)
      ≠ 0 := by
    intro h0
    exact hother ((hb5d p hp hpk (isUnder_refl p)).mpr h0)
  have hsum : passN k lf (2 * p) + passN k lf (2 * p + 1)
      = passN k (lf + 1) (2 * p) + passN k (lf + 1) (2 * p + 1) + 1 := by
    rcases hcs with ⟨hc, hs⟩ | ⟨hc, hs⟩
    · rw [← hs, ← hc, hcPass, hsStable]
      omega
    · rw [← hc, ← hs, hcPass, hsStable]
      omega
  have hsMin : ∀ i1, lf ≤ i1 → i1 < k → isUnder s (i1 + k) →
      lexLE (L.getD (t.getD p 0) SENTINEL) (L.getD i1 SENTINEL) := by
    intro i1 h1 h2 hu
    by_cases hsk : k ≤ s
    · have he1 := isUnder_ext k hsk (by omega) hu
      have he2 := isUnder_ext k hsk (by omega) hwS
      have : i1 = t.getD p 0 := by omega
      rw [this]
      exact lexLE_refl _
    · have hsp : ¬isUnder s p := not_isUnder_child_self hp hsSide
      have hcl := hb4c s (by omega) (by omega) hsp
      rcases hcl.1 (t.getD p 0) (by omega) hwk hwS with hins | hmin
      · exact absurd hins (hwNotInsideChild s hsSide)
      · exact hmin i1 h1 h2 hu
  have hsUniq : ∀ i1, lf ≤ i1 → i1 < k → isUnder s (i1 + k) →
      ¬insideP k t s i1 → i1 = t.getD p 0 := by
    intro i1 h1 h2 hu hnis
    by_cases hsk : k ≤ s
    · have he1 := isUnder_ext k hsk (by omega) hu
      have he2 := isUnder_ext k hsk (by omega) hwS
      omega
    · have hsp : ¬isUnder s p := not_isUnder_child_self hp hsSide
      have hcl := hb4c s (by omega) (by omega) hsp
      exact hcl.2.1 i1 (t.getD p 0) h1 h2 (by omega) hwk hu hwS hnis
        (hwNotInsideChild s hsSide)
  exact ⟨c, s, hcs, hcCur, hcLf, hwS, hwk, hwlf, hwcur, hsLf, hsum,
    hcsumOld, hcMin, hcUniq, hsMin, hsUniq⟩

/-- One play during the build walk (the occupied-node case): after the
match at `p`, the walk invariant data is re-established one level up. -/
theorem buildStep (k : Nat) (L : List RunNode) (lf p cur : Nat)
    (t t2 : List Nat) (cur2 : Nat) (hlf : lf < k)
    (hE : BEntry k L lf p cur t) (hother : t.getD p 0 ≠ k)
    (hbr : (isLoser (L.getD cur SENTINEL)
          (L.getD (t.getD p 0) SENTINEL) = true ∧
        t2 = t.set p cur ∧ cur2 = t.getD p 0) ∨
      (isLoser (L.getD cur SENTINEL)
          (L.getD (t.getD p 0) SENTINEL) = false ∧
        t2 = t ∧ cur2 = cur)) :
    t2.length = k ∧ cur2 < k ∧ lf ≤ cur2 ∧ isUnder p (cur2 + k) ∧
    (cur2 ::ₘ Multiset.ofList
        ((fullEntries k t2).filter (fun x => x ≠ k))
      = Multiset.ofList (List.range' lf (k - lf))) ∧
    (∀ j, 1 ≤ j → j < k → t2.getD j 0 = k ∨
      (t2.getD j 0 < k ∧ isUnder j (t2.getD j 0 + k))) ∧
    (t2.getD 0 0 = k ∨ t2.getD 0 0 < k) ∧
    (∀ j, 1 ≤ j → j < k → ¬isUnder j (p / 2) →
      (t2.getD j 0 = k ↔
        passN k lf (2 * j) + passN k lf (2 * j + 1) = 0)) ∧
    (∀ j, 1 ≤ j → j < k → isUnder j (p / 2) →
      (t2.getD j 0 = k ↔
        passN k (lf + 1) (2 * j) + passN k (lf + 1) (2 * j + 1) = 0)) ∧
    (t2.getD 0 0 = k ↔ passN k (lf + 1) 1 = 0) ∧
    (∀ j, 1 ≤ j → j < k → isUnder j (p / 2) →
      (t2.getD j 0 = k ∨ lf + 1 ≤ t2.getD j 0)) ∧
    (cur2 = lf ∨ ∃ v, 1 ≤ v ∧ v < k ∧ isUnder (p / 2) v ∧ v ≠ p / 2 ∧
      t2.getD v 0 = lf) ∧
    (∀ j, 1 ≤ j → j < k → isUnder j (p / 2) → passN k (lf + 1) j = 0 →
      ∀ i1, lf + 1 ≤ i1 → i1 < k → isUnder j (i1 + k) →
        insideP k t2 j i1 ∨ i1 = cur2) ∧
    (∀ j, 1 ≤ j → j < k → ¬isUnder j (p / 2) →
      ((∀ i1, lf ≤ i1 → i1 < k → isUnder j (i1 + k) →
          insideP k t2 j i1 ∨
          ∀ i2, lf ≤ i2 → i2 < k → isUnder j (i2 + k) →
            lexLE (L.getD i1 SENTINEL) (L.getD i2 SENTINEL)) ∧
       (∀ i1 i2, lf ≤ i1 → i1 < k → lf ≤ i2 → i2 < k →
          isUnder j (i1 + k) → isUnder j (i2 + k) →
          ¬insideP k t2 j i1 → ¬insideP k t2 j i2 → i1 = i2) ∧
       (passN k lf j = 0 → ∀ i1, lf ≤ i1 → i1 < k →
          isUnder j (i1 + k) → insideP k t2 j i1))) ∧
    (isUnder p (lf + k) ∧
     passN k lf p = passN k (lf + 1) p + 1 ∧
     (∀ i1, lf ≤ i1 → i1 < k → isUnder p (i1 + k) →
        lexLE (L.getD cur2 SENTINEL) (L.getD i1 SENTINEL)) ∧
     (∀ i1, lf ≤ i1 → i1 < k → isUnder p (i1 + k) →
        ¬insideP k t2 p i1 → i1 = cur2)) := by
  obtain ⟨c, s, hcs, hcCur, hcLf, hwS, hwk, hwlf, hwcur, hsLf, hsum,
    hcsumOld, hcMin, hcUniq, hsMin, hsUniq⟩ :=
    buildSibling k L lf p cur t hlf hE hother
  obtain ⟨hlen, hcur, hlfcur, hp, hpk, hcurU, hlfU, hmul, hb1, hb1r,
    hb5c, hb5d, hb5r, hb7, hb8, hb9, hb4c, hbe6⟩ := hE
  clear hbe6
  have hcSide : c = 2 * p ∨ c = 2 * p + 1 := by
    rcases hcs with ⟨h, _⟩ | ⟨h, _⟩
    · exact Or.inl h
    · exact Or.inr h
  have hsSide : s = 2 * p ∨ s = 2 * p + 1 := by
    rcases hcs with ⟨_, h⟩ | ⟨_, h⟩
    · exact Or.inr h
    · exact Or.inl h
  have hpc : isUnder p c := by
    rcases hcSide with h | h
    · rw [h]
      exact isUnder_left_child p
    · rw [h]
      exact isUnder_right_child p
  have hpsU : isUnder p s := by
    rcases hsSide with h | h
    · rw [h]
      exact isUnder_left_child p
    · rw [h]
      exact isUnder_right_child p
  have hpart : ∀ i, i < k → isUnder p (i + k) →
      isUnder c (i + k) ∨ isUnder s (i + k) := by
    intro i hi h
    have hne : i + k ≠ p := by omega
    have hsplit := isUnder_child h hne
    rcases hcs with ⟨hc, hs⟩ | ⟨hc, hs⟩
    · rw [hc, hs]
      exact hsplit
    · rw [hc, hs]
      rcases hsplit with h2 | h2
      · exact Or.inr h2
      · exact Or.inl h2
  have hjp_of_clean : ∀ j, ¬isUnder j (p / 2) → isUnder j p → j = p := by
    intro j h1 h2
    rcases isUnder_cases h2 with he | hu
    · exact he.symm
    · exact absurd hu h1
  have hup_dirty : ∀ j, isUnder j (p / 2) → isUnder j p ∧ j ≠ p := by
    intro j hj
    have h1 : isUnder j p := isUnder_up hj
    have h2 := isUnder_le hj
    have h3 : p / 2 < p := by omega
    exact ⟨h1, by omega⟩
  have hge1old : 1 ≤ passN k (lf + 1) (2 * p)
      + passN k (lf + 1) (2 * p + 1) :=
    Nat.one_le_iff_ne_zero.mpr hcsumOld
  have hge1new : 1 ≤ passN k lf (2 * p) + passN k lf (2 * p + 1) := by
    rw [hsum]
    exact Nat.le_add_left 1 _
  have hpassInc : passN k lf p = passN k (lf + 1) p + 1 := by
    rw [passN_int lf hp hpk, passN_int (lf + 1) hp hpk,
      Nat.max_eq_left hge1old, Nat.max_eq_left hge1new, hsum]
    rw [Nat.add_sub_cancel]
    exact (Nat.succ_pred_eq_of_pos hge1old).symm
  rcases hbr with ⟨hL, ht2, hc2⟩ | ⟨hL, ht2, hc2⟩
  · -- the carried winner loses the play: park it, carry away t[p]
    rw [ht2, hc2]
    have hnle := (isLoser_eq_true_iff _ _).mp hL
    have hLle : lexLE (L.getD (t.getD p 0) SENTINEL)
        (L.getD cur SENTINEL) := (lexLE_total _ _).resolve_left hnle
    have hlen2 : (t.set p cur).length = k := by
      rw [List.length_set]
      exact hlen
    have hsetp : (t.set p cur).getD p 0 = cur :=
      getD_set_self t p cur 0 (by omega)
    have hinsP_cur : insideP k (t.set p cur) p cur :=
      ⟨p, hp, hpk, isUnder_refl p, hsetp⟩
    have hcIff : ∀ i, insideP k (t.set p cur) c i ↔ insideP k t c i :=
      fun i => insideP_set_ne (not_isUnder_child_self hp hcSide)
    have hsIff : ∀ i, insideP k (t.set p cur) s i ↔ insideP k t s i :=
      fun i => insideP_set_ne (not_isUnder_child_self hp hsSide)
    have hCin : ∀ i, lf ≤ i → i < k → isUnder c (i + k) →
        insideP k (t.set p cur) p i := by
      intro i h0 hi hic
      by_cases hins : insideP k t c i
      · exact insideP_up ((hcIff i).mpr hins) hpc
      · have he : i = cur := hcUniq i h0 hi hic hins
        rw [he]
        exact hinsP_cur
    have hwMinP : ∀ i2, lf ≤ i2 → i2 < k → isUnder p (i2 + k) →
        lexLE (L.getD (t.getD p 0) SENTINEL) (L.getD i2 SENTINEL) := by
      intro i2 h0 hi2 hu
      rcases hpart i2 hi2 hu with h | h
      · exact lexLE_trans hLle (hcMin i2 h0 hi2 h)
      · exact hsMin i2 h0 hi2 h
    have hkey : ∀ a, lf ≤ a → a < k → isUnder p (a + k) →
        ¬insideP k (t.set p cur) p a → a = t.getD p 0 := by
      intro a h0 ha hau hna
      rcases hpart a ha hau with h | h
      · exact absurd (hCin a h0 ha h) hna
      · have hnis : ¬insideP k t s a := fun hins =>
          hna (insideP_up ((hsIff a).mpr hins) hpsU)
        exact hsUniq a h0 ha h hnis
    refine ⟨hlen2, hwk, by omega, isUnder_trans hwS hpsU, ?_, ?_, ?_,
      ?_, ?_, ?_, ?_, ?_, ?_, ?_, ⟨hlfU, hpassInc, hwMinP, hkey⟩⟩
    · -- multiset clause
      rw [fullEntries_set k t p cur hlen hpk]
      rw [filter_set_swap k (fullEntries k t) p
        (by rw [fullEntries_length]; exact hpk) cur (t.getD p 0)
        (by omega) (fullEntries_getD t hpk) hother]
      exact hmul
    · -- b1
      intro j hj1 hj2
      by_cases hjp : j = p
      · rw [hjp, hsetp]
        exact Or.inr ⟨hcur, hcurU⟩
      · rw [getD_set_ne t p j cur 0 (fun he => hjp he.symm)]
        exact hb1 j hj1 hj2
    · -- b1r
      rw [getD_set_ne t p 0 cur 0 (by omega)]
      exact hb1r
    · -- emptiness at nodes clean for p / 2
      intro j hj1 hj2 hjclean
      by_cases hjp : isUnder j p
      · have he := hjp_of_clean j hjclean hjp
        rw [he, hsetp]
        constructor
        · intro hc
          omega
        · intro h0
          omega
      · rw [getD_set_ne t p j cur 0
          (fun he => hjp (he ▸ isUnder_refl p))]
        exact hb5c j hj1 hj2 hjp
    · -- emptiness at nodes still dirty
      intro j hj1 hj2 hjd
      obtain ⟨hjp, hjne⟩ := hup_dirty j hjd
      rw [getD_set_ne t p j cur 0 (fun he => hjne he.symm)]
      exact hb5d j hj1 hj2 hjp
    · -- root emptiness
      rw [getD_set_ne t p 0 cur 0 (by omega)]
      exact hb5r
    · -- dirty entries are old
      intro j hj1 hj2 hjd
      obtain ⟨hjp, hjne⟩ := hup_dirty j hjd
      rw [getD_set_ne t p j cur 0 (fun he => hjne he.symm)]
      exact hb7 j hj1 hj2 hjp
    · -- the processed leaf is accounted for
      rcases hb8 with h | ⟨v, hv1, hv2, hv3, hv4, hv5⟩
      · by_cases hcl : cur = lf
        · right
          refine ⟨p, hp, hpk, isUnder_half p, by omega, ?_⟩
          rw [hsetp, hcl]
        · left
          omega
      · right
        refine ⟨v, hv1, hv2, isUnder_trans hv3 (isUnder_half p), ?_, ?_⟩
        · have := isUnder_le hv3
          omega
        · rw [getD_set_ne t p v cur 0 (fun he => hv4 he.symm)]
          exact hv5
    · -- be9 at still-dirty nodes
      intro j hj1 hj2 hjd hpass0 i1 h1 h2 hu
      obtain ⟨hjp, hjne⟩ := hup_dirty j hjd
      rcases hb9 j hj1 hj2 hjp hpass0 i1 h1 h2 hu with hins | he
      · obtain ⟨jp, g1, g2, g3, g4⟩ := hins
        by_cases hjpp : jp = p
        · right
          rw [← g4, hjpp]
        · left
          exact ⟨jp, g1, g2, g3, by
            rw [getD_set_ne t p jp cur 0 (fun he2 => hjpp he2.symm)]
            exact g4⟩
      · left
        rw [he]
        exact ⟨p, hp, hpk, hjp, hsetp⟩
    · -- subtree clauses at nodes clean for p / 2
      intro j hj1 hj2 hjclean
      by_cases hjp : isUnder j p
      · have he := hjp_of_clean j hjclean hjp
        subst he
        refine ⟨?_, ?_, ?_⟩
        · intro i1 h0 hi1 hu
          rcases hpart i1 hi1 hu with h | h
          · exact Or.inl (hCin i1 h0 hi1 h)
          · by_cases hins : insideP k t s i1
            · exact Or.inl (insideP_up ((hsIff i1).mpr hins) hpsU)
            · have he2 := hsUniq i1 h0 hi1 h hins
              right
              rw [he2]
              exact hwMinP
        · intro i1 i2 g1 g2 g3 g4 hu1 hu2 hn1 hn2
          rw [hkey i1 g1 g2 hu1 hn1, hkey i2 g3 g4 hu2 hn2]
        · intro h0
          exact absurd h0 (by omega)
      · have hIff : ∀ i, insideP k (t.set p cur) j i ↔ insideP k t j i :=
          fun i => insideP_set_ne hjp
        have hcl := hb4c j hj1 hj2 hjp
        refine ⟨?_, ?_, ?_⟩
        · intro i1 h0 hi1 hu
          rcases hcl.1 i1 h0 hi1 hu with h | h
          · exact Or.inl ((hIff i1).mpr h)
          · exact Or.inr h
        · intro i1 i2 g1 g2 g3 g4 hu1 hu2 hn1 hn2
          exact hcl.2.1 i1 i2 g1 g2 g3 g4 hu1 hu2
            (fun h => hn1 ((hIff i1).mpr h))
            (fun h => hn2 ((hIff i2).mpr h))
        · intro h0 i1 g1 g2 hu
          exact (hIff i1).mpr (hcl.2.2 h0 i1 g1 g2 hu)
  · -- the carried winner wins the play: the tree is unchanged
    rw [ht2, hc2]
    have hLle : lexLE (L.getD cur SENTINEL)
        (L.getD (t.getD p 0) SENTINEL) := (isLoser_eq_false_iff _ _).mp hL
    have hinsP_w : insideP k t p (t.getD p 0) :=
      ⟨p, hp, hpk, isUnder_refl p, rfl⟩
    have hSin : ∀ i, lf ≤ i → i < k → isUnder s (i + k) →
        insideP k t p i := by
      intro i h0 hi his
      by_cases hins : insideP k t s i
      · exact insideP_up hins hpsU
      · have he : i = t.getD p 0 := hsUniq i h0 hi his hins
        rw [he]
        exact hinsP_w
    have hcurMinP : ∀ i2, lf ≤ i2 → i2 < k → isUnder p (i2 + k) →
        lexLE (L.getD cur SENTINEL) (L.getD i2 SENTINEL) := by
      intro i2 h0 hi2 hu
      rcases hpart i2 hi2 hu with h | h
      · exact hcMin i2 h0 hi2 h
      · exact lexLE_trans hLle (hsMin i2 h0 hi2 h)
    have hkey : ∀ a, lf ≤ a → a < k → isUnder p (a + k) →
        ¬insideP k t p a → a = cur := by
      intro a h0 ha hau hna
      rcases hpart a ha hau with h | h
      · have hnis : ¬insideP k t c a := fun hins =>
          hna (insideP_up hins hpc)
        exact hcUniq a h0 ha h hnis
      · exact absurd (hSin a h0 ha h) hna
    refine ⟨hlen, hcur, hlfcur, isUnder_trans hcCur hpc, hmul, hb1,
      hb1r, ?_, ?_, hb5r, ?_, ?_, ?_, ?_,
      ⟨hlfU, hpassInc, hcurMinP, hkey⟩⟩
    · intro j hj1 hj2 hjclean
      by_cases hjp : isUnder j p
      · have he := hjp_of_clean j hjclean hjp
        rw [he]
        constructor
        · intro hc
          exact absurd hc hother
        · intro h0
          omega
      · exact hb5c j hj1 hj2 hjp
    · intro j hj1 hj2 hjd
      exact hb5d j hj1 hj2 (hup_dirty j hjd).1
    · intro j hj1 hj2 hjd
      exact hb7 j hj1 hj2 (hup_dirty j hjd).1
    · rcases hb8 with h | ⟨v, hv1, hv2, hv3, hv4, hv5⟩
      · exact Or.inl h
      · right
        refine ⟨v, hv1, hv2, isUnder_trans hv3 (isUnder_half p), ?_, hv5⟩
        have := isUnder_le hv3
        omega
    · intro j hj1 hj2 hjd hpass0 i1 h1 h2 hu
      exact hb9 j hj1 hj2 (hup_dirty j hjd).1 hpass0 i1 h1 h2 hu
    · intro j hj1 hj2 hjclean
      by_cases hjp : isUnder j p
      · have he := hjp_of_clean j hjclean hjp
        subst he
        refine ⟨?_, ?_, ?_⟩
        · intro i1 h0 hi1 hu
          rcases hpart i1 hi1 hu with h | h
          · by_cases hins : insideP k t c i1
            · exact Or.inl (insideP_up hins hpc)
            · have he2 := hcUniq i1 h0 hi1 h hins
              right
              rw [he2]
              exact hcurMinP
          · exact Or.inl (hSin i1 h0 hi1 h)
        · intro i1 i2 g1 g2 g3 g4 hu1 hu2 hn1 hn2
          rw [hkey i1 g1 g2 hu1 hn1, hkey i2 g3 g4 hu2 hn2]
        · intro h0
          exact absurd h0 (by omega)
      · exact hb4c j hj1 hj2 hjp

/-- Parking at an empty node ends the build walk and re-establishes the
between-iterations invariant: the subtree of the empty node had no
escaped leaves, so every processed leaf below any ancestor is parked
inside it. -/
theorem buildPark (k : Nat) (L : List RunNode) (lf p cur : Nat)
    (t : List Nat) (hlf : lf < k) (hE : BEntry k L lf p cur t)
    (hpark : t.getD p 0 = k) :
    BINV k L lf (t.set p cur) := by
  obtain ⟨hlen, hcur, hlfcur, hp, hpk, hcurU, hlfU, hmul, hb1, hb1r,
    hb5c, hb5d, hb5r, hb7, hb8, hb9, hb4c, c, hcSide, hcCur, hcLf,
    hcPass, hcMin, hcUniq⟩ := hE
  obtain ⟨s, hcs⟩ : ∃ s, (c = 2 * p ∧ s = 2 * p + 1)
      ∨ (c = 2 * p + 1 ∧ s = 2 * p) := by
    rcases hcSide with h | h
    · exact ⟨2 * p + 1, Or.inl ⟨h, rfl⟩⟩
    · exact ⟨2 * p, Or.inr ⟨h, rfl⟩⟩
  have hsLf : ¬isUnder s (lf + k) := by
    intro hcontra
    have hboth : isUnder (2 * p) (lf + k) ∧
        isUnder (2 * p + 1) (lf + k) := by
      rcases hcs with ⟨hc, hs⟩ | ⟨hc, hs⟩
      · exact ⟨hc ▸ hcLf, hs ▸ hcontra⟩
      · exact ⟨hs ▸ hcontra, hc ▸ hcLf⟩
    exact isUnder_children_exclusive (by omega) hboth
  have hsStable : passN k lf s = passN k (lf + 1) s := passN_stable hsLf
  have hcsumOld : passN k (lf + 1) (2 * p) + passN k (lf + 1) (2 * p + 1)
      = 0 := (hb5d p hp hpk (isUnder_refl p)).mp hpark
  have hsumNew : passN k lf (2 * p) + passN k lf (2 * p + 1) = 1 := by
    rcases hcs with ⟨hc, hs⟩ | ⟨hc, hs⟩
    · rw [hc] at hcPass
      rw [hs] at hsStable
      omega
    · rw [hc] at hcPass
      rw [hs] at hsStable
      omega
  have hQp : passN k lf p = passN k (lf + 1) p := by
    rw [passN_int lf hp hpk, passN_int (lf + 1) hp hpk, hsumNew,
      hcsumOld]
    decide
  have hchain := passN_stable_chain hpk hQp hlfU
  have hdirtyPass0 : ∀ j, 1 ≤ j → j < k → isUnder j p →
      passN k (lf + 1) j = 0 := by
    intro j hj1 hj2 hjp
    by_contra h0
    have h1 : 1 ≤ passN k (lf + 1) j := Nat.one_le_iff_ne_zero.mpr h0
    have h2 := passN_pos_under (show p < 2 * k by omega) h1 hjp
    rw [passN_int (lf + 1) hp hpk, hcsumOld] at h2
    simp at h2
  have hsetp : (t.set p cur).getD p 0 = cur :=
    getD_set_self t p cur 0 (by omega)
  have hlfInside : ∀ j, 1 ≤ j → j < k → isUnder j p →
      insideP k (t.set p cur) j lf := by
    intro j hj1 hj2 hjp
    rcases hb8 with h | ⟨v, hv1, hv2, hv3, hv4, hv5⟩
    · exact ⟨p, hp, hpk, hjp, by rw [hsetp, h]⟩
    · refine ⟨v, hv1, hv2, isUnder_trans hv3 hjp, ?_⟩
      rw [getD_set_ne t p v cur 0 (fun he => hv4 he.symm)]
      exact hv5
  have hpres : ∀ j i, i < k → insideP k t j i →
      insideP k (t.set p cur) j i := by
    rintro j i hi ⟨jp, g1, g2, g3, g4⟩
    by_cases hjpp : jp = p
    · rw [hjpp, hpark] at g4
      omega
    · exact ⟨jp, g1, g2, g3, by
        rw [getD_set_ne t p jp cur 0 (fun he => hjpp he.symm)]
        exact g4⟩
  have hallin : ∀ j, 1 ≤ j → j < k → isUnder j p →
      ∀ i1, lf ≤ i1 → i1 < k → isUnder j (i1 + k) →
        insideP k (t.set p cur) j i1 := by
    intro j hj1 hj2 hjp i1 h1 h2 hu
    by_cases hi1lf : i1 = lf
    · rw [hi1lf]
      exact hlfInside j hj1 hj2 hjp
    · rcases hb9 j hj1 hj2 hjp (hdirtyPass0 j hj1 hj2 hjp) i1
          (by omega) h2 hu with hins | he
      · exact hpres j i1 h2 hins
      · rw [he]
        exact ⟨p, hp, hpk, hjp, hsetp⟩
  have hjp_dec : ∀ j, isUnder j p ∨ ¬isUnder j p := fun j =>
    Classical.em _
  refine ⟨by simp [hlen], ?_, ?_, ?_, ?_, ?_, ?_⟩
  · -- multiset clause: the parked winner joins the entries
    rw [fullEntries_set k t p cur hlen hpk]
    rw [filter_set_from_k k (fullEntries k t)
      p (by rw [fullEntries_length]; exact hpk) cur (by omega)
      (by rw [fullEntries_getD t hpk]; exact hpark)]
    exact hmul
  · -- b1
    intro j hj1 hj2
    by_cases hjp : j = p
    · rw [hjp, hsetp]
      exact Or.inr ⟨hcur, hcurU⟩
    · rw [getD_set_ne t p j cur 0 (fun he => hjp he.symm)]
      exact hb1 j hj1 hj2
  · -- b1r
    rw [getD_set_ne t p 0 cur 0 (by omega)]
    exact hb1r
  · -- node emptiness against the new pass counts
    intro j hj1 hj2
    by_cases hjp : j = p
    · rw [hjp, hsetp, hsumNew]
      constructor
      · intro h
        omega
      · intro h
        omega
    · rw [getD_set_ne t p j cur 0 (fun he => hjp he.symm)]
      by_cases hjd : isUnder j p
      · have hsplit := isUnder_child hjd (fun he => hjp he.symm)
        have hjlf : isUnder j (lf + k) := isUnder_trans hlfU hjd
        have hA : ∀ e, (e = 2 * j ∨ e = 2 * j + 1) → isUnder e p →
            passN k lf e = passN k (lf + 1) e := fun e _ he =>
          hchain e he
        have hB : ∀ e1 e2, (e1 = 2 * j ∧ e2 = 2 * j + 1 ∨
            e1 = 2 * j + 1 ∧ e2 = 2 * j) → isUnder e1 p →
            passN k lf e2 = passN k (lf + 1) e2 := by
          intro e1 e2 hee he1
          refine passN_stable ?_
          intro hcontra
          have he1lf : isUnder e1 (lf + k) :=
            isUnder_trans hlfU he1
          have hboth : isUnder (2 * j) (lf + k) ∧
              isUnder (2 * j + 1) (lf + k) := by
            rcases hee with ⟨g1, g2⟩ | ⟨g1, g2⟩
            · exact ⟨g1 ▸ he1lf, g2 ▸ hcontra⟩
            · exact ⟨g2 ▸ hcontra, g1 ▸ he1lf⟩
          exact isUnder_children_exclusive (by omega) hboth
        rcases hsplit with he | he
        · rw [hA (2 * j) (Or.inl rfl) he,
            hB (2 * j) (2 * j + 1) (Or.inl ⟨rfl, rfl⟩) he]
          exact hb5d j hj1 hj2 hjd
        · rw [hA (2 * j + 1) (Or.inr rfl) he,
            hB (2 * j + 1) (2 * j) (Or.inr ⟨rfl, rfl⟩) he]
          exact hb5d j hj1 hj2 hjd
      · exact hb5c j hj1 hj2 hjd
  · -- root emptiness
    rw [getD_set_ne t p 0 cur 0 (by omega)]
    rw [hchain 1 (isUnder_one hp)]
    exact hb5r
  · -- subtree clauses everywhere
    intro j hj1 hj2
    by_cases hjd : isUnder j p
    · refine ⟨?_, ?_, ?_⟩
      · intro i1 h1 h2 hu
        exact Or.inl (hallin j hj1 hj2 hjd i1 h1 h2 hu)
      · intro i1 i2 g1 g2 g3 g4 hu1 hu2 hn1 hn2
        exact absurd (hallin j hj1 hj2 hjd i1 g1 g2 hu1) hn1
      · intro h0 i1 g1 g2 hu
        exact hallin j hj1 hj2 hjd i1 g1 g2 hu
    · have hIff : ∀ i, insideP k (t.set p cur) j i ↔ insideP k t j i :=
        fun i => insideP_set_ne hjd
      have hcl := hb4c j hj1 hj2 hjd
      refine ⟨?_, ?_, ?_⟩
      · intro i1 h1 h2 hu
        rcases hcl.1 i1 h1 h2 hu with h | h
        · exact Or.inl ((hIff i1).mpr h)
        · exact Or.inr h
      · intro i1 i2 g1 g2 g3 g4 hu1 hu2 hn1 hn2
        exact hcl.2.1 i1 i2 g1 g2 g3 g4 hu1 hu2
          (fun h => hn1 ((hIff i1).mpr h))
          (fun h => hn2 ((hIff i2).mpr h))
      · intro h0 i1 g1 g2 hu
        exact (hIff i1).mpr (hcl.2.2 h0 i1 g1 g2 hu)

/-- A walk that has played the root match writes `tree[0]` and
re-establishes the between-iterations invariant. -/
theorem buildRootAssemble (k : Nat) (L : List RunNode) (lf cur2 : Nat)
    (t2 : List Nat) (hlf : lf < k) (hlen : t2.length = k)
    (hcur2 : cur2 < k)
    (hmul : cur2 ::ₘ Multiset.ofList
        ((fullEntries k t2).filter (fun x => x ≠ k))
      = Multiset.ofList (List.range' lf (k - lf)))
    (hb1 : ∀ j, 1 ≤ j → j < k → t2.getD j 0 = k ∨
      (t2.getD j 0 < k ∧ isUnder j (t2.getD j 0 + k)))
    (hb5 : ∀ j, 1 ≤ j → j < k →
      (t2.getD j 0 = k ↔ passN k lf (2 * j) + passN k lf (2 * j + 1)
        = 0))
    (hroot : t2.getD 0 0 = k ↔ passN k (lf + 1) 1 = 0)
    (hb4 : ∀ j, 1 ≤ j → j < k →
      ((∀ i1, lf ≤ i1 → i1 < k → isUnder j (i1 + k) →
          insideP k t2 j i1 ∨
          ∀ i2, lf ≤ i2 → i2 < k → isUnder j (i2 + k) →
            lexLE (L.getD i1 SENTINEL) (L.getD i2 SENTINEL)) ∧
       (∀ i1 i2, lf ≤ i1 → i1 < k → lf ≤ i2 → i2 < k →
          isUnder j (i1 + k) → isUnder j (i2 + k) →
          ¬insideP k t2 j i1 → ¬insideP k t2 j i2 → i1 = i2) ∧
       (passN k lf j = 0 → ∀ i1, lf ≤ i1 → i1 < k →
          isUnder j (i1 + k) → insideP k t2 j i1)))
    (hpassinc : passN k lf 1 = passN k (lf + 1) 1 + 1) :
    BINV k L lf (t2.set 0 cur2) := by
  have ht20 : t2.getD 0 0 = k := by
    refine hroot.mpr ?_
    have := passN_le_one k lf 1
    omega
  refine ⟨by simp [hlen], ?_, ?_, ?_, ?_, ?_, ?_⟩
  · rw [fullEntries_set k t2 0 cur2 hlen (by omega)]
    rw [filter_set_from_k k (fullEntries k t2) 0
      (by rw [fullEntries_length]; omega) cur2 (by omega)
      (by rw [fullEntries_getD t2 (by omega)]; exact ht20)]
    exact hmul
  · intro j hj1 hj2
    rw [getD_set_ne t2 0 j cur2 0 (by omega)]
    exact hb1 j hj1 hj2
  · rw [getD_set_self t2 0 cur2 0 (by omega)]
    exact Or.inr hcur2
  · intro j hj1 hj2
    rw [getD_set_ne t2 0 j cur2 0 (by omega)]
    exact hb5 j hj1 hj2
  · rw [getD_set_self t2 0 cur2 0 (by omega)]
    constructor
    · intro h
      omega
    · intro h
      omega
  · intro j hj1 hj2
    have hcl := hb4 j hj1 hj2
    refine ⟨?_, ?_, ?_⟩
    · intro i1 h1 h2 hu
      rcases hcl.1 i1 h1 h2 hu with h | h
      · exact Or.inl (insideP_set_zero.mpr h)
      · exact Or.inr h
    · intro i1 i2 g1 g2 g3 g4 hu1 hu2 hn1 hn2
      exact hcl.2.1 i1 i2 g1 g2 g3 g4 hu1 hu2
        (fun h => hn1 (insideP_set_zero.mpr h))
        (fun h => hn2 (insideP_set_zero.mpr h))
    · intro h0 i1 g1 g2 hu
      exact insideP_set_zero.mpr (hcl.2.2 h0 i1 g1 g2 hu)

/-- The build walk for one leaf: starting anywhere on its path with the
walk invariant and enough fuel, the walk re-establishes the
between-iterations invariant with that leaf processed. -/
theorem buildGo_spec (k : Nat) (L : List RunNode) (lf : Nat)
    (hlf : lf < k) :
    ∀ fuel p cur t, p < 2 ^ fuel → BEntry k L lf p cur t →
      BINV k L lf (buildGo (fuel + 1) k cur p t L) := by
  intro fuel
  induction fuel with
  | zero =>
    intro p cur t hfuel hE
    have hp : 1 ≤ p := hE.2.2.2.1
    simp at hfuel
    omega
  | succ fuel ih =>
    intro p cur t hfuel hE
    have hp : 1 ≤ p := hE.2.2.2.1
    have hpk : p < k := hE.2.2.2.2.1
    have hpow : 2 ^ (fuel + 1) = 2 ^ fuel * 2 := pow_succ 2 fuel
    have hred : buildGo (fuel + 1 + 1) k cur p t L
        = if t.getD p 0 = k then t.set p cur
          else if isLoser (L.getD cur SENTINEL)
              (L.getD (t.getD p 0) SENTINEL) then
            buildGo (fuel + 1) k (t.getD p 0) (p / 2) (t.set p cur) L
          else buildGo (fuel + 1) k cur (p / 2) t L := by
      simp only [buildGo]
      rw [if_pos (show 0 < p by omega)]
    rw [hred]
    by_cases hpark : t.getD p 0 = k
    · rw [if_pos hpark]
      exact buildPark k L lf p cur t hlf hE hpark
    · rw [if_neg hpark]
      by_cases hLb : isLoser (L.getD cur SENTINEL)
          (L.getD (t.getD p 0) SENTINEL) = true
      · rw [if_pos hLb]
        obtain ⟨B1, B2, B3, B4, B5, B6, B7, B8, B9, B10, B11, B12, B13,
          B14, B15⟩ := buildStep k L lf p cur t (t.set p cur)
            (t.getD p 0) hlf hE hpark (Or.inl ⟨hLb, rfl, rfl⟩)
        by_cases hp2 : p / 2 = 0
        · rw [hp2] at B8 B14 ⊢
          rw [buildGo_root (fuel + 1) k _ _ L (by omega)]
          refine buildRootAssemble k L lf (t.getD p 0) (t.set p cur)
            hlf B1 B2 B5 B6 ?_ B10 ?_ ?_
          · intro j hj1 hj2
            exact B8 j hj1 hj2 (fun hu => by
              have := isUnder_zero hu
              omega)
          · intro j hj1 hj2
            exact B14 j hj1 hj2 (fun hu => by
              have := isUnder_zero hu
              omega)
          · have hpe : p = 1 := by omega
            rw [hpe] at B15
            exact B15.2.1
        · refine ih (p / 2) (t.getD p 0) (t.set p cur) (by omega)
            ⟨B1, B2, B3, by omega, by omega,
              isUnder_trans B4 (isUnder_half p),
              isUnder_trans B15.1 (isUnder_half p), B5, B6, B7, B8, B9,
              B10, B11, B12, B13, B14,
              ⟨p, by omega, B4, B15.1, B15.2.1, B15.2.2.1,
                B15.2.2.2⟩⟩
      · rw [if_neg hLb]
        have hLbf : isLoser (L.getD cur SENTINEL)
            (L.getD (t.getD p 0) SENTINEL) = false :=
          Bool.eq_false_iff.mpr hLb
        obtain ⟨B1, B2, B3, B4, B5, B6, B7, B8, B9, B10, B11, B12, B13,
          B14, B15⟩ := buildStep k L lf p cur t t cur hlf hE hpark
            (Or.inr ⟨hLbf, rfl, rfl⟩)
        by_cases hp2 : p / 2 = 0
        · rw [hp2] at B8 B14 ⊢
          rw [buildGo_root (fuel + 1) k _ _ L (by omega)]
          refine buildRootAssemble k L lf cur t hlf B1 B2 B5 B6 ?_
            B10 ?_ ?_
          · intro j hj1 hj2
            exact B8 j hj1 hj2 (fun hu => by
              have := isUnder_zero hu
              omega)
          · intro j hj1 hj2
            exact B14 j hj1 hj2 (fun hu => by
              have := isUnder_zero hu
              omega)
          · have hpe : p = 1 := by omega
            rw [hpe] at B15
            exact B15.2.1
        · refine ih (p / 2) cur t (by omega)
            ⟨B1, B2, B3, by omega, by omega,
              isUnder_trans B4 (isUnder_half p),
              isUnder_trans B15.1 (isUnder_half p), B5, B6, B7, B8, B9,
              B10, B11, B12, B13, B14,
              ⟨p, by omega, B4, B15.1, B15.2.1, B15.2.2.1,
                B15.2.2.2⟩⟩

theorem passN_empty (k : Nat) : ∀ m x, 2 * k ≤ x + m →
    passN k k x = 0 := by
  intro m
  induction m with
  | zero =>
    intro x hx
    by_cases h0 : x = 0
    · rw [h0, passN_zero]
    · rw [passN_ext k (by omega) (by omega)]
      rw [if_neg (by omega)]
  | succ m ih =>
    intro x hx
    by_cases h0 : x = 0
    · rw [h0, passN_zero]
    · by_cases hk : k ≤ x
      · rw [passN_ext k (by omega) hk]
        rw [if_neg (by omega)]
      · rw [passN_int k (by omega) (by omega)]
        rw [ih (2 * x) (by omega), ih (2 * x + 1) (by omega)]
        rfl

/-- One iteration of the build loop: processing leaf `lf` preserves the
between-iterations invariant. -/
theorem buildIter (k : Nat) (L : List RunNode) (lf : Nat)
    (t : List Nat) (hlf : lf < k) (hB : BINV k L (lf + 1) t) :
    BINV k L lf (buildGo (k + 1) k lf ((lf + k) / 2) t L) := by
  obtain ⟨hlen, hmul, hb1, hb1r, hb5, hb5r, hb4⟩ := hB
  by_cases hk1 : k = 1
  · subst hk1
    have hlf0 : lf = 0 := by omega
    subst hlf0
    rw [show (0 + 1) / 2 = 0 by norm_num]
    rw [buildGo_root 2 1 0 t L (by omega)]
    have hfe : fullEntries 1 (t.set 0 0) = [(t.set 0 0).getD 0 0] := by
      rw [fullEntries_head_tail 1 _ (by omega),
        fullEntries_tail_eq 1 _ (by omega)]
      simp
    have hset0 : (t.set 0 0).getD 0 0 = 0 :=
      getD_set_self t 0 0 0 (by omega)
    have hp1 : passN 1 0 1 = 1 := passN_full (by omega) (by omega)
    refine ⟨by simp [hlen], ?_, ?_, ?_, ?_, ?_, ?_⟩
    · rw [hfe, hset0]
      rfl
    · intro j hj1 hj2
      omega
    · rw [hset0]
      exact Or.inr (by omega)
    · intro j hj1 hj2
      omega
    · rw [hset0]
      constructor
      · intro h
        omega
      · intro h
        omega
    · intro j hj1 hj2
      omega
  · have hk2 : 2 ≤ k := by omega
    have hp0a : 1 ≤ (lf + k) / 2 := by omega
    have hp0b : (lf + k) / 2 < k := by omega
    have hproc : ∀ j, j < k → t.getD j 0 ≠ k → lf + 1 ≤ t.getD j 0 := by
      intro j hj hne
      have hm : t.getD j 0 ∈ (fullEntries k t).filter (fun x => x ≠ k) :=
        mem_fullEntries_filter t hj hne
      have hsub := (Multiset.coe_eq_coe.mp hmul).subset hm
      rw [List.mem_range'] at hsub
      omega
    have hE : BEntry k L lf ((lf + k) / 2) lf t := by
      refine ⟨hlen, hlf, le_refl lf, hp0a, hp0b, isUnder_half (lf + k),
        isUnder_half (lf + k), ?_, hb1, hb1r, ?_, ?_, hb5r, ?_,
        Or.inl rfl, ?_, ?_, ?_⟩
      · -- the processed-leaves multiset including the new leaf
        rw [hmul]
        rw [show k - lf = (k - (lf + 1)) + 1 by omega,
          List.range'_succ]
        rw [Multiset.cons_coe]
      · -- emptiness at clean nodes, converted to the new pass counts
        intro j hj1 hj2 hjc
        have hjlf : ¬isUnder j (lf + k) := by
          intro hu
          rcases isUnder_cases hu with he | h2
          · omega
          · exact hjc h2
        have h2j : ¬isUnder (2 * j) (lf + k) := fun h =>
          hjlf (isUnder_trans h (isUnder_left_child j))
        have h2j1 : ¬isUnder (2 * j + 1) (lf + k) := fun h =>
          hjlf (isUnder_trans h (isUnder_right_child j))
        rw [passN_stable h2j, passN_stable h2j1]
        exact hb5 j hj1 hj2
      · intro j hj1 hj2 _
        exact hb5 j hj1 hj2
      · intro j hj1 hj2 _
        rcases Classical.em (t.getD j 0 = k) with h | h
        · exact Or.inl h
        · exact Or.inr (hproc j hj2 h)
      · intro j hj1 hj2 _ hpass0 i1 h1 h2 hu
        exact Or.inl ((hb4 j hj1 hj2).2.2 hpass0 i1 h1 h2 hu)
      · -- subtree clauses at clean nodes, with the boundary shifted
        intro j hj1 hj2 hjc
        have hjlf : ¬isUnder j (lf + k) := by
          intro hu
          rcases isUnder_cases hu with he | h2
          · omega
          · exact hjc h2
        have hnotlf : ∀ i1, isUnder j (i1 + k) → lf + 1 ≤ i1 →
            True := fun _ _ _ => trivial
        have hlift : ∀ i1, lf ≤ i1 → isUnder j (i1 + k) →
            lf + 1 ≤ i1 := by
          intro i1 h1 hu
          by_cases he : i1 = lf
          · exact absurd (he ▸ hu) hjlf
          · omega
        refine ⟨?_, ?_, ?_⟩
        · intro i1 h1 h2 hu
          rcases (hb4 j hj1 hj2).1 i1 (hlift i1 h1 hu) h2 hu with h | h
          · exact Or.inl h
          · right
            intro i2 g1 g2 hu2
            exact h i2 (hlift i2 g1 hu2) g2 hu2
        · intro i1 i2 g1 g2 g3 g4 hu1 hu2 hn1 hn2
          exact (hb4 j hj1 hj2).2.1 i1 i2 (hlift i1 g1 hu1) g2
            (hlift i2 g3 hu2) g4 hu1 hu2 hn1 hn2
        · intro h0 i1 g1 g2 hu
          have h0' : passN k (lf + 1) j = 0 := by
            rw [← passN_stable hjlf]
            exact h0
          exact (hb4 j hj1 hj2).2.2 h0' i1 (hlift i1 g1 hu) g2 hu
      · -- the walk enters through the external node of the new leaf
        refine ⟨lf + k, by omega, isUnder_refl _, isUnder_refl _, ?_,
          ?_, ?_⟩
        · rw [passN_ext lf (by omega) (by omega),
            passN_ext (lf + 1) (by omega) (by omega)]
          rw [if_pos (by omega), if_neg (by omega)]
        · intro i1 h1 h2 hu
          have he := isUnder_ext k (by omega) (by omega) hu
          have : i1 = lf := by omega
          rw [this]
          exact lexLE_refl _
        · intro i1 h1 h2 hu _
          have he := isUnder_ext k (by omega) (by omega) hu
          omega
    have hfuel : (lf + k) / 2 < 2 ^ k := by
      have := Nat.lt_two_pow k
      omega
    exact buildGo_spec k L lf hlf k ((lf + k) / 2) lf t hfuel hE

theorem initLoop_spec (k : Nat) (L : List RunNode) :
    ∀ n t, n ≤ k → BINV k L n t → BINV k L 0 (initLoop k L n t) := by
  intro n
  induction n with
  | zero =>
    intro t _ hB
    exact hB
  | succ n ihn =>
    intro t hn hB
    exact ihn _ (by omega) (buildIter k L n t (by omega) hB)

theorem BINV_initial (k : Nat) (L : List RunNode) (hk : 1 ≤ k) :
    BINV k L k (List.replicate k k) := by
  have hget : ∀ j, j < k → (List.replicate k k).getD j 0 = k := by
    intro j hj
    have hlt : j < (List.replicate k k).length := by
      simp
      omega
    rw [getD_eq_getElem _ _ hlt, List.getElem_replicate]
  have hfil : (fullEntries k (List.replicate k k)).filter
      (fun x => x ≠ k) = [] := by
    rw [List.filter_eq_nil_iff]
    intro a ha
    obtain ⟨j, hj, rfl⟩ := List.mem_map.mp ha
    rw [List.mem_range] at hj
    rw [hget j hj]
    simp
  refine ⟨by simp, ?_, ?_, ?_, ?_, ?_, ?_⟩
  · rw [hfil]
    rw [show k - k = 0 by omega]
    rfl
  · intro j hj1 hj2
    exact Or.inl (hget j hj2)
  · exact Or.inl (hget 0 (by omega))
  · intro j hj1 hj2
    rw [hget j hj2]
    constructor
    · intro _
      rw [passN_empty k (2 * k) (2 * j) (by omega),
        passN_empty k (2 * k) (2 * j + 1) (by omega)]
    · intro _
      rfl
  · rw [hget 0 (by omega)]
    constructor
    · intro _
      exact passN_empty k (2 * k) 1 (by omega)
    · intro _
      rfl
  · intro j hj1 hj2
    refine ⟨?_, ?_, ?_⟩
    · intro i1 h1 h2 _
      omega
    · intro i1 i2 h1 h2 _ _ _ _ _ _
      omega
    · intro _ i1 h1 h2 _
      omega

/-- The final build invariant yields the full loser-tree invariant. -/
theorem BINV_to_INV (k : Nat) (L : List RunNode) (t : List Nat)
    (hk : 1 ≤ k) (hL : L.length = k + 1) (hB : BINV k L 0 t) :
    INV k t L := by
  obtain ⟨hlen, hmul, hb1, hb1r, hb5, hb5r, hb4⟩ := hB
  have hne : ∀ j, j < k → t.getD j 0 ≠ k := by
    intro j hj h
    by_cases hj0 : j = 0
    · rw [hj0] at h
      have h0 := hb5r.mp h
      have h1 : passN k 0 1 = 1 := passN_full (by omega) (by omega)
      omega
    · have h0 := (hb5 j (by omega) hj).mp h
      have h1 : passN k 0 (2 * j) = 1 := passN_full (by omega) (by omega)
      omega
  have hfil : (fullEntries k t).filter (fun x => x ≠ k)
      = fullEntries k t := by
    rw [List.filter_eq_self]
    intro a ha
    obtain ⟨j, hj, rfl⟩ := List.mem_map.mp ha
    rw [List.mem_range] at hj
    simpa using hne j hj
  refine ⟨hlen, hL, ?_, ?_, ?_, ?_, ?_⟩
  · rcases hb1r with h | h
    · exact absurd h (hne 0 (by omega))
    · exact h
  · rw [hfil] at hmul
    have := Multiset.coe_eq_coe.mp hmul
    rw [show k - 0 = k by omega] at this
    rw [← List.range_eq_range'] at this
    exact this
  · intro j hj1 hj2
    rcases hb1 j hj1 hj2 with h | h
    · exact absurd h (hne j hj2)
    · exact h
  · intro j hj1 hj2 i hi hu
    rcases (hb4 j hj1 hj2).1 i (by omega) hi hu with h | h
    · exact Or.inl h
    · right
      intro i2 hi2 hu2
      exact h i2 (by omega) hi2 hu2
  · intro j hj1 hj2 i i2 hi hi2 hu hu2 hn1 hn2
    exact (hb4 j hj1 hj2).2.1 i i2 (by omega) hi (by omega) hi2 hu hu2
      hn1 hn2

theorem initTree_tree_def (k : Nat) (data : List Int) :
    (LoserTree.initTree k data).tree
      = initLoop k (LoserTree.initTree k data).leaves k
          (List.replicate k k) := rfl

theorem initTree_k_eq (k : Nat) (data : List Int) :
    (LoserTree.initTree k data).k = k := rfl

theorem initTree_leaves_len (k : Nat) (data : List Int) :
    (LoserTree.initTree k data).leaves.length = k + 1 := by
  show (((List.range k).map _) ++ [SENTINEL]).length = k + 1
  simp

/-- After `initTree` the loser-tree invariant holds. -/
theorem initTree_INV (k : Nat) (data : List Int) (hk : 1 ≤ k) :
    INV k (LoserTree.initTree k data).tree
      (LoserTree.initTree k data).leaves := by
  rw [initTree_tree_def]
  exact BINV_to_INV k _ _ hk (initTree_leaves_len k data)
    (initLoop_spec k _ k (List.replicate k k) (le_refl k)
      (BINV_initial k _ hk))

/-! ### The naive selector and the refinement -/

theorem lexLT_eq_true_le {a b : RunNode} (h : lexLT a b = true) :
    lexLE a b := by
  unfold lexLT at h
  unfold lexLE
  by_cases he : a.runID = b.runID
  · simp [he] at h
    omega
  · simp [he] at h
    omega

theorem lexLT_eq_false_le {a b : RunNode} (h : lexLT a b = false) :
    lexLE b a := by
  unfold lexLT at h
  unfold lexLE
  by_cases he : a.runID = b.runID
  · simp [he] at h
    omega
  · simp [he] at h
    omega

theorem naiveScanGo_spec (slots : List RunNode) :
    ∀ fuel i best bestNode, slots.length ≤ i + fuel →
      i ≤ slots.length → best < i →
      slots.getD best SENTINEL = bestNode →
      (∀ m, m < i → lexLE bestNode (slots.getD m SENTINEL)) →
      (naiveScanGo (slots.drop i) i best bestNode).1 < slots.length ∧
      slots.getD (naiveScanGo (slots.drop i) i best bestNode).1 SENTINEL
        = (naiveScanGo (slots.drop i) i best bestNode).2 ∧
      (∀ m, m < slots.length →
        lexLE (naiveScanGo (slots.drop i) i best bestNode).2
          (slots.getD m SENTINEL)) := by
  intro fuel
  induction fuel with
  | zero =>
    intro i best bestNode hfuel hi hbest hbn hmin
    have hie : i = slots.length := by omega
    subst hie
    rw [List.drop_length]
    refine ⟨?_, ?_, ?_⟩
    · show best < slots.length
      omega
    · exact hbn
    · intro m hm
      exact hmin m hm
  | succ fuel ih =>
    intro i best bestNode hfuel hi hbest hbn hmin
    by_cases hie : i = slots.length
    · subst hie
      rw [List.drop_length]
      refine ⟨?_, ?_, ?_⟩
      · show best < slots.length
        omega
      · exact hbn
      · intro m hm
        exact hmin m hm
    · have hilt : i < slots.length := by omega
      rw [List.drop_eq_getElem_cons hilt]
      simp only [naiveScanGo]
      have hgi : slots.getD i SENTINEL = slots[i] :=
        getD_eq_getElem slots i hilt SENTINEL
      by_cases hLT : lexLT slots[i] bestNode = true
      · rw [if_pos hLT]
        refine ih (i + 1) i slots[i] (by omega) (by omega) (by omega)
          hgi ?_
        intro m hm
        by_cases hmi : m = i
        · rw [hmi, hgi]
          exact lexLE_refl _
        · exact lexLE_trans (lexLT_eq_true_le hLT) (hmin m (by omega))
      · rw [if_neg hLT]
        have hLF : lexLT slots[i] bestNode = false :=
          Bool.eq_false_iff.mpr hLT
        refine ih (i + 1) best bestNode (by omega) (by omega) (by omega)
          hbn ?_
        intro m hm
        by_cases hmi : m = i
        · rw [hmi, hgi]
          exact lexLT_eq_false_le hLF
        · exact hmin m (by omega)

theorem scan_spec (slots : List RunNode) (hne : slots ≠ []) :
    (NaiveSel.scan ⟨slots⟩).1 < slots.length ∧
    slots.getD (NaiveSel.scan ⟨slots⟩).1 SENTINEL
      = (NaiveSel.scan ⟨slots⟩).2 ∧
    ∀ m, m < slots.length →
      lexLE (NaiveSel.scan ⟨slots⟩).2 (slots.getD m SENTINEL) := by
  cases slots with
  | nil => exact absurd rfl hne
  | cons x rest =>
    show (naiveScanGo rest 1 0 x).1 < (x :: rest).length ∧ _ ∧ _
    have hd : (x :: rest).drop 1 = rest := rfl
    have := naiveScanGo_spec (x :: rest) rest.length 1 0 x
      (by simp; omega) (by simp) (by omega) rfl
      (by
        intro m hm
        have hm0 : m = 0 := by omega
        rw [hm0]
        exact lexLE_refl _)
    rw [hd] at this
    exact this

theorem getD_mem_of_lt {α : Type} (l : List α) (i : Nat) (d : α)
    (h : i < l.length) : l.getD i d ∈ l := by
  rw [getD_eq_getElem l i h d]
  exact List.getElem_mem h

/-- Under the invariant and equal slot multisets, the two selectors
return the same winner, and the naive winner index holds that winner. -/
theorem winner_eq (k : Nat) (t : List Nat) (Lv slots : List RunNode)
    (hk : 1 ≤ k) (hINV : INV k t Lv) (hsl : slots.length = k)
    (hms : Multiset.ofList (Lv.take k) = Multiset.ofList slots) :
    LoserTree.getWinner ⟨k, t, Lv⟩ = NaiveSel.getWinner ⟨slots⟩ ∧
    slots.getD (NaiveSel.scan ⟨slots⟩).1 SENTINEL
      = LoserTree.getWinner ⟨k, t, Lv⟩ ∧
    (NaiveSel.scan ⟨slots⟩).1 < slots.length := by
  have hperm : (Lv.take k).Perm slots := Multiset.coe_eq_coe.mp hms
  have hw0 : t.getD 0 0 < k := hINV.2.2.1
  have hLvlen : Lv.length = k + 1 := hINV.2.1
  have htklen : (Lv.take k).length = k := by
    rw [List.length_take]
    omega
  have hmin := INV_winner_min k t Lv hINV
  have hne : slots ≠ [] := by
    intro h
    rw [h] at hsl
    simp at hsl
    omega
  obtain ⟨hb, hbv, hnsmin⟩ := scan_spec slots hne
  have hltW : LoserTree.getWinner ⟨k, t, Lv⟩
      = Lv.getD (t.getD 0 0) SENTINEL := rfl
  -- the tree winner is among the slots
  have hltmem : Lv.getD (t.getD 0 0) SENTINEL ∈ slots := by
    refine hperm.subset ?_
    rw [← getD_take Lv k (t.getD 0 0) SENTINEL hw0]
    exact getD_mem_of_lt _ _ SENTINEL (by omega)
  -- the naive winner is among the tree leaves
  have hnsmem : (NaiveSel.scan ⟨slots⟩).2 ∈ Lv.take k := by
    refine hperm.symm.subset ?_
    rw [← hbv]
    exact getD_mem_of_lt _ _ SENTINEL hb
  have hle1 : lexLE (Lv.getD (t.getD 0 0) SENTINEL)
      (NaiveSel.scan ⟨slots⟩).2 := by
    obtain ⟨m, hm, hmv⟩ := List.mem_iff_getElem.mp hnsmem
    rw [htklen] at hm
    have h1 : (Lv.take k).getD m SENTINEL = (NaiveSel.scan ⟨slots⟩).2 := by
      rw [getD_eq_getElem _ _ (by omega) SENTINEL]
      exact hmv
    rw [getD_take Lv k m SENTINEL hm] at h1
    exact h1 ▸ hmin m hm
  have hle2 : lexLE (NaiveSel.scan ⟨slots⟩).2
      (Lv.getD (t.getD 0 0) SENTINEL) := by
    obtain ⟨m, hm, hmv⟩ := List.mem_iff_getElem.mp hltmem
    have h1 : slots.getD m SENTINEL = Lv.getD (t.getD 0 0) SENTINEL := by
      rw [getD_eq_getElem _ _ hm SENTINEL]
      exact hmv
    exact h1 ▸ hnsmin m hm
  have heq := lexLE_antisymm hle1 hle2
  exact ⟨heq, by rw [hbv, ← heq]; rfl, hb⟩

/-- Trace equivalence under the simulation invariant. -/
theorem winnerTrace_equiv (ops : List LTOp) :
    ∀ (k : Nat) (t : List Nat) (Lv slots : List RunNode),
      1 ≤ k → INV k t Lv → slots.length = k →
      Multiset.ofList (Lv.take k) = Multiset.ofList slots →
      LoserTree.winnerTrace ⟨k, t, Lv⟩ ops
        = NaiveSel.winnerTrace ⟨slots⟩ ops := by
  induction ops with
  | nil =>
    intro k t Lv slots hk hINV hsl hms
    show [LoserTree.getWinner ⟨k, t, Lv⟩] = [NaiveSel.getWinner ⟨slots⟩]
    rw [(winner_eq k t Lv slots hk hINV hsl hms).1]
  | cons op ops ih =>
    intro k t Lv slots hk hINV hsl hms
    obtain ⟨hweq, hsgetD, hsidx⟩ := winner_eq k t Lv slots hk hINV hsl hms
    have hw0 : t.getD 0 0 < k := hINV.2.2.1
    have hLvlen : Lv.length = k + 1 := hINV.2.1
    have hstep : ∀ nd : RunNode,
        LoserTree.winnerTrace
          (LoserTree.replay ⟨k, t, Lv.set (t.getD 0 0) nd⟩
            (t.getD 0 0)) ops
        = NaiveSel.winnerTrace
            ⟨slots.set (NaiveSel.scan ⟨slots⟩).1 nd⟩ ops := by
      intro nd
      have hINV2 : INV k
          (LoserTree.replay ⟨k, t, Lv.set (t.getD 0 0) nd⟩
            (t.getD 0 0)).tree (Lv.set (t.getD 0 0) nd) :=
        replay_preserves_INV k (t.getD 0 0) t Lv _ hINV rfl
          (by simp [hLvlen])
          (fun i hi hiw => getD_set_ne Lv _ i nd SENTINEL
            (fun he => hiw he.symm))
      have htk : (Lv.set (t.getD 0 0) nd).take k
          = (Lv.take k).set (t.getD 0 0) nd := List.set_take
      have hms2 : Multiset.ofList ((Lv.set (t.getD 0 0) nd).take k)
          = Multiset.ofList (slots.set (NaiveSel.scan ⟨slots⟩).1 nd) := by
        rw [htk]
        have htklen : (Lv.take k).length = k := by
          rw [List.length_take]
          omega
        have p1 := perm_set_swap (Lv.take k) (t.getD 0 0) (by omega)
          nd SENTINEL
        have p2 := perm_set_swap slots (NaiveSel.scan ⟨slots⟩).1 hsidx
          nd SENTINEL
        have c1 := Multiset.coe_eq_coe.mpr p1
        have c2 := Multiset.coe_eq_coe.mpr p2
        rw [← Multiset.cons_coe, ← Multiset.cons_coe] at c1 c2
        rw [getD_take Lv k _ SENTINEL hw0] at c1
        rw [hsgetD] at c2
        have hkey : (Lv.getD (t.getD 0 0) SENTINEL) ::ₘ
            Multiset.ofList ((Lv.take k).set (t.getD 0 0) nd)
            = (Lv.getD (t.getD 0 0) SENTINEL) ::ₘ
              Multiset.ofList (slots.set (NaiveSel.scan ⟨slots⟩).1 nd) := by
          rw [c1]
          have hltW : LoserTree.getWinner ⟨k, t, Lv⟩
              = Lv.getD (t.getD 0 0) SENTINEL := rfl
          rw [hltW] at c2
          rw [c2, hms]
        exact (Multiset.cons_inj_right _).mp hkey
      have := ih k
        (LoserTree.replay ⟨k, t, Lv.set (t.getD 0 0) nd⟩
          (t.getD 0 0)).tree
        (Lv.set (t.getD 0 0) nd)
        (slots.set (NaiveSel.scan ⟨slots⟩).1 nd)
        hk hINV2 (by simp [hsl]) hms2
      exact this
    show LoserTree.getWinner ⟨k, t, Lv⟩
        :: LoserTree.winnerTrace (LoserTree.applyLTOp ⟨k, t, Lv⟩ op) ops
      = NaiveSel.getWinner ⟨slots⟩
        :: NaiveSel.winnerTrace (NaiveSel.applyLTOp ⟨slots⟩ op) ops
    rw [hweq]
    cases op with
    | replace v rid =>
      exact congrArg (List.cons _) (hstep ⟨v, rid⟩)
    | setSent =>
      exact congrArg (List.cons _) (hstep SENTINEL)

/-- C5: for every initial data vector of size m ≤ k and every finite
stream of replaceWinner / setWinnerToSentinel operations applied after
initialize(data), the sequence of getWinner results produced by the
LoserTree equals the sequence produced by a naive reference selecting
the minimum key under the lexicographic (runID, value) order by a
linear scan over the k slots. -/
theorem loserTree_refines_naive (k : Nat) (data : List Int)
    (hk : 1 ≤ k) (hm : data.length ≤ k) (ops : List LTOp) :
    (LoserTree.initTree k data).winnerTrace ops
      = (NaiveSel.init k data).winnerTrace ops := by
  have hsl : (NaiveSel.init k data).slots.length = k := by
    show ((List.range k).map _).length = k
    simp
  have htake : (LoserTree.initTree k data).leaves.take k
      = (NaiveSel.init k data).slots := by
    show (((List.range k).map _) ++ [SENTINEL]).take k = _
    exact List.take_left' (by simp)
  exact winnerTrace_equiv ops k (LoserTree.initTree k data).tree
    (LoserTree.initTree k data).leaves (NaiveSel.init k data).slots
    hk (initTree_INV k data hk) hsl (by rw [htake])

/-- Closed witness for C5 at k = 2, data = [5, 3], a three-operation
stream. -/
theorem loserTree_refines_naive_witness :
    (1 ≤ 2 ∧ ([5, 3] : List Int).length ≤ 2) ∧
    (LoserTree.initTree 2 [5, 3]).winnerTrace
        [LTOp.replace 4 2, LTOp.setSent, LTOp.setSent]
      = (NaiveSel.init 2 [5, 3]).winnerTrace
          [LTOp.replace 4 2, LTOp.setSent, LTOp.setSent] :=
  ⟨⟨by decide, by decide⟩,
    loserTree_refines_naive 2 [5, 3] (by decide) (by decide)
      [LTOp.replace 4 2, LTOp.setSent, LTOp.setSent]⟩

/-! ### Run-generator helper lemmas -/

theorem slice_append_chunk (data vs : List Int) (off n : Nat)
    (h : off + n = data.length) :
    slice (data ++ vs) off (n + vs.length) = slice data off n ++ vs := by
  unfold slice
  rw [List.drop_append_of_le_length (by omega)]
  have hlen : (data.drop off).length = n := by
    rw [List.length_drop]
    omega
  conv_rhs => rw [List.take_of_length_le (by rw [List.length_drop]; omega)]
  rw [← hlen, List.take_append vs.length, List.take_length]

theorem sorted_append_one (l : List Int) (a : Int)
    (h1 : l.Sorted (· ≤ ·)) (h2 : ∀ b ∈ l, b ≤ a) :
    (l ++ [a]).Sorted (· ≤ ·) := by
  unfold List.Sorted at h1 ⊢
  rw [List.pairwise_append]
  exact ⟨h1, List.pairwise_singleton _ a, fun b hb c hc => by
    rw [List.mem_singleton.mp hc]
    exact h2 b hb⟩

theorem realVal1_sentinel : realVal1 SENTINEL = 0 := by
  unfold realVal1 SENTINEL
  rw [if_neg (by simp)]

theorem realVal1_real (nd : RunNode) (h : nd.runID ≠ intMax) :
    realVal1 nd = {nd.value} := by
  unfold realVal1
  rw [if_pos h]

theorem mvalList_cons (x : RunNode) (t : List RunNode) :
    ((((x :: t).filter (fun nd => nd.runID ≠ intMax)).map RunNode.value
      : List Int) : Multiset Int)
    = realVal1 x + (((t.filter (fun nd => nd.runID ≠ intMax)).map
        RunNode.value : List Int) : Multiset Int) := by
  by_cases hx : x.runID = intMax
  · rw [List.filter_cons, if_neg (by simp [hx])]
    unfold realVal1
    rw [if_neg (by simp [hx])]
    rw [zero_add]
  · rw [List.filter_cons, if_pos (by simp [hx])]
    unfold realVal1
    rw [if_pos hx, List.map_cons, ← Multiset.cons_coe,
      ← Multiset.singleton_add]

theorem mvalList_set (A : List RunNode) :
    ∀ i, i < A.length → ∀ nd : RunNode,
    ((((A.set i nd).filter (fun x => x.runID ≠ intMax)).map RunNode.value
      : List Int) : Multiset Int) + realVal1 (A.getD i SENTINEL)
    = (((A.filter (fun x => x.runID ≠ intMax)).map RunNode.value
      : List Int) : Multiset Int) + realVal1 nd := by
  induction A with
  | nil =>
    intro i hi
    simp at hi
  | cons a t ih =>
    intro i hi nd
    cases i with
    | zero =>
      rw [List.set_cons_zero, mvalList_cons nd t, mvalList_cons a t,
        List.getD_cons_zero]
      abel
    | succ m =>
      rw [List.set_cons_succ, mvalList_cons a _, mvalList_cons a t,
        List.getD_cons_succ]
      have hm := ih m (by simpa using hi) nd
      rw [add_assoc, hm, ← add_assoc]

theorem realVals_set (k : Nat) (L : List RunNode) (i : Nat) (hik : i < k)
    (hiL : i < L.length) (nd : RunNode) :
    realVals k (L.set i nd) + realVal1 (L.getD i SENTINEL)
      = realVals k L + realVal1 nd := by
  unfold realVals
  rw [List.set_take]
  have hlen : i < (L.take k).length := by
    rw [List.length_take]
    omega
  have hg : (L.take k).getD i SENTINEL = L.getD i SENTINEL :=
    getD_take L k i SENTINEL hik
  rw [← hg]
  exact mvalList_set (L.take k) i hlen nd

theorem realVals_zero (k : Nat) (L : List RunNode)
    (h : ∀ i, i < k → (L.getD i SENTINEL).runID = intMax)
    (hlen : k ≤ L.length) : realVals k L = 0 := by
  unfold realVals
  have hf : (L.take k).filter (fun nd => nd.runID ≠ intMax) = [] := by
    rw [List.filter_eq_nil_iff]
    intro x hx
    obtain ⟨i, hi, hxe⟩ := List.mem_iff_getElem.mp hx
    have hik : i < k := by
      rw [List.length_take] at hi
      omega
    have hgx : L.getD i SENTINEL = x := by
      rw [← getD_take L k i SENTINEL hik, getD_eq_getElem _ _ hi]
      exact hxe
    have hrid := h i hik
    rw [hgx] at hrid
    simp [hrid]
  rw [hf]
  rfl

theorem range_map_getD (d : List Int) :
    (List.range d.length).map (fun i => d.getD i 0) = d := by
  apply List.ext_getElem
  · simp
  · intro i h1 h2
    simp [List.getD_eq_getElem?_getD, List.getElem?_eq_getElem h2]

theorem realVals_init_aux (d : List Int) :
    ∀ k, (((List.range k).map (fun i =>
        if i < d.length then RunNode.mk (d.getD i 0) 1 else SENTINEL)).filter
          (fun nd => nd.runID ≠ intMax)).map RunNode.value
      = d.take k := by
  intro k
  induction k with
  | zero => rfl
  | succ k ih =>
    rw [List.range_succ, List.map_append, List.filter_append,
      List.map_append, ih]
    by_cases hk : k < d.length
    · rw [List.take_succ, List.getElem?_eq_getElem hk]
      congr 1
      rw [List.map_cons, List.map_nil, List.filter_cons]
      rw [if_pos hk, if_pos (by simp [intMax])]
      rw [List.filter_nil, List.map_cons, List.map_nil]
      show [d.getD k 0] = [d[k]]
      rw [List.getD_eq_getElem?_getD, List.getElem?_eq_getElem hk]
      rfl
    · rw [List.take_of_length_le (by omega),
        List.take_of_length_le (by omega)]
      rw [List.map_cons, List.map_nil, List.filter_cons]
      rw [if_neg hk]
      rw [if_neg (by simp [SENTINEL]), List.filter_nil, List.map_nil,
        List.append_nil]

theorem realVals_init (k : Nat) (d : List Int) (hd : d.length ≤ k) :
    realVals k (LoserTree.initTree k d).leaves = (d : Multiset Int) := by
  unfold realVals
  have htk : (LoserTree.initTree k d).leaves.take k
      = (List.range k).map (fun i =>
          if i < d.length then RunNode.mk (d.getD i 0) 1 else SENTINEL) := by
    show (((List.range k).map _) ++ [SENTINEL]).take k = _
    exact List.take_left' (by simp)
  rw [htk, realVals_init_aux d k, List.take_of_length_le hd]

theorem msum_card (l : List (Multiset Int)) :
    l.sum.card = (l.map Multiset.card).sum := by
  induction l with
  | nil => rfl
  | cons x t ih =>
    rw [List.sum_cons, Multiset.card_add, ih, List.map_cons, List.sum_cons]

theorem flushOut_spec (s : RGState) (hO : s.rf.isOpen = true)
    (hlen : s.rf.disk.data.length
      = s.currentRunStartOffset + s.totalElementsInRun) :
    (s.flushOut).rf.disk.data = s.rf.disk.data ++ s.activeOut ∧
    (s.flushOut).rf.header = s.rf.header ∧
    (s.flushOut).rf.directory = s.rf.directory ∧
    (s.flushOut).rf.isOpen = s.rf.isOpen ∧
    (s.flushOut).currentRunStartOffset = s.currentRunStartOffset ∧
    (s.flushOut).totalElementsInRun
      = s.totalElementsInRun + s.activeOut.length ∧
    (s.flushOut).activeOut = [] ∧
    (s.flushOut).currentRunId = s.currentRunId ∧
    (s.flushOut).generatedRuns = s.generatedRuns := by
  unfold RGState.flushOut
  by_cases he : s.activeOut.isEmpty
  · rw [if_pos he]
    have hae : s.activeOut = [] := List.isEmpty_iff.mp he
    simp [hae]
  · rw [if_neg he]
    unfold RunFile.writeData
    rw [if_pos hO]
    refine ⟨?_, rfl, rfl, rfl, rfl, rfl, rfl, rfl, rfl⟩
    show writeAt s.rf.disk.data
      (s.currentRunStartOffset + s.totalElementsInRun) s.activeOut = _
    rw [← hlen, writeAt_append]

theorem flushOut_sessionInv (s : RGState) (h : SessionInv s.rf) :
    SessionInv (s.flushOut).rf := by
  unfold RGState.flushOut
  by_cases he : s.activeOut.isEmpty
  · rw [if_pos he]
    exact h
  · rw [if_neg he]
    exact sessionInv_writeData s.rf _ _ h

theorem curEmitted_flushOut (s : RGState) (hO : s.rf.isOpen = true)
    (hlen : s.rf.disk.data.length
      = s.currentRunStartOffset + s.totalElementsInRun) :
    curEmitted (s.flushOut) = curEmitted s := by
  obtain ⟨h1, _, _, _, h5, h6, h7, _, _⟩ := flushOut_spec s hO hlen
  unfold curEmitted
  rw [h1, h5, h6, h7, List.append_nil]
  exact slice_append_chunk s.rf.disk.data s.activeOut _ _ hlen.symm

theorem recordRun_zero (s : RGState) (h : s.totalElementsInRun = 0) :
    s.recordRun = .ok s := by
  unfold RGState.recordRun
  rw [if_pos h]

theorem recordRun_pos (s : RGState) (hpos : ¬s.totalElementsInRun = 0)
    (hSess : SessionInv s.rf) (h0 : 0 ≤ s.currentRunId)
    (hlt : s.currentRunId < (s.rf.header.maxRuns : Int)) :
    ∃ rf', s.recordRun = .ok
      { s with rf := rf'
               generatedRuns := s.generatedRuns ++
                 [⟨s.currentRunStartOffset, s.totalElementsInRun,
                   (s.rf.directory.getD s.currentRunId.toNat
                     RunMetadata.free).isUsed⟩] } ∧
      rf'.disk.data = s.rf.disk.data ∧
      rf'.header = s.rf.header ∧
      SessionInv rf' ∧ usedCount rf' = usedCount s.rf := by
  obtain ⟨hOpen, hMagic, hMax, hLen, hSync, hCnt⟩ := hSess
  have hu := updateRunMetadata_ok s.rf s.currentRunId
    s.currentRunStartOffset s.totalElementsInRun hOpen h0 hlt
  have hidLen : s.currentRunId.toNat < s.rf.directory.length := by omega
  refine ⟨(s.rf.updateRunMetadata s.currentRunId s.currentRunStartOffset
      s.totalElementsInRun).2, ?_, ?_, ?_, ?_, ?_⟩
  · unfold RGState.recordRun
    rw [if_neg hpos, hu]
    dsimp only
    unfold RunFile.getRunMetadata
    rw [if_neg (by dsimp only; push_neg; exact ⟨h0, hlt⟩)]
    dsimp only
    rw [getD_set_self _ _ _ _ hidLen]
  · rw [hu]
  · rw [hu]
  · exact sessionInv_update s.rf _ _ _ ⟨hOpen, hMagic, hMax, hLen, hSync, hCnt⟩
  · rw [hu]
    unfold usedCount
    dsimp only
    have hc := countP_set s.rf.directory s.currentRunId.toNat
      ⟨s.currentRunStartOffset, s.totalElementsInRun,
        (s.rf.directory.getD s.currentRunId.toNat RunMetadata.free).isUsed⟩
      RunMetadata.free (fun m => m.isUsed) hidLen
    simp only at hc
    omega

theorem startNewRun_spec (s : RGState) (hSess : SessionInv s.rf)
    (hfree : usedCount s.rf < s.rf.header.maxRuns) :
    SessionInv (s.startNewRun).rf ∧
    (s.startNewRun).rf.disk.data = s.rf.disk.data ∧
    (s.startNewRun).rf.header.maxRuns = s.rf.header.maxRuns ∧
    usedCount (s.startNewRun).rf = usedCount s.rf + 1 ∧
    0 ≤ (s.startNewRun).currentRunId ∧
    (s.startNewRun).currentRunId
      < ((s.startNewRun).rf.header.maxRuns : Int) ∧
    (s.startNewRun).currentRunStartOffset = s.rf.disk.data.length ∧
    (s.startNewRun).totalElementsInRun = 0 ∧
    (s.startNewRun).activeOut = s.activeOut ∧
    (s.startNewRun).generatedRuns = s.generatedRuns := by
  obtain ⟨i, hfind⟩ := find_free_slot s.rf hSess.2.2.2.1 hfree
  have hiLt : i < s.rf.header.maxRuns :=
    List.mem_range.mp (List.mem_of_find?_eq_some hfind)
  have hiFree : (s.rf.directory.getD i RunMetadata.free).isUsed = false := by
    simpa using List.find?_some hfind
  have hiLen : i < s.rf.directory.length := by
    have := hSess.2.2.2.1
    omega
  have ha := allocateNewRun_some s.rf i hSess.1 hfind
  have hInv1 := sessionInv_alloc s.rf hSess
  unfold RGState.startNewRun
  rw [ha] at hInv1 ⊢
  dsimp only
  refine ⟨hInv1, rfl, rfl, ?_, by omega, by exact_mod_cast hiLt, rfl, rfl,
    rfl, rfl⟩
  unfold usedCount
  dsimp only
  have hc := countP_set s.rf.directory i ⟨0, 0, true⟩ RunMetadata.free
    (fun m => m.isUsed) hiLen
  simp only [hiFree, Bool.false_eq_true, if_false, if_true] at hc
  omega

theorem pushOut_spec (s : RGState) (bufSize : Nat) (v : Int)
    (hO : s.rf.isOpen = true)
    (hlen : s.rf.disk.data.length
      = s.currentRunStartOffset + s.totalElementsInRun) :
    curEmitted (s.pushOut bufSize v) = curEmitted s ++ [v] ∧
    (∃ vs, (s.pushOut bufSize v).rf.disk.data = s.rf.disk.data ++ vs) ∧
    (s.pushOut bufSize v).rf.header = s.rf.header ∧
    (s.pushOut bufSize v).rf.directory = s.rf.directory ∧
    (s.pushOut bufSize v).rf.isOpen = s.rf.isOpen ∧
    (s.pushOut bufSize v).rf.disk.data.length
      = (s.pushOut bufSize v).currentRunStartOffset
        + (s.pushOut bufSize v).totalElementsInRun ∧
    (s.pushOut bufSize v).currentRunStartOffset = s.currentRunStartOffset ∧
    (s.pushOut bufSize v).currentRunId = s.currentRunId ∧
    (s.pushOut bufSize v).generatedRuns = s.generatedRuns := by
  unfold RGState.pushOut
  set s1 : RGState := { s with activeOut := s.activeOut ++ [v] } with hs1
  have hO1 : s1.rf.isOpen = true := hO
  have hlen1 : s1.rf.disk.data.length
      = s1.currentRunStartOffset + s1.totalElementsInRun := hlen
  have hce1 : curEmitted s1 = curEmitted s ++ [v] := by
    unfold curEmitted
    rw [hs1]
    rw [List.append_assoc]
  by_cases hfull : bufSize ≤ s1.activeOut.length
  · rw [if_pos hfull]
    obtain ⟨f1, f2, f3, f4, f5, f6, f7, f8, f9⟩ := flushOut_spec s1 hO1 hlen1
    refine ⟨?_, ⟨s1.activeOut, f1⟩, f2, f3, f4, ?_, ?_, f8, f9⟩
    · rw [curEmitted_flushOut s1 hO1 hlen1, hce1]
    · rw [f1, f5, f6, List.length_append]
      show s.rf.disk.data.length + s1.activeOut.length = _
      have e1 : s1.currentRunStartOffset = s.currentRunStartOffset := rfl
      have e2 : s1.totalElementsInRun = s.totalElementsInRun := rfl
      rw [e1, e2]
      omega
    · rw [f5]
  · rw [if_neg hfull]
    exact ⟨hce1, ⟨[], by rw [List.append_nil]⟩, rfl, rfl, rfl, hlen, rfl,
      rfl, rfl⟩

/-- Combined effect of flushing the pending block and recording the
current run (the body of step C.1–C.3 and of the epilogue). -/
theorem sealRun_spec (s : RGState)
    (hSess : SessionInv s.rf)
    (hlen : s.rf.disk.data.length
      = s.currentRunStartOffset + s.totalElementsInRun)
    (h0 : 0 ≤ s.currentRunId)
    (hlt : s.currentRunId < (s.rf.header.maxRuns : Int))
    (hruns : ∀ m ∈ s.generatedRuns,
      m.startOffset + m.elementCount ≤ s.rf.disk.data.length ∧
      List.Sorted (· ≤ ·) (readRun s.rf m) ∧ 0 < m.elementCount)
    (hsorted : List.Sorted (· ≤ ·) (curEmitted s)) :
    ∃ s2, (s.flushOut).recordRun = .ok s2 ∧
      SessionInv s2.rf ∧
      s2.rf.header.maxRuns = s.rf.header.maxRuns ∧
      s2.rf.disk.data = s.rf.disk.data ++ s.activeOut ∧
      (∀ m ∈ s2.generatedRuns,
        m.startOffset + m.elementCount ≤ s2.rf.disk.data.length ∧
        List.Sorted (· ≤ ·) (readRun s2.rf m) ∧ 0 < m.elementCount) ∧
      (s2.generatedRuns.map (fun m => (readRun s2.rf m : Multiset Int))).sum
        = (s.generatedRuns.map
            (fun m => (readRun s.rf m : Multiset Int))).sum
          + (curEmitted s : Multiset Int) ∧
      usedCount s2.rf = usedCount s.rf ∧
      s2.generatedRuns.length ≤ s.generatedRuns.length + 1 ∧
      s2.currentRunId = s.currentRunId ∧
      s2.currentRunStartOffset = s.currentRunStartOffset ∧
      s2.rf.disk.data.length
        = s2.currentRunStartOffset + s2.totalElementsInRun ∧
      s2.activeOut = [] := by
  obtain ⟨f1, f2, f3, f4, f5, f6, f7, f8, f9⟩ := flushOut_spec s hSess.1 hlen
  have hSess1 : SessionInv (s.flushOut).rf := flushOut_sessionInv s hSess
  have hce : curEmitted (s.flushOut) = curEmitted s :=
    curEmitted_flushOut s hSess.1 hlen
  have hlen1 : (s.flushOut).rf.disk.data.length
      = (s.flushOut).currentRunStartOffset
        + (s.flushOut).totalElementsInRun := by
    rw [f1, f5, f6, List.length_append]
    omega
  have hceq : curEmitted (s.flushOut)
      = slice (s.flushOut).rf.disk.data (s.flushOut).currentRunStartOffset
          (s.flushOut).totalElementsInRun := by
    unfold curEmitted
    rw [f7, List.append_nil]
  have hrunsPres : ∀ m ∈ s.generatedRuns,
      readRun (s.flushOut).rf m = readRun s.rf m := by
    intro m hm
    exact readRun_append s.rf (s.flushOut).rf m s.activeOut f1
      (hruns m hm).1
  have husedF : usedCount (s.flushOut).rf = usedCount s.rf := by
    unfold usedCount
    rw [f3]
  have hruns1 : ∀ m ∈ (s.flushOut).generatedRuns,
      m.startOffset + m.elementCount ≤ (s.flushOut).rf.disk.data.length ∧
      List.Sorted (· ≤ ·) (readRun (s.flushOut).rf m) ∧
      0 < m.elementCount := by
    rw [f9]
    intro m hm
    obtain ⟨hv, hs, hp⟩ := hruns m hm
    refine ⟨?_, ?_, hp⟩
    · rw [f1, List.length_append]
      omega
    · rw [hrunsPres m hm]
      exact hs
  have hmapPres :
      (s.flushOut).generatedRuns.map
        (fun m => (readRun (s.flushOut).rf m : Multiset Int))
      = s.generatedRuns.map (fun m => (readRun s.rf m : Multiset Int)) := by
    rw [f9]
    apply List.map_congr_left
    intro m hm
    rw [hrunsPres m hm]
  by_cases hz : (s.flushOut).totalElementsInRun = 0
  · have hceE : curEmitted s = [] := by
      rw [← hce, hceq, hz, slice_zero]
    refine ⟨s.flushOut, recordRun_zero _ hz, hSess1, by rw [f2], f1,
      hruns1, ?_, husedF, by rw [f9]; omega, f8, f5, hlen1, f7⟩
    rw [hmapPres, hceE]
    show _ = _ + (0 : Multiset Int)
    rw [add_zero]
  · have h01 : 0 ≤ (s.flushOut).currentRunId := by
      rw [f8]
      exact h0
    have hlt1 : (s.flushOut).currentRunId
        < ((s.flushOut).rf.header.maxRuns : Int) := by
      rw [f8, f2]
      exact hlt
    obtain ⟨rf', hrec, hd', hh', hSess', hused'⟩ :=
      recordRun_pos (s.flushOut) hz hSess1 h01 hlt1
    set m0 : RunMetadata :=
      ⟨(s.flushOut).currentRunStartOffset, (s.flushOut).totalElementsInRun,
        ((s.flushOut).rf.directory.getD (s.flushOut).currentRunId.toNat
          RunMetadata.free).isUsed⟩ with hm0
    have hreadm0 : readRun rf' m0 = curEmitted s := by
      show slice rf'.disk.data _ _ = _
      rw [hd', ← hce, hceq]
    refine ⟨_, hrec, hSess', ?_, ?_, ?_, ?_, ?_, ?_, f8, f5, ?_, f7⟩
    · show rf'.header.maxRuns = _
      rw [hh', f2]
    · show rf'.disk.data = _
      rw [hd', f1]
    · show ∀ m ∈ (s.flushOut).generatedRuns ++ [m0], _
      intro m hm
      rcases List.mem_append.mp hm with hm1 | hm2
      · obtain ⟨hv, hs, hp⟩ := hruns1 m hm1
        refine ⟨by rw [hd']; exact hv, ?_, hp⟩
        show List.Sorted _ (slice rf'.disk.data _ _)
        rw [hd']
        exact hs
      · rw [List.mem_singleton.mp hm2]
        refine ⟨?_, ?_, ?_⟩
        · show m0.startOffset + m0.elementCount ≤ rf'.disk.data.length
          rw [hd', hm0]
          dsimp only
          omega
        · rw [hreadm0]
          exact hsorted
        · show 0 < m0.elementCount
          rw [hm0]
          dsimp only
          omega
    · show ((((s.flushOut).generatedRuns ++ [m0]).map
          (fun m => (readRun rf' m : Multiset Int)))).sum = _
      rw [List.map_append, List.sum_append]
      have hmp : (s.flushOut).generatedRuns.map
          (fun m => (readRun rf' m : Multiset Int))
          = s.generatedRuns.map
              (fun m => (readRun s.rf m : Multiset Int)) := by
        rw [← hmapPres]
        apply List.map_congr_left
        intro m hm
        unfold readRun
        rw [hd']
      rw [hmp, List.map_cons, List.map_nil, List.sum_cons, List.sum_nil,
        add_zero, hreadm0]
    · show usedCount rf' = _
      rw [hused', husedF]
    · show ((s.flushOut).generatedRuns ++ [m0]).length ≤ _
      rw [List.length_append, f9, List.length_singleton]
    · show rf'.disk.data.length = _
      rw [hd']
      exact hlen1

theorem pushOut_sessionInv (s : RGState) (bufSize : Nat) (v : Int)
    (h : SessionInv s.rf) : SessionInv (s.pushOut bufSize v).rf := by
  unfold RGState.pushOut
  by_cases hfull : bufSize ≤ (s.activeOut ++ [v]).length
  · rw [if_pos hfull]
    exact flushOut_sessionInv _ h
  · rw [if_neg hfull]
    exact h

/-- The emit-and-replace tail of one `computeWorker` iteration (steps
D–E), given the invariant of the mid-iteration state (after the possible
run switch), with the slack produced by the switch.  `cur1` is the run id
being produced and the winner is live with that id. -/
theorem rgTail_spec (k : Nat) (iM : Multiset Int) (B : Int)
    (bufSize fuel : Nat)
    (ih : ∀ (lt : LoserTree) (cur : Int) (rest : List Int) (s : RGState),
      RGInv k iM B lt cur rest s →
      rest.length + (realVals k lt.leaves).card < fuel →
      ∃ runs rf2, rgLoop fuel bufSize lt cur rest s = .ok (runs, rf2) ∧
        SessionInv rf2 ∧ rf2.header.maxRuns = s.rf.header.maxRuns ∧
        (∀ m ∈ runs,
          m.startOffset + m.elementCount ≤ rf2.disk.data.length ∧
          List.Sorted (· ≤ ·) (readRun rf2 m) ∧ 0 < m.elementCount) ∧
        (runs.map (fun m => (readRun rf2 m : Multiset Int))).sum = iM ∧
        usedCount rf2 + runs.length ≤ s.rf.header.maxRuns + 1)
    (t : List Nat) (L : List RunNode) (cur1 : Int) (rest : List Int)
    (s1 : RGState)
    (hINV : INV k t L) (hk1 : 1 ≤ k) (hLlen : L.length = k + 1)
    (hSess : SessionInv s1.rf)
    (hdlen : s1.rf.disk.data.length
      = s1.currentRunStartOffset + s1.totalElementsInRun)
    (hid0 : 0 ≤ s1.currentRunId)
    (hidlt : s1.currentRunId < (s1.rf.header.maxRuns : Int))
    (hruns : ∀ m ∈ s1.generatedRuns,
      m.startOffset + m.elementCount ≤ s1.rf.disk.data.length ∧
      List.Sorted (· ≤ ·) (readRun s1.rf m) ∧ 0 < m.elementCount)
    (hsorted : List.Sorted (· ≤ ·) (curEmitted s1))
    (hdom : ∀ e ∈ curEmitted s1, ∀ i, i < k →
      (L.getD i SENTINEL).runID = cur1 → e ≤ (L.getD i SENTINEL).value)
    (hrid : ∀ i, i < k → (L.getD i SENTINEL).runID = intMax ∨
      (((L.getD i SENTINEL).runID = cur1 ∨
        (L.getD i SENTINEL).runID = cur1 + 1) ∧
       (L.getD i SENTINEL).runID < intMax))
    (hcur1 : 1 ≤ cur1)
    (hbudget : cur1 + ((rest.length : Int)
      + ((realVals k L).card : Int)) ≤ B + 1)
    (hBmax : B < intMax)
    (hfull : rest ≠ [] → (realVals k L).card = k)
    (hmul : (s1.generatedRuns.map
        (fun m => (readRun s1.rf m : Multiset Int))).sum
      + (curEmitted s1 : Multiset Int) + realVals k L
      + (rest : Multiset Int) = iM)
    (hused : usedCount s1.rf + s1.generatedRuns.length
      + 2 * (rest.length + (realVals k L).card)
      ≤ s1.rf.header.maxRuns + 2)
    (hWsent : ¬(L.getD (t.getD 0 0) SENTINEL).runID = intMax)
    (hWcur : (L.getD (t.getD 0 0) SENTINEL).runID = cur1)
    (hfuel : rest.length + (realVals k L).card < fuel + 1) :
    ∃ runs rf2,
      (match rest with
       | [] => rgLoop fuel bufSize
           (LoserTree.setWinnerToSentinel ⟨k, t, L⟩) cur1 []
           (s1.pushOut bufSize (L.getD (t.getD 0 0) SENTINEL).value)
       | v :: rest2 => rgLoop fuel bufSize
           (LoserTree.replaceWinner ⟨k, t, L⟩ v
             (if v < (L.getD (t.getD 0 0) SENTINEL).value then cur1 + 1
              else cur1))
           cur1 rest2
           (s1.pushOut bufSize (L.getD (t.getD 0 0) SENTINEL).value))
        = .ok (runs, rf2) ∧
      SessionInv rf2 ∧ rf2.header.maxRuns = s1.rf.header.maxRuns ∧
      (∀ m ∈ runs,
        m.startOffset + m.elementCount ≤ rf2.disk.data.length ∧
        List.Sorted (· ≤ ·) (readRun rf2 m) ∧ 0 < m.elementCount) ∧
      (runs.map (fun m => (readRun rf2 m : Multiset Int))).sum = iM ∧
      usedCount rf2 + runs.length ≤ s1.rf.header.maxRuns + 1 := by
  have hw0 : t.getD 0 0 < k := hINV.2.2.1
  have hmin := INV_winner_min k t L hINV
  -- the winner is a live slot, so at least one live slot exists
  have hrcpos : 1 ≤ (realVals k L).card := by
    have hmem1 : L.getD (t.getD 0 0) SENTINEL ∈ L.take k := by
      rw [← getD_take L k (t.getD 0 0) SENTINEL hw0]
      exact getD_mem_of_lt _ _ SENTINEL (by rw [List.length_take]; omega)
    have hmem2 : L.getD (t.getD 0 0) SENTINEL
        ∈ (L.take k).filter (fun nd => nd.runID ≠ intMax) :=
      List.mem_filter.mpr ⟨hmem1, by simpa using hWsent⟩
    have hmem3 : (L.getD (t.getD 0 0) SENTINEL).value
        ∈ ((L.take k).filter (fun nd => nd.runID ≠ intMax)).map
            RunNode.value :=
      List.mem_map_of_mem _ hmem2
    show 1 ≤ (realVals k L).card
    unfold realVals
    rw [Multiset.coe_card]
    exact List.length_pos.mpr (List.ne_nil_of_mem hmem3)
  -- effect of emitting the winner value
  obtain ⟨q1, ⟨vs, q2⟩, q3, q4, q5, q6, q7, q8, q9⟩ :=
    pushOut_spec s1 bufSize (L.getD (t.getD 0 0) SENTINEL).value
      hSess.1 hdlen
  have hS2 : SessionInv
      (s1.pushOut bufSize (L.getD (t.getD 0 0) SENTINEL).value).rf :=
    pushOut_sessionInv s1 bufSize _ hSess
  have hused2 : usedCount
      (s1.pushOut bufSize (L.getD (t.getD 0 0) SENTINEL).value).rf
      = usedCount s1.rf := by
    unfold usedCount
    rw [q4]
  have hmax2 :
      (s1.pushOut bufSize (L.getD (t.getD 0 0) SENTINEL).value).rf.header.maxRuns
      = s1.rf.header.maxRuns := by
    rw [q3]
  have hsorted2 : List.Sorted (· ≤ ·)
      (curEmitted (s1.pushOut bufSize
        (L.getD (t.getD 0 0) SENTINEL).value)) := by
    rw [q1]
    exact sorted_append_one _ _ hsorted
      (fun e he => hdom e he (t.getD 0 0) hw0 hWcur)
  have hruns2 : ∀ m ∈ (s1.pushOut bufSize
        (L.getD (t.getD 0 0) SENTINEL).value).generatedRuns,
      m.startOffset + m.elementCount
        ≤ (s1.pushOut bufSize
            (L.getD (t.getD 0 0) SENTINEL).value).rf.disk.data.length ∧
      List.Sorted (· ≤ ·) (readRun (s1.pushOut bufSize
        (L.getD (t.getD 0 0) SENTINEL).value).rf m) ∧
      0 < m.elementCount := by
    rw [q9]
    intro m hm
    obtain ⟨hv, hs, hp⟩ := hruns m hm
    refine ⟨?_, ?_, hp⟩
    · rw [q2, List.length_append]
      omega
    · rw [readRun_append s1.rf _ m vs q2 hv]
      exact hs
  have hSum2 : (s1.pushOut bufSize
        (L.getD (t.getD 0 0) SENTINEL).value).generatedRuns.map
        (fun m => (readRun (s1.pushOut bufSize
          (L.getD (t.getD 0 0) SENTINEL).value).rf m : Multiset Int))
      = s1.generatedRuns.map
          (fun m => (readRun s1.rf m : Multiset Int)) := by
    rw [q9]
    apply List.map_congr_left
    intro m hm
    rw [readRun_append s1.rf _ m vs q2 (hruns m hm).1]
  have hcurlt : cur1 < intMax := by omega
  -- the dominance hypothesis extended by the emitted value
  have hdom2 : ∀ e ∈ curEmitted s1
        ++ [(L.getD (t.getD 0 0) SENTINEL).value], ∀ i, i < k →
      (L.getD i SENTINEL).runID = cur1 → e ≤ (L.getD i SENTINEL).value := by
    intro e he i hi hr
    rcases List.mem_append.mp he with he1 | he2
    · exact hdom e he1 i hi hr
    · rw [List.mem_singleton.mp he2]
      have hm := hmin i hi
      unfold lexLE at hm
      rcases hm with hlt2 | ⟨heq, hle⟩
      · rw [hWcur, hr] at hlt2
        omega
      · exact hle
  cases rest with
  | nil =>
    have hset := realVals_set k L (t.getD 0 0) hw0 (by omega) SENTINEL
    rw [realVal1_sentinel, realVal1_real _ hWsent, add_zero] at hset
    have hcard := congrArg Multiset.card hset
    rw [Multiset.card_add, Multiset.card_singleton] at hcard
    have hlv : (LoserTree.setWinnerToSentinel ⟨k, t, L⟩).leaves
        = L.set (t.getD 0 0) SENTINEL := rfl
    have hInv2 : RGInv k iM B (LoserTree.setWinnerToSentinel ⟨k, t, L⟩)
        cur1 []
        (s1.pushOut bufSize (L.getD (t.getD 0 0) SENTINEL).value) := by
      unfold RGInv
      rw [hlv]
      refine ⟨hS2, rfl, hk1, ?_, ?_, q6, by rw [q8]; exact hid0,
        by rw [q8, q3]; exact hidlt, hruns2, hsorted2, ?_, ?_, hcur1, ?_,
        hBmax, ?_, ?_, ?_⟩
      · exact replay_preserves_INV k (t.getD 0 0) t L
          (L.set (t.getD 0 0) SENTINEL) hINV rfl (by simp [hLlen])
          (fun i hi hiw => getD_set_ne L _ i SENTINEL SENTINEL
            (fun he => hiw he.symm))
      · rw [List.length_set]
        exact hLlen
      · -- dominance for the new leaves
        rw [q1]
        intro e he i hi hr
        by_cases hiw : i = t.getD 0 0
        · exfalso
          rw [hiw, getD_set_self _ _ _ _ (by omega)] at hr
          have hsrid : SENTINEL.runID = intMax := rfl
          rw [hsrid] at hr
          omega
        · rw [getD_set_ne L _ i SENTINEL SENTINEL
            (fun he2 => hiw he2.symm)] at hr ⊢
          exact hdom2 e he i hi hr
      · -- run-id discipline
        intro i hi
        by_cases hiw : i = t.getD 0 0
        · left
          rw [hiw, getD_set_self _ _ _ _ (by omega)]
          rfl
        · rw [getD_set_ne L _ i SENTINEL SENTINEL
            (fun he2 => hiw he2.symm)]
          exact hrid i hi
      · -- budget
        simp only [List.length_nil, Nat.cast_zero]
        rw [List.length_nil] at hbudget
        push_cast at hbudget ⊢
        omega
      · intro h
        exact absurd rfl h
      · -- multiset conservation
        rw [hSum2, q1, ← Multiset.coe_add, Multiset.coe_singleton,
          Multiset.coe_nil]
        rw [Multiset.coe_nil] at hmul
        have key : (s1.generatedRuns.map
              (fun m => (readRun s1.rf m : Multiset Int))).sum
            + ((curEmitted s1 : Multiset Int)
              + {(L.getD (t.getD 0 0) SENTINEL).value})
            + realVals k (L.set (t.getD 0 0) SENTINEL) + 0
            = (s1.generatedRuns.map
                (fun m => (readRun s1.rf m : Multiset Int))).sum
              + (curEmitted s1 : Multiset Int)
              + (realVals k (L.set (t.getD 0 0) SENTINEL)
                + {(L.getD (t.getD 0 0) SENTINEL).value}) + 0 := by
          abel
        rw [key, hset]
        exact hmul
      · -- directory budget
        rw [hused2, q9, hmax2, List.length_nil]
        rw [List.length_nil] at hused
        omega
    have hfuel2 : ([] : List Int).length
        + (realVals k
            (LoserTree.setWinnerToSentinel ⟨k, t, L⟩).leaves).card
        < fuel := by
      rw [hlv, List.length_nil]
      rw [List.length_nil] at hfuel
      omega
    obtain ⟨runs, rf2, heq, hS, hM, hR, hSum1, hU⟩ :=
      ih (LoserTree.setWinnerToSentinel ⟨k, t, L⟩) cur1 []
        (s1.pushOut bufSize (L.getD (t.getD 0 0) SENTINEL).value)
        hInv2 hfuel2
    refine ⟨runs, rf2, heq, hS, ?_, hR, hSum1, ?_⟩
    · rw [hM, hmax2]
    · rw [hmax2] at hU
      exact hU
  | cons v rest2 =>
    have hlen1 : (v :: rest2).length = rest2.length + 1 := rfl
    rw [hlen1] at hbudget hused hfuel
    have hrestk := hfull (by simp)
    have hc1i : cur1 + 1 < intMax := by
      push_cast at hbudget
      omega
    have htaglt : (if v < (L.getD (t.getD 0 0) SENTINEL).value
        then cur1 + 1 else cur1) < intMax := by
      split <;> omega
    have hset := realVals_set k L (t.getD 0 0) hw0 (by omega)
      ⟨v, if v < (L.getD (t.getD 0 0) SENTINEL).value then cur1 + 1
          else cur1⟩
    rw [realVal1_real _ hWsent, realVal1_real _ (by
      show ¬(if v < (L.getD (t.getD 0 0) SENTINEL).value then cur1 + 1
        else cur1) = intMax
      omega)] at hset
    have hcard := congrArg Multiset.card hset
    rw [Multiset.card_add, Multiset.card_add, Multiset.card_singleton,
      Multiset.card_singleton] at hcard
    have hlv : (LoserTree.replaceWinner ⟨k, t, L⟩ v
        (if v < (L.getD (t.getD 0 0) SENTINEL).value then cur1 + 1
         else cur1)).leaves
        = L.set (t.getD 0 0)
            ⟨v, if v < (L.getD (t.getD 0 0) SENTINEL).value then cur1 + 1
                else cur1⟩ := rfl
    have hInv2 : RGInv k iM B
        (LoserTree.replaceWinner ⟨k, t, L⟩ v
          (if v < (L.getD (t.getD 0 0) SENTINEL).value then cur1 + 1
           else cur1))
        cur1 rest2
        (s1.pushOut bufSize (L.getD (t.getD 0 0) SENTINEL).value) := by
      unfold RGInv
      rw [hlv]
      refine ⟨hS2, rfl, hk1, ?_, ?_, q6, by rw [q8]; exact hid0,
        by rw [q8, q3]; exact hidlt, hruns2, hsorted2, ?_, ?_, hcur1, ?_,
        hBmax, ?_, ?_, ?_⟩
      · exact replay_preserves_INV k (t.getD 0 0) t L
          (L.set (t.getD 0 0) _) hINV rfl (by simp [hLlen])
          (fun i hi hiw => getD_set_ne L _ i _ SENTINEL
            (fun he => hiw he.symm))
      · rw [List.length_set]
        exact hLlen
      · -- dominance for the new leaves
        rw [q1]
        intro e he i hi hr
        by_cases hiw : i = t.getD 0 0
        · rw [hiw, getD_set_self _ _ _ _ (by omega)] at hr ⊢
          by_cases hv : v < (L.getD (t.getD 0 0) SENTINEL).value
          · exfalso
            rw [if_pos hv] at hr
            have hrr : (RunNode.mk v (cur1 + 1)).runID = cur1 + 1 := rfl
            rw [hrr] at hr
            omega
          · have hev : e ≤ (L.getD (t.getD 0 0) SENTINEL).value :=
              hdom2 e he (t.getD 0 0) hw0 hWcur
            have hvv : ((RunNode.mk v (if v < (L.getD (t.getD 0 0)
                SENTINEL).value then cur1 + 1 else cur1)).value) = v := rfl
            rw [hvv]
            omega
        · rw [getD_set_ne L _ i _ SENTINEL
            (fun he2 => hiw he2.symm)] at hr ⊢
          exact hdom2 e he i hi hr
      · -- run-id discipline
        intro i hi
        by_cases hiw : i = t.getD 0 0
        · right
          rw [hiw, getD_set_self _ _ _ _ (by omega)]
          constructor
          · show (if v < (L.getD (t.getD 0 0) SENTINEL).value
                then cur1 + 1 else cur1) = cur1 ∨
              (if v < (L.getD (t.getD 0 0) SENTINEL).value
                then cur1 + 1 else cur1) = cur1 + 1
            split
            · right
              rfl
            · left
              rfl
          · exact htaglt
        · rw [getD_set_ne L _ i _ SENTINEL (fun he2 => hiw he2.symm)]
          exact hrid i hi
      · -- budget
        push_cast at hbudget ⊢
        omega
      · -- fullness
        intro hne
        omega
      · -- multiset conservation
        rw [hSum2, q1, ← Multiset.coe_add, Multiset.coe_singleton]
        rw [← Multiset.cons_coe, ← Multiset.singleton_add] at hmul
        have key : (s1.generatedRuns.map
              (fun m => (readRun s1.rf m : Multiset Int))).sum
            + ((curEmitted s1 : Multiset Int)
              + {(L.getD (t.getD 0 0) SENTINEL).value})
            + realVals k (L.set (t.getD 0 0)
                ⟨v, if v < (L.getD (t.getD 0 0) SENTINEL).value
                    then cur1 + 1 else cur1⟩)
            + (rest2 : Multiset Int)
            = (s1.generatedRuns.map
                (fun m => (readRun s1.rf m : Multiset Int))).sum
              + (curEmitted s1 : Multiset Int)
              + (realVals k (L.set (t.getD 0 0)
                  ⟨v, if v < (L.getD (t.getD 0 0) SENTINEL).value
                      then cur1 + 1 else cur1⟩)
                + {(L.getD (t.getD 0 0) SENTINEL).value})
              + (rest2 : Multiset Int) := by
          abel
        rw [key, hset]
        have key2 : (s1.generatedRuns.map
              (fun m => (readRun s1.rf m : Multiset Int))).sum
            + (curEmitted s1 : Multiset Int)
            + (realVals k L + {v}) + (rest2 : Multiset Int)
            = (s1.generatedRuns.map
                (fun m => (readRun s1.rf m : Multiset Int))).sum
              + (curEmitted s1 : Multiset Int) + realVals k L
              + ({v} + (rest2 : Multiset Int)) := by
          abel
        rw [key2]
        exact hmul
      · -- directory budget
        rw [hused2, q9, hmax2]
        omega
    have hfuel2 : rest2.length
        + (realVals k (LoserTree.replaceWinner ⟨k, t, L⟩ v
            (if v < (L.getD (t.getD 0 0) SENTINEL).value then cur1 + 1
             else cur1)).leaves).card < fuel := by
      rw [hlv]
      omega
    obtain ⟨runs, rf2, heq, hS, hM, hR, hSum1, hU⟩ :=
      ih (LoserTree.replaceWinner ⟨k, t, L⟩ v
          (if v < (L.getD (t.getD 0 0) SENTINEL).value then cur1 + 1
           else cur1)) cur1 rest2
        (s1.pushOut bufSize (L.getD (t.getD 0 0) SENTINEL).value)
        hInv2 hfuel2
    refine ⟨runs, rf2, heq, hS, ?_, hR, hSum1, ?_⟩
    · rw [hM, hmax2]
    · rw [hmax2] at hU
      exact hU

/-- Full characterisation of the `computeWorker` loop: starting from any
state satisfying the invariant, it terminates with `.ok`, and the
recorded runs are valid, sorted on disk, non-empty, and together carry
exactly the input multiset. -/
theorem rgLoop_spec (k : Nat) (iM : Multiset Int) (B : Int)
    (bufSize : Nat) :
    ∀ (fuel : Nat) (lt : LoserTree) (cur : Int) (rest : List Int)
      (s : RGState),
      RGInv k iM B lt cur rest s →
      rest.length + (realVals k lt.leaves).card < fuel →
      ∃ runs rf2, rgLoop fuel bufSize lt cur rest s = .ok (runs, rf2) ∧
        SessionInv rf2 ∧ rf2.header.maxRuns = s.rf.header.maxRuns ∧
        (∀ m ∈ runs,
          m.startOffset + m.elementCount ≤ rf2.disk.data.length ∧
          List.Sorted (· ≤ ·) (readRun rf2 m) ∧ 0 < m.elementCount) ∧
        (runs.map (fun m => (readRun rf2 m : Multiset Int))).sum = iM ∧
        usedCount rf2 + runs.length ≤ s.rf.header.maxRuns + 1 := by
  intro fuel
  induction fuel with
  | zero =>
    intro lt cur rest s hInv hfuel
    omega
  | succ fuel ih =>
    intro lt cur rest s hInv hfuel
    obtain ⟨kk, t, L⟩ := lt
    obtain ⟨hSess, hkk, hk1, hINV, hLlen, hdlen, hid0, hidlt, hruns,
      hsorted, hdom, hrid, hcur1, hbudget, hBmax, hfull, hmul, hused⟩ :=
      hInv
    dsimp only at hkk hINV hLlen hdom hrid hbudget hfull hmul hused hfuel
    subst hkk
    have hw0 : t.getD 0 0 < kk := hINV.2.2.1
    have hmin := INV_winner_min kk t L hINV
    by_cases hsent : (L.getD (t.getD 0 0) SENTINEL).runID = intMax
    · -- the winner is the sentinel: the tree is empty, finish up
      have hallsent : ∀ i, i < kk → (L.getD i SENTINEL).runID = intMax := by
        intro i hi
        rcases hrid i hi with h | ⟨hc, hl⟩
        · exact h
        · exfalso
          have hm := hmin i hi
          unfold lexLE at hm
          rcases hm with h2 | ⟨h2, _⟩
          · rw [hsent] at h2
            omega
          · rw [hsent] at h2
            omega
      have hrv0 : realVals kk L = 0 := realVals_zero kk L hallsent (by omega)
      have hrc0 : (realVals kk L).card = 0 := by
        rw [hrv0]
        rfl
      have hrestnil : rest = [] := by
        by_contra hne
        have := hfull hne
        omega
      obtain ⟨s2, hseal, hS2, hmax2, hdata2, hruns2, hsum2, hused2, hlen2,
        hid2, hstart2, hdlen2, hao2⟩ :=
        sealRun_spec s hSess hdlen hid0 hidlt hruns hsorted
      refine ⟨s2.generatedRuns, s2.rf, ?_, hS2, hmax2, hruns2, ?_, ?_⟩
      · simp only [rgLoop]
        dsimp only [LoserTree.getWinner]
        rw [if_pos hsent, hseal]
      · rw [hsum2]
        have hmul2 := hmul
        rw [hrestnil, Multiset.coe_nil, hrv0, add_zero, add_zero] at hmul2
        exact hmul2
      · omega
    · -- the winner is live
      have hWin := hrid (t.getD 0 0) hw0
      rcases hWin with h | ⟨hWio, hWilt⟩
      · exact absurd h hsent
      by_cases hsw : cur < (L.getD (t.getD 0 0) SENTINEL).runID
      · -- run switch (step C): seal the current run, open a new one
        have hrcpos : 1 ≤ (realVals kk L).card := by
          have hmem1 : L.getD (t.getD 0 0) SENTINEL ∈ L.take kk := by
            rw [← getD_take L kk (t.getD 0 0) SENTINEL hw0]
            exact getD_mem_of_lt _ _ SENTINEL
              (by rw [List.length_take]; omega)
          have hmem2 : L.getD (t.getD 0 0) SENTINEL
              ∈ (L.take kk).filter (fun nd => nd.runID ≠ intMax) :=
            List.mem_filter.mpr ⟨hmem1, by simpa using hsent⟩
          have hmem3 : (L.getD (t.getD 0 0) SENTINEL).value
              ∈ ((L.take kk).filter (fun nd => nd.runID ≠ intMax)).map
                  RunNode.value :=
            List.mem_map_of_mem _ hmem2
          show 1 ≤ (realVals kk L).card
          unfold realVals
          rw [Multiset.coe_card]
          exact List.length_pos.mpr (List.ne_nil_of_mem hmem3)
        have hWid : (L.getD (t.getD 0 0) SENTINEL).runID = cur + 1 := by
          rcases hWio with h | h
          · omega
          · exact h
        obtain ⟨s2, hseal, hS2, hmax2, hdata2, hruns2, hsum2, hused2,
          hlen2, hid2, hstart2, hdlen2, hao2⟩ :=
          sealRun_spec s hSess hdlen hid0 hidlt hruns hsorted
        have hfree2 : usedCount s2.rf < s2.rf.header.maxRuns := by
          rw [hused2, hmax2]
          omega
        obtain ⟨gS, gD, gM, gU, gI0, gIlt, gSt, gT, gA, gR⟩ :=
          startNewRun_spec s2 hS2 hfree2
        have hceEmpty : curEmitted (s2.startNewRun) = [] := by
          unfold curEmitted
          rw [gT, slice_zero, gA, hao2]
          rfl
        have hruns3 : ∀ m ∈ (s2.startNewRun).generatedRuns,
            m.startOffset + m.elementCount
              ≤ (s2.startNewRun).rf.disk.data.length ∧
            List.Sorted (· ≤ ·) (readRun (s2.startNewRun).rf m) ∧
            0 < m.elementCount := by
          rw [gR]
          intro m hm
          obtain ⟨hv, hs, hp⟩ := hruns2 m hm
          refine ⟨by rw [gD]; exact hv, ?_, hp⟩
          show List.Sorted _ (slice (s2.startNewRun).rf.disk.data _ _)
          rw [gD]
          exact hs
        have hmul3 : ((s2.startNewRun).generatedRuns.map
              (fun m => (readRun (s2.startNewRun).rf m : Multiset Int))).sum
            + (curEmitted (s2.startNewRun) : Multiset Int)
            + realVals kk L + (rest : Multiset Int) = iM := by
          rw [hceEmpty, Multiset.coe_nil]
          have hmp : (s2.startNewRun).generatedRuns.map
              (fun m => (readRun (s2.startNewRun).rf m : Multiset Int))
              = s2.generatedRuns.map
                  (fun m => (readRun s2.rf m : Multiset Int)) := by
            rw [gR]
            apply List.map_congr_left
            intro m hm
            unfold readRun
            rw [gD]
          rw [hmp, hsum2, add_zero]
          have key : (s.generatedRuns.map
                (fun m => (readRun s.rf m : Multiset Int))).sum
              + (curEmitted s : Multiset Int) + realVals kk L
              + (rest : Multiset Int) = iM := hmul
          exact key
        have hrid3 : ∀ i, i < kk → (L.getD i SENTINEL).runID = intMax ∨
            (((L.getD i SENTINEL).runID
                = (L.getD (t.getD 0 0) SENTINEL).runID ∨
              (L.getD i SENTINEL).runID
                = (L.getD (t.getD 0 0) SENTINEL).runID + 1) ∧
             (L.getD i SENTINEL).runID < intMax) := by
          intro i hi
          rcases hrid i hi with h | ⟨hio, hilt⟩
          · exact Or.inl h
          · right
            refine ⟨?_, hilt⟩
            rcases hio with h | h
            · exfalso
              have hm := hmin i hi
              unfold lexLE at hm
              rcases hm with h2 | ⟨h2, _⟩
              · rw [hWid, h] at h2
                omega
              · rw [hWid, h] at h2
                omega
            · left
              rw [h, hWid]
        have hused3 : usedCount (s2.startNewRun).rf
            + (s2.startNewRun).generatedRuns.length
            + 2 * (rest.length + (realVals kk L).card)
            ≤ (s2.startNewRun).rf.header.maxRuns + 2 := by
          rw [gU, hused2, gM, hmax2, gR]
          omega
        obtain ⟨runs, rf2, heqT, hST, hMT, hRT, hSumT, hUT⟩ :=
          rgTail_spec kk iM B bufSize fuel ih t L
            ((L.getD (t.getD 0 0) SENTINEL).runID) rest (s2.startNewRun)
            hINV hk1 hLlen gS
            (by rw [gD, gSt, gT]; rfl)
            gI0 gIlt hruns3
            (by rw [hceEmpty]; exact List.sorted_nil)
            (by rw [hceEmpty]; intro e he; exact absurd he (by simp))
            hrid3 (by omega) (by rw [hWid]; omega) hBmax hfull hmul3
            hused3 hsent rfl hfuel
        refine ⟨runs, rf2, ?_, hST, ?_, hRT, hSumT, ?_⟩
        · show rgLoop (fuel + 1) bufSize ⟨kk, t, L⟩ cur rest s
            = .ok (runs, rf2)
          simp only [rgLoop]
          dsimp only [LoserTree.getWinner]
          rw [if_neg hsent]
          simp only [if_pos hsw]
          rw [hseal]
          dsimp only [Except.map]
          exact heqT
        · rw [hMT, gM, hmax2]
        · rw [gM, hmax2] at hUT
          exact hUT
      · -- no switch: the winner belongs to the current run
        have hWid : (L.getD (t.getD 0 0) SENTINEL).runID = cur := by
          rcases hWio with h | h
          · exact h
          · omega
        obtain ⟨runs, rf2, heqT, hST, hMT, hRT, hSumT, hUT⟩ :=
          rgTail_spec kk iM B bufSize fuel ih t L cur rest s
            hINV hk1 hLlen hSess hdlen hid0 hidlt hruns hsorted hdom hrid
            hcur1 (by omega) hBmax hfull hmul (by omega) hsent hWid hfuel
        refine ⟨runs, rf2, ?_, hST, hMT, hRT, hSumT, hUT⟩
        show rgLoop (fuel + 1) bufSize ⟨kk, t, L⟩ cur rest s
          = .ok (runs, rf2)
        simp only [rgLoop]
        dsimp only [LoserTree.getWinner]
        rw [if_neg hsent]
        simp only [if_neg hsw]
        exact heqT

theorem initTree_leaves_getD (k : Nat) (d : List Int) (i : Nat)
    (hi : i < k) :
    (LoserTree.initTree k d).leaves.getD i SENTINEL
      = if i < d.length then ⟨d.getD i 0, 1⟩ else SENTINEL := by
  show (((List.range k).map fun j =>
      if j < d.length then RunNode.mk (d.getD j 0) 1 else SENTINEL)
        ++ [SENTINEL]).getD i SENTINEL = _
  have hlen : ((List.range k).map fun j =>
      if j < d.length then RunNode.mk (d.getD j 0) 1
      else SENTINEL).length = k := by
    simp
  rw [getD_eq_getElem _ i (by rw [List.length_append, hlen]; simp; omega)
    SENTINEL]
  rw [List.getElem_append_left (by rw [hlen]; omega)]
  rw [List.getElem_map, List.getElem_range]

/-- `RunGenerator::generateRuns` on an open consistent run file with
enough directory room: it succeeds, and the generated runs are valid,
individually sorted, non-empty, and together hold exactly the input
file's elements.  The size bound keeps every run id below the sentinel
id `INT_MAX` (beyond it the C++ `int` run ids would overflow). -/
theorem generateRuns_spec (k bufSize : Nat) (input : List Int)
    (rf : RunFile) (hk : 1 ≤ k) (hSess : SessionInv rf)
    (hroom : usedCount rf + 2 * input.length + 1 ≤ rf.header.maxRuns)
    (hsize : (input.length : Int) + 2 < intMax) :
    ∃ runs rf2, generateRuns k bufSize input rf = .ok (runs, rf2) ∧
      SessionInv rf2 ∧ rf2.header.maxRuns = rf.header.maxRuns ∧
      (∀ m ∈ runs,
        m.startOffset + m.elementCount ≤ rf2.disk.data.length ∧
        List.Sorted (· ≤ ·) (readRun rf2 m) ∧ 0 < m.elementCount) ∧
      (runs.map (fun m => (readRun rf2 m : Multiset Int))).sum
        = (input : Multiset Int) ∧
      usedCount rf2 + runs.length ≤ rf.header.maxRuns + 1 := by
  obtain ⟨i, hfind⟩ := find_free_slot rf hSess.2.2.2.1 (by omega)
  have ha := allocateNewRun_some rf i hSess.1 hfind
  have hiLt : i < rf.header.maxRuns :=
    List.mem_range.mp (List.mem_of_find?_eq_some hfind)
  have hiFree : (rf.directory.getD i RunMetadata.free).isUsed = false := by
    simpa using List.find?_some hfind
  have hiLen : i < rf.directory.length := by
    have := hSess.2.2.2.1
    omega
  have hS1 : SessionInv (rf.allocateNewRun).2 := sessionInv_alloc rf hSess
  have hM1 : (rf.allocateNewRun).2.header.maxRuns = rf.header.maxRuns := by
    rw [ha]
  have hU1 : usedCount (rf.allocateNewRun).2 = usedCount rf + 1 := by
    rw [ha]
    unfold usedCount
    dsimp only
    have hc := countP_set rf.directory i ⟨0, 0, true⟩ RunMetadata.free
      (fun m => m.isUsed) hiLen
    simp only [hiFree, Bool.false_eq_true, if_false, if_true] at hc
    omega
  have hI0 : 0 ≤ (rf.allocateNewRun).1 := by
    rw [ha]
    dsimp only
    omega
  have hIlt : (rf.allocateNewRun).1
      < ((rf.allocateNewRun).2.header.maxRuns : Int) := by
    rw [ha]
    dsimp only
    exact_mod_cast hiLt
  have hce0 : curEmitted ⟨(rf.allocateNewRun).2, (rf.allocateNewRun).1,
      (rf.allocateNewRun).2.getAppendOffset, 0, [], []⟩ = [] := by
    show slice (rf.allocateNewRun).2.disk.data
      (rf.allocateNewRun).2.getAppendOffset 0 ++ [] = []
    rw [slice_zero]
    rfl
  have hcard0 : (realVals k
      (LoserTree.initTree k (input.take k)).leaves).card
      = (input.take k).length := by
    rw [realVals_init k _ (by rw [List.length_take]; omega)]
    exact Multiset.coe_card _
  have hInv0 : RGInv k (input : Multiset Int) ((input.length : Int) + 1)
      (LoserTree.initTree k (input.take k)) 1 (input.drop k)
      ⟨(rf.allocateNewRun).2, (rf.allocateNewRun).1,
        (rf.allocateNewRun).2.getAppendOffset, 0, [], []⟩ := by
    refine ⟨hS1, rfl, hk, initTree_INV k _ hk, initTree_leaves_len k _,
      rfl, hI0, hIlt, ?_, ?_, ?_, ?_, le_refl 1, ?_, ?_, ?_, ?_, ?_⟩
    · intro m hm
      simp at hm
    · rw [hce0]
      exact List.sorted_nil
    · rw [hce0]
      intro e he
      exact absurd he (by simp)
    · intro i2 hi2
      rw [initTree_leaves_getD k _ i2 hi2]
      split
      · right
        refine ⟨Or.inl rfl, ?_⟩
        show (1 : Int) < intMax
        decide
      · left
        rfl
    · -- budget
      rw [hcard0, List.length_drop, List.length_take]
      push_cast
      omega
    · -- the budget is below the sentinel id
      omega
    · -- while input remains, the tree is full
      intro hne
      have hk2 : k < input.length := by
        by_contra hco
        push_neg at hco
        exact hne (List.drop_eq_nil_iff.mpr hco)
      rw [hcard0, List.length_take]
      omega
    · -- multiset conservation at entry
      show (([] : List RunMetadata).map _).sum + _ + _ + _ = _
      rw [List.map_nil, List.sum_nil, hce0, Multiset.coe_nil, add_zero,
        zero_add]
      rw [realVals_init k _ (by rw [List.length_take]; omega)]
      rw [Multiset.coe_add, List.take_append_drop]
    · -- directory budget at entry
      show usedCount (rf.allocateNewRun).2
        + ([] : List RunMetadata).length + _ ≤ _
      rw [hU1, List.length_nil, hM1, hcard0, List.length_drop,
        List.length_take]
      omega
  have hfuel0 : (input.drop k).length
      + (realVals k (LoserTree.initTree k (input.take k)).leaves).card
      < input.length + 1 := by
    rw [hcard0, List.length_drop, List.length_take]
    omega
  obtain ⟨runs, rf2, heq, hSe, hMe, hRe, hSume, hUe⟩ :=
    rgLoop_spec k (input : Multiset Int) ((input.length : Int) + 1)
      bufSize (input.length + 1)
      (LoserTree.initTree k (input.take k)) 1 (input.drop k)
      ⟨(rf.allocateNewRun).2, (rf.allocateNewRun).1,
        (rf.allocateNewRun).2.getAppendOffset, 0, [], []⟩
      hInv0 hfuel0
  refine ⟨runs, rf2, ?_, hSe, ?_, hRe, hSume, ?_⟩
  · show generateRuns k bufSize input rf = .ok (runs, rf2)
    simp only [generateRuns]
    exact heq
  · rw [hMe]
    exact hM1
  · rw [hM1] at hUe
    exact hUe

/-- The two phases composed: run generation followed by the optimal
merge, with all the facts the three pipeline claims need. -/
theorem pipeline_spec (k bufSize : Nat) (input : List Int)
    (rf : RunFile) (hk : 1 ≤ k) (hSess : SessionInv rf)
    (hroom : usedCount rf + 2 * input.length + 1 ≤ rf.header.maxRuns)
    (hsize : (input.length : Int) + 2 < intMax) (hne : input ≠ []) :
    ∃ runs rf2 final rf3,
      generateRuns k bufSize input rf = .ok (runs, rf2) ∧
      externalMergeSort runs rf2 = .ok (final, rf3) ∧
      (∀ m ∈ runs,
        m.startOffset + m.elementCount ≤ rf2.disk.data.length ∧
        List.Sorted (· ≤ ·) (readRun rf2 m) ∧ 0 < m.elementCount) ∧
      final.startOffset + final.elementCount ≤ rf3.disk.data.length ∧
      List.Sorted (· ≤ ·) (readRun rf3 final) ∧
      (runs.map (fun m => (readRun rf2 m : Multiset Int))).sum
        = (input : Multiset Int) ∧
      (readRun rf3 final : Multiset Int) = (input : Multiset Int) ∧
      (runs.map (fun m => m.elementCount)).sum = input.length ∧
      final.elementCount = input.length := by
  obtain ⟨runs, rf2, hgen, hS2, hM2, hR2, hSum2g, hU2⟩ :=
    generateRuns_spec k bufSize input rf hk hSess hroom hsize
  have hrne : runs ≠ [] := by
    intro h
    rw [h] at hSum2g
    simp only [List.map_nil, List.sum_nil] at hSum2g
    have hc := congrArg Multiset.card hSum2g
    rw [Multiset.card_zero, Multiset.coe_card] at hc
    exact hne (List.length_eq_zero.mp hc.symm)
  have hHeap : HeapOK rf2 runs := by
    intro m hm
    exact ⟨(hR2 m hm).1, (hR2 m hm).2.1⟩
  have hfree : usedCount rf2 + (runs.length - 1) ≤ rf2.header.maxRuns := by
    rw [hM2]
    have hl : 1 ≤ runs.length := List.length_pos.mpr hrne
    omega
  obtain ⟨final, rf3, hems, hvF, hsF, hcF, hmF⟩ :=
    externalMergeSortLoop_spec (runs.length + 1) runs rf2 hS2 hHeap hrne
      hfree (by omega)
  have hcounts : (runs.map (fun m => m.elementCount)).sum
      = input.length := by
    have hc := congrArg Multiset.card hSum2g
    rw [msum_card, Multiset.coe_card, List.map_map] at hc
    have hmapeq : runs.map
        (Multiset.card ∘ fun m => (readRun rf2 m : Multiset Int))
        = runs.map (fun m => m.elementCount) := by
      apply List.map_congr_left
      intro m hm
      show ((readRun rf2 m : Multiset Int)).card = m.elementCount
      rw [Multiset.coe_card]
      exact slice_length _ _ _ (hR2 m hm).1
    rw [hmapeq] at hc
    exact hc
  refine ⟨runs, rf2, final, rf3, hgen, ?_, hR2, hvF, hsF, hSum2g, ?_,
    hcounts, ?_⟩
  · unfold externalMergeSort
    exact hems
  · rw [hmF, hSum2g]
  · rw [hcF, hcounts]

/-- C1: for every input file, every run produced by phase 1
(`generateRuns`) and the final run produced by phase 2
(`externalMergeSort`), read back element by element through an
`InputBuffer`, yields a non-decreasing sequence. -/
theorem perRun_monotone (k bufSize ibSize : Nat) (input : List Int)
    (rf : RunFile) (hk : 1 ≤ k) (hb : 0 < ibSize) (hSess : SessionInv rf)
    (hroom : usedCount rf + 2 * input.length + 1 ≤ rf.header.maxRuns)
    (hsize : (input.length : Int) + 2 < intMax) (hne : input ≠ []) :
    ∃ runs rf2 final rf3,
      generateRuns k bufSize input rf = .ok (runs, rf2) ∧
      externalMergeSort runs rf2 = .ok (final, rf3) ∧
      (∀ m ∈ runs, List.Sorted (· ≤ ·)
        (readBackThroughInputBuffer rf2 m ibSize)) ∧
      List.Sorted (· ≤ ·) (readBackThroughInputBuffer rf3 final ibSize) := by
  obtain ⟨runs, rf2, final, rf3, hgen, hems, hR2, hvF, hsF, _, _, _, _⟩ :=
    pipeline_spec k bufSize input rf hk hSess hroom hsize hne
  refine ⟨runs, rf2, final, rf3, hgen, hems, ?_, ?_⟩
  · intro m hm
    rw [readBack_eq rf2 m ibSize hb (hR2 m hm).1]
    exact (hR2 m hm).2.1
  · rw [readBack_eq rf3 final ibSize hb hvF]
    exact hsF

/-- Closed witness for C1: a three-element file sorted through a
two-slot tree. -/
theorem perRun_monotone_witness :
    (1 ≤ 2 ∧ 0 < 4 ∧ SessionInv (freshRF 12) ∧
     usedCount (freshRF 12) + 2 * ([3, 1, 2] : List Int).length + 1
       ≤ (freshRF 12).header.maxRuns ∧
     (([3, 1, 2] : List Int).length : Int) + 2 < intMax ∧
     ([3, 1, 2] : List Int) ≠ []) ∧
    (∃ runs rf2 final rf3,
      generateRuns 2 4 [3, 1, 2] (freshRF 12) = .ok (runs, rf2) ∧
      externalMergeSort runs rf2 = .ok (final, rf3) ∧
      (∀ m ∈ runs, List.Sorted (· ≤ ·)
        (readBackThroughInputBuffer rf2 m 4)) ∧
      List.Sorted (· ≤ ·) (readBackThroughInputBuffer rf3 final 4)) :=
  ⟨⟨by decide, by decide, sessionInv_fresh 12, by decide, by decide,
    by decide⟩,
   perRun_monotone 2 4 4 [3, 1, 2] (freshRF 12) (by decide) (by decide)
     (sessionInv_fresh 12) (by decide) (by decide) (by decide)⟩

/-- C2: the multiset of elements in the final run returned by
`externalMergeSort (generateRuns input)` equals the multiset of elements
of the input file. -/
theorem externalSort_permutation (k bufSize : Nat) (input : List Int)
    (rf : RunFile) (hk : 1 ≤ k) (hSess : SessionInv rf)
    (hroom : usedCount rf + 2 * input.length + 1 ≤ rf.header.maxRuns)
    (hsize : (input.length : Int) + 2 < intMax) (hne : input ≠ []) :
    ∃ runs rf2 final rf3,
      generateRuns k bufSize input rf = .ok (runs, rf2) ∧
      externalMergeSort runs rf2 = .ok (final, rf3) ∧
      (readRun rf3 final : Multiset Int) = (input : Multiset Int) := by
  obtain ⟨runs, rf2, final, rf3, hgen, hems, _, _, _, _, hperm, _, _⟩ :=
    pipeline_spec k bufSize input rf hk hSess hroom hsize hne
  exact ⟨runs, rf2, final, rf3, hgen, hems, hperm⟩

/-- Closed witness for C2. -/
theorem externalSort_permutation_witness :
    (1 ≤ 2 ∧ SessionInv (freshRF 12) ∧
     usedCount (freshRF 12) + 2 * ([5, 4, 6] : List Int).length + 1
       ≤ (freshRF 12).header.maxRuns ∧
     (([5, 4, 6] : List Int).length : Int) + 2 < intMax ∧
     ([5, 4, 6] : List Int) ≠ []) ∧
    (∃ runs rf2 final rf3,
      generateRuns 2 4 [5, 4, 6] (freshRF 12) = .ok (runs, rf2) ∧
      externalMergeSort runs rf2 = .ok (final, rf3) ∧
      (readRun rf3 final : Multiset Int) = (([5, 4, 6] : List Int)
        : Multiset Int)) :=
  ⟨⟨by decide, sessionInv_fresh 12, by decide, by decide, by decide⟩,
   externalSort_permutation 2 4 [5, 4, 6] (freshRF 12) (by decide)
     (sessionInv_fresh 12) (by decide) (by decide) (by decide)⟩

/-- C3: for an input of `N` elements, the `elementCount`s of the runs
returned by `generateRuns` sum to `N`, and the final run of
`externalMergeSort` has `elementCount = N`. -/
theorem count_conservation (k bufSize : Nat) (input : List Int)
    (rf : RunFile) (hk : 1 ≤ k) (hSess : SessionInv rf)
    (hroom : usedCount rf + 2 * input.length + 1 ≤ rf.header.maxRuns)
    (hsize : (input.length : Int) + 2 < intMax) (hne : input ≠ []) :
    ∃ runs rf2 final rf3,
      generateRuns k bufSize input rf = .ok (runs, rf2) ∧
      externalMergeSort runs rf2 = .ok (final, rf3) ∧
      (runs.map (fun m => m.elementCount)).sum = input.length ∧
      final.elementCount = input.length := by
  obtain ⟨runs, rf2, final, rf3, hgen, hems, _, _, _, _, _, hc1, hc2⟩ :=
    pipeline_spec k bufSize input rf hk hSess hroom hsize hne
  exact ⟨runs, rf2, final, rf3, hgen, hems, hc1, hc2⟩

/-- Closed witness for C3. -/
theorem count_conservation_witness :
    (1 ≤ 2 ∧ SessionInv (freshRF 12) ∧
     usedCount (freshRF 12) + 2 * ([9, 8, 7] : List Int).length + 1
       ≤ (freshRF 12).header.maxRuns ∧
     (([9, 8, 7] : List Int).length : Int) + 2 < intMax ∧
     ([9, 8, 7] : List Int) ≠ []) ∧
    (∃ runs rf2 final rf3,
      generateRuns 2 4 [9, 8, 7] (freshRF 12) = .ok (runs, rf2) ∧
      externalMergeSort runs rf2 = .ok (final, rf3) ∧
      (runs.map (fun m => m.elementCount)).sum
        = ([9, 8, 7] : List Int).length ∧
      final.elementCount = ([9, 8, 7] : List Int).length) :=
  ⟨⟨by decide, sessionInv_fresh 12, by decide, by decide, by decide⟩,
   count_conservation 2 4 [9, 8, 7] (freshRF 12) (by decide)
     (sessionInv_fresh 12) (by decide) (by decide) (by decide)⟩

/-- C6: in the compute loop, when the just-emitted winner is replaced by
the next input element `v`, the loop continues with a tree whose winner
slot holds `v` tagged with the current run id when `v` is at least the
just-emitted value, and with the current run id plus one when `v` is
strictly smaller; every other slot is untouched. -/
theorem tag_rule (k : Nat) (t : List Nat) (L : List RunNode)
    (fuel bufSize : Nat) (cur v : Int) (rest2 : List Int)
    (s s1 : RGState) (hw0 : t.getD 0 0 < k) (hL : L.length = k + 1)
    (hsent : ¬(L.getD (t.getD 0 0) SENTINEL).runID = intMax)
    (hscrut : (if cur < (L.getD (t.getD 0 0) SENTINEL).runID then
        ((s.flushOut).recordRun).map (fun x => x.startNewRun)
      else Except.ok s) = .ok s1) :
    ∃ lt2 : LoserTree,
      rgLoop (fuel + 1) bufSize ⟨k, t, L⟩ cur (v :: rest2) s
        = rgLoop fuel bufSize lt2
            (if cur < (L.getD (t.getD 0 0) SENTINEL).runID then
              (L.getD (t.getD 0 0) SENTINEL).runID else cur)
            rest2
            (s1.pushOut bufSize (L.getD (t.getD 0 0) SENTINEL).value) ∧
      lt2.leaves.getD (t.getD 0 0) SENTINEL
        = (if (L.getD (t.getD 0 0) SENTINEL).value ≤ v
           then RunNode.mk v
             (if cur < (L.getD (t.getD 0 0) SENTINEL).runID then
               (L.getD (t.getD 0 0) SENTINEL).runID else cur)
           else RunNode.mk v
             ((if cur < (L.getD (t.getD 0 0) SENTINEL).runID then
               (L.getD (t.getD 0 0) SENTINEL).runID else cur) + 1)) ∧
      (∀ i, i < k + 1 → i ≠ t.getD 0 0 →
        lt2.leaves.getD i SENTINEL = L.getD i SENTINEL) := by
  refine ⟨LoserTree.replaceWinner ⟨k, t, L⟩ v
    (if v < (L.getD (t.getD 0 0) SENTINEL).value then
      (if cur < (L.getD (t.getD 0 0) SENTINEL).runID then
        (L.getD (t.getD 0 0) SENTINEL).runID else cur) + 1
     else (if cur < (L.getD (t.getD 0 0) SENTINEL).runID then
        (L.getD (t.getD 0 0) SENTINEL).runID else cur)), ?_, ?_, ?_⟩
  · simp only [rgLoop]
    dsimp only [LoserTree.getWinner]
    rw [if_neg hsent, hscrut]
  · have hlv : (LoserTree.replaceWinner ⟨k, t, L⟩ v
        (if v < (L.getD (t.getD 0 0) SENTINEL).value then
          (if cur < (L.getD (t.getD 0 0) SENTINEL).runID then
            (L.getD (t.getD 0 0) SENTINEL).runID else cur) + 1
         else (if cur < (L.getD (t.getD 0 0) SENTINEL).runID then
            (L.getD (t.getD 0 0) SENTINEL).runID else cur))).leaves
        = L.set (t.getD 0 0)
            ⟨v, if v < (L.getD (t.getD 0 0) SENTINEL).value then
              (if cur < (L.getD (t.getD 0 0) SENTINEL).runID then
                (L.getD (t.getD 0 0) SENTINEL).runID else cur) + 1
             else (if cur < (L.getD (t.getD 0 0) SENTINEL).runID then
                (L.getD (t.getD 0 0) SENTINEL).runID else cur)⟩ := rfl
    rw [hlv, getD_set_self _ _ _ _ (by omega)]
    by_cases hv : v < (L.getD (t.getD 0 0) SENTINEL).value
    · rw [if_pos hv,
        if_neg (show ¬(L.getD (t.getD 0 0) SENTINEL).value ≤ v by omega)]
    · rw [if_neg hv,
        if_pos (show (L.getD (t.getD 0 0) SENTINEL).value ≤ v by omega)]
  · intro i hi hne2
    have hlv : (LoserTree.replaceWinner ⟨k, t, L⟩ v
        (if v < (L.getD (t.getD 0 0) SENTINEL).value then
          (if cur < (L.getD (t.getD 0 0) SENTINEL).runID then
            (L.getD (t.getD 0 0) SENTINEL).runID else cur) + 1
         else (if cur < (L.getD (t.getD 0 0) SENTINEL).runID then
            (L.getD (t.getD 0 0) SENTINEL).runID else cur))).leaves
        = L.set (t.getD 0 0)
            ⟨v, if v < (L.getD (t.getD 0 0) SENTINEL).value then
              (if cur < (L.getD (t.getD 0 0) SENTINEL).runID then
                (L.getD (t.getD 0 0) SENTINEL).runID else cur) + 1
             else (if cur < (L.getD (t.getD 0 0) SENTINEL).runID then
                (L.getD (t.getD 0 0) SENTINEL).runID else cur)⟩ := rfl
    rw [hlv]
    exact getD_set_ne L _ i _ SENTINEL (fun he => hne2 he.symm)

/-- Closed witness for C6 on a two-slot tree with winner value 5 and
replacement value 3 (frozen into the next run). -/
theorem tag_rule_witness :
    (([0, 1] : List Nat).getD 0 0 < 2 ∧
     ([⟨5, 1⟩, ⟨7, 1⟩, SENTINEL] : List RunNode).length = 2 + 1 ∧
     ¬(([⟨5, 1⟩, ⟨7, 1⟩, SENTINEL] : List RunNode).getD
        (([0, 1] : List Nat).getD 0 0) SENTINEL).runID = intMax ∧
     (if (1 : Int) < (([⟨5, 1⟩, ⟨7, 1⟩, SENTINEL] : List RunNode).getD
          (([0, 1] : List Nat).getD 0 0) SENTINEL).runID then
        (((⟨freshRF 1, 0, 0, 0, [], []⟩ : RGState).flushOut).recordRun).map
          (fun x => x.startNewRun)
      else Except.ok (⟨freshRF 1, 0, 0, 0, [], []⟩ : RGState))
       = .ok (⟨freshRF 1, 0, 0, 0, [], []⟩ : RGState)) ∧
    (∃ lt2 : LoserTree,
      rgLoop (0 + 1) 4 ⟨2, [0, 1], [⟨5, 1⟩, ⟨7, 1⟩, SENTINEL]⟩ 1 [3]
          ⟨freshRF 1, 0, 0, 0, [], []⟩
        = rgLoop 0 4 lt2
            (if (1 : Int) < (([⟨5, 1⟩, ⟨7, 1⟩, SENTINEL]
                : List RunNode).getD (([0, 1] : List Nat).getD 0 0)
                SENTINEL).runID then
              (([⟨5, 1⟩, ⟨7, 1⟩, SENTINEL] : List RunNode).getD
                (([0, 1] : List Nat).getD 0 0) SENTINEL).runID else 1)
            []
            ((⟨freshRF 1, 0, 0, 0, [], []⟩ : RGState).pushOut 4
              (([⟨5, 1⟩, ⟨7, 1⟩, SENTINEL] : List RunNode).getD
                (([0, 1] : List Nat).getD 0 0) SENTINEL).value) ∧
      lt2.leaves.getD (([0, 1] : List Nat).getD 0 0) SENTINEL
        = (if (([⟨5, 1⟩, ⟨7, 1⟩, SENTINEL] : List RunNode).getD
              (([0, 1] : List Nat).getD 0 0) SENTINEL).value ≤ (3 : Int)
           then RunNode.mk 3
             (if (1 : Int) < (([⟨5, 1⟩, ⟨7, 1⟩, SENTINEL]
                 : List RunNode).getD (([0, 1] : List Nat).getD 0 0)
                 SENTINEL).runID then
               (([⟨5, 1⟩, ⟨7, 1⟩, SENTINEL] : List RunNode).getD
                 (([0, 1] : List Nat).getD 0 0) SENTINEL).runID else 1)
           else RunNode.mk 3
             ((if (1 : Int) < (([⟨5, 1⟩, ⟨7, 1⟩, SENTINEL]
                 : List RunNode).getD (([0, 1] : List Nat).getD 0 0)
                 SENTINEL).runID then
               (([⟨5, 1⟩, ⟨7, 1⟩, SENTINEL] : List RunNode).getD
                 (([0, 1] : List Nat).getD 0 0) SENTINEL).runID
              else 1) + 1)) ∧
      (∀ i, i < 2 + 1 → i ≠ ([0, 1] : List Nat).getD 0 0 →
        lt2.leaves.getD i SENTINEL
          = ([⟨5, 1⟩, ⟨7, 1⟩, SENTINEL] : List RunNode).getD i
              SENTINEL)) :=
  ⟨⟨by decide, by decide, by decide, rfl⟩,
   tag_rule 2 [0, 1] [⟨5, 1⟩, ⟨7, 1⟩, SENTINEL] 0 4 1 3 []
     ⟨freshRF 1, 0, 0, 0, [], []⟩ ⟨freshRF 1, 0, 0, 0, [], []⟩
     (by decide) (by decide) (by decide) rfl⟩

theorem getD_replicate_self {α : Type} (n j : Nat) (a : α) :
    (List.replicate n a).getD j a = a := by
  induction n generalizing j with
  | zero =>
    cases j <;> rfl
  | succ n ih =>
    cases j with
    | zero => rfl
    | succ m => exact ih m

/-- C10: `generateRuns` on an empty input file returns an empty run
vector, yet it has already allocated one directory slot (allocation
happens before any input is read), leaving exactly one fresh slot marked
`isUsed = true` with `startOffset = 0` and `elementCount = 0` that is
never sealed and never reported to the caller. -/
theorem generateRuns_empty (k bufSize : Nat) (rf : RunFile) (hk : 1 ≤ k)
    (hSess : SessionInv rf)
    (hfree : usedCount rf < rf.header.maxRuns) :
    ∃ i, (List.range rf.header.maxRuns).find?
        (fun j => ¬(rf.directory.getD j RunMetadata.free).isUsed)
        = some i ∧
      generateRuns k bufSize [] rf = .ok ([], (rf.allocateNewRun).2) ∧
      (rf.allocateNewRun).2.directory.getD i RunMetadata.free
        = ⟨0, 0, true⟩ ∧
      usedCount (rf.allocateNewRun).2 = usedCount rf + 1 := by
  obtain ⟨i, hfind⟩ := find_free_slot rf hSess.2.2.2.1 hfree
  have ha := allocateNewRun_some rf i hSess.1 hfind
  have hiLt : i < rf.header.maxRuns :=
    List.mem_range.mp (List.mem_of_find?_eq_some hfind)
  have hiFree : (rf.directory.getD i RunMetadata.free).isUsed = false := by
    simpa using List.find?_some hfind
  have hiLen : i < rf.directory.length := by
    have := hSess.2.2.2.1
    omega
  have hlv : (LoserTree.initTree k ([] : List Int)).leaves
      = List.replicate (k + 1) SENTINEL := by
    show ((List.range k).map fun j =>
        if j < ([] : List Int).length then RunNode.mk _ 1 else SENTINEL)
      ++ [SENTINEL] = _
    have h2 : ((List.range k).map fun j =>
        if j < ([] : List Int).length then
          RunNode.mk (([] : List Int).getD j 0) 1 else SENTINEL)
        = (List.range k).map (fun _ => SENTINEL) :=
      List.map_congr_left (fun j _ => by rw [if_neg (by simp)])
    rw [h2, List.map_const', List.length_range, List.replicate_succ' k]
  have hsent : ((LoserTree.initTree k ([] : List Int)).leaves.getD
      ((LoserTree.initTree k ([] : List Int)).tree.getD 0 0)
      SENTINEL).runID = intMax := by
    rw [hlv, getD_replicate_self]
    rfl
  refine ⟨i, hfind, ?_, ?_, ?_⟩
  · simp only [generateRuns, List.length_nil, List.take_nil,
      List.drop_nil]
    simp only [rgLoop]
    dsimp only [LoserTree.getWinner]
    rw [if_pos hsent]
    have hf : (⟨(rf.allocateNewRun).2, (rf.allocateNewRun).1,
        (rf.allocateNewRun).2.getAppendOffset, 0, [], []⟩
          : RGState).flushOut
        = ⟨(rf.allocateNewRun).2, (rf.allocateNewRun).1,
            (rf.allocateNewRun).2.getAppendOffset, 0, [], []⟩ := rfl
    rw [hf, recordRun_zero _ rfl]
  · rw [ha]
    dsimp only
    rw [getD_set_self _ _ _ _ hiLen]
  · rw [ha]
    unfold usedCount
    dsimp only
    have hc := countP_set rf.directory i ⟨0, 0, true⟩ RunMetadata.free
      (fun m => m.isUsed) hiLen
    simp only [hiFree, Bool.false_eq_true, if_false, if_true] at hc
    omega

/-- Closed witness for C10 on a fresh three-slot run file. -/
theorem generateRuns_empty_witness :
    (1 ≤ 2 ∧ SessionInv (freshRF 3) ∧
     usedCount (freshRF 3) < (freshRF 3).header.maxRuns) ∧
    (∃ i, (List.range (freshRF 3).header.maxRuns).find?
        (fun j => ¬((freshRF 3).directory.getD j RunMetadata.free).isUsed)
        = some i ∧
      generateRuns 2 4 [] (freshRF 3)
        = .ok ([], ((freshRF 3).allocateNewRun).2) ∧
      ((freshRF 3).allocateNewRun).2.directory.getD i RunMetadata.free
        = ⟨0, 0, true⟩ ∧
      usedCount ((freshRF 3).allocateNewRun).2
        = usedCount (freshRF 3) + 1) :=
  ⟨⟨by decide, sessionInv_fresh 3, by decide⟩,
   generateRuns_empty 2 4 (freshRF 3) (by decide) (sessionInv_fresh 3)
     (by decide)⟩

end ExtSort
